import Mathlib

/-!
Shallow embedding of `dlink.cpp` (Knuth's Dancing Links exact-cover solver).

The C++ code keeps two `std::vector<Node>` arrays (`headers` and `nodes`);
each `Node` holds a `data` field and `prev`/`next` links.  Indices are
`int32_t`; every index stored in a `prev`/`next` field is nonnegative, so we
model indices as `Nat`; the `data` field can go negative (spacer tops), so it
is modelled as `Int`.  Vector reads out of bounds never happen in the runs we
reason about; we model reads with `getD` (default node) and writes with
`List.set` (out-of-range writes are no-ops).

Loops of the C++ code become fuel-indexed recursive functions returning
`Option`; `none` means the fuel ran out (the C++ loop would still be
running) or an `assert` fired (the process aborts).
-/

/-- One table cell: `data` plus the two links (`prev`/`next`),
mirroring `DLink::Node`. -/
structure DNode where
  data : Int
  prev : Nat
  next : Nat
  deriving Repr, DecidableEq

instance : Inhabited DNode := ⟨⟨0, 0, 0⟩⟩

/-- The solver state: the `headers` array, the `nodes` array, the row
counter `nrows` and the call counter `ncount`, mirroring the data members of
`class DLink`. -/
structure DLState where
  headers : List DNode
  nodes : List DNode
  nrows : Nat
  ncount : Nat
  deriving Repr, DecidableEq

namespace DLState

/-- `name(i)`: the `data` field of `headers[i]`. -/
def name (s : DLState) (i : Nat) : Int := (s.headers.getD i default).data

/-- `llink(i)`: the `prev` field of `headers[i]`. -/
def llink (s : DLState) (i : Nat) : Nat := (s.headers.getD i default).prev

/-- `rlink(i)`: the `next` field of `headers[i]`. -/
def rlink (s : DLState) (i : Nat) : Nat := (s.headers.getD i default).next

/-- `len(i)` / `top(i)`: the `data` field of `nodes[i]`. -/
def top (s : DLState) (i : Nat) : Int := (s.nodes.getD i default).data

/-- `len(i)` is the same field as `top(i)` in the C++ code. -/
def len (s : DLState) (i : Nat) : Int := s.top i

/-- `ulink(i)`: the `prev` field of `nodes[i]`. -/
def ulink (s : DLState) (i : Nat) : Nat := (s.nodes.getD i default).prev

/-- `dlink(i)`: the `next` field of `nodes[i]`. -/
def dlink (s : DLState) (i : Nat) : Nat := (s.nodes.getD i default).next

/-- `nnodes()`: the size of the `nodes` array. -/
def nnodes (s : DLState) : Nat := s.nodes.length

/-- `lastindex()`: `nodes.size()-1`. -/
def lastindex (s : DLState) : Nat := s.nodes.length - 1

/-- `isspacer(i)`: `top(i) <= 0`. -/
def isspacer (s : DLState) (i : Nat) : Bool := s.top i ≤ 0

/-- `nitems()`: `headers.size()-1`. -/
def nitems (s : DLState) : Nat := s.headers.length - 1

/-- Write the `prev` field of `headers[i]` (the assignment `llink(i) = v`). -/
def setLlink (s : DLState) (i v : Nat) : DLState :=
  { s with headers := s.headers.set i { s.headers.getD i default with prev := v } }

/-- Write the `next` field of `headers[i]` (the assignment `rlink(i) = v`). -/
def setRlink (s : DLState) (i v : Nat) : DLState :=
  { s with headers := s.headers.set i { s.headers.getD i default with next := v } }

/-- Write the `data` field of `nodes[i]` (the assignment `len(i) = v`). -/
def setLen (s : DLState) (i : Nat) (v : Int) : DLState :=
  { s with nodes := s.nodes.set i { s.nodes.getD i default with data := v } }

/-- Write the `prev` field of `nodes[i]` (the assignment `ulink(i) = v`). -/
def setUlink (s : DLState) (i v : Nat) : DLState :=
  { s with nodes := s.nodes.set i { s.nodes.getD i default with prev := v } }

/-- Write the `next` field of `nodes[i]` (the assignment `dlink(i) = v`). -/
def setDlink (s : DLState) (i v : Nat) : DLState :=
  { s with nodes := s.nodes.set i { s.nodes.getD i default with next := v } }

end DLState

/-- `DLink::init(nitems)`: `nitems+1` headers wired into one circular list,
`nitems+1` header nodes with empty vertical lists and zero length, and one
seed spacer. -/
def dlinit (nitems : Nat) : DLState :=
  { headers := (List.range (nitems + 1)).map fun i =>
      { data := Int.ofNat i, prev := (i + nitems) % (nitems + 1),
        next := (i + 1) % (nitems + 1) }
    nodes := ((List.range (nitems + 1)).map fun i => ⟨0, i, i⟩) ++ [⟨0, 0, 0⟩]
    nrows := 0
    ncount := 0 }

/-- The `DLink(int nitems)` constructor: it performs no validation of
`nitems` and just calls `init`, so in the model it always succeeds. -/
def construct (nitems : Nat) : Option DLState := some (dlinit nitems)

/-- The body of `addrow`'s loop for one character position `i`: if the
character is `'1'`, push `Node(item, ulink(item), item)` and splice it into
the bottom of item `i+1`'s vertical list, incrementing the item's length;
any other character is ignored. -/
def addrowStep (s : DLState) (i : Nat) (c : Char) : DLState :=
  if c = '1' then
    let item := i + 1
    let s1 : DLState := { s with nodes := s.nodes ++ [⟨(item : Int), s.ulink item, item⟩] }
    let index := s1.lastindex
    let s2 := s1.setDlink (s1.ulink index) index
    let s3 := s2.setUlink (s2.dlink index) index
    s3.setLen item (s3.len item + 1)
  else s

/-- `DLink::addrow(s)`: asserts `s.size() <= nitems()` and that the last
node is a spacer, appends one node per `'1'` character, asserts the row is
non-empty, then pushes the closing spacer and fixes the previous spacer's
`dlink`.  A failed assert aborts the process, modelled as `none`. -/
def addrow (s : DLState) (row : List Char) : Option DLState :=
  if row.length ≤ s.nitems then
    let spacer := s.lastindex
    if s.isspacer spacer then
      let s1 := (row.enum.foldl (fun t p => addrowStep t p.1 p.2) s)
      let rowstart := spacer + 1
      let rowend := s1.lastindex
      if rowstart ≤ rowend then
        let s2 : DLState :=
          { s1 with nodes := s1.nodes ++ [⟨s1.len spacer - 1, rowstart, 0⟩] }
        let s3 := s2.setDlink spacer rowend
        some { s3 with nrows := s3.nrows + 1 }
      else none
    else none
  else none

/-- Build a matrix from an item count and a list of rows: `construct`
followed by a sequence of `addrow` calls, as the `main` driver does. -/
def build (nitems : Nat) (rows : List (List Char)) : Option DLState :=
  rows.foldlM addrow (dlinit nitems)

/-- The loop of `DLink::hide(p)`: walk `q` forward from `p+1`; at a spacer
jump back to `ulink(q)`; otherwise splice node `q` out of its vertical list
and decrement its item's length.  Fuel-indexed; `none` when fuel runs out. -/
def hideLoop (p : Nat) : Nat → Nat → DLState → Option DLState
  | 0, _, _ => none
  | fuel + 1, q, s =>
    if q = p then some s
    else
      let x := s.top q
      let u := s.ulink q
      let d := s.dlink q
      if x ≤ 0 then hideLoop p fuel u s
      else
        let s1 := ((s.setDlink u d).setUlink d u).setLen x.toNat (s.len x.toNat - 1)
        hideLoop p fuel (q + 1) s1

/-- `DLink::hide(p)`. -/
def hide (fuel p : Nat) (s : DLState) : Option DLState := hideLoop p fuel (p + 1) s

/-- The loop of `DLink::unhide(p)`: walk `q` backward from `p-1`; at a
spacer jump to `dlink(q)`; otherwise splice node `q` back into its vertical
list and increment its item's length. -/
def unhideLoop (p : Nat) : Nat → Nat → DLState → Option DLState
  | 0, _, _ => none
  | fuel + 1, q, s =>
    if q = p then some s
    else
      let x := s.top q
      let u := s.ulink q
      let d := s.dlink q
      if x ≤ 0 then unhideLoop p fuel d s
      else
        let s1 := ((s.setDlink u q).setUlink d q).setLen x.toNat (s.len x.toNat + 1)
        unhideLoop p fuel (q - 1) s1

/-- `DLink::unhide(p)`. -/
def unhide (fuel p : Nat) (s : DLState) : Option DLState := unhideLoop p fuel (p - 1) s

/-- The loop of `DLink::cover(i)`: hide every option in item `i`'s vertical
list, following `dlink` from `i` back to `i`. -/
def coverLoop (i : Nat) : Nat → Nat → DLState → Option DLState
  | 0, _, _ => none
  | fuel + 1, p, s =>
    if p = i then some s
    else do
      let s1 ← hide fuel p s
      coverLoop i fuel (s1.dlink p) s1

/-- `DLink::cover(i)`: hide all options containing `i`, then splice `i` out
of the horizontal list. -/
def cover (fuel i : Nat) (s : DLState) : Option DLState := do
  let s1 ← coverLoop i fuel (s.dlink i) s
  let l := s1.llink i
  let r := s1.rlink i
  some ((s1.setRlink l r).setLlink r l)

/-- The loop of `DLink::uncover(i)`: unhide every option in item `i`'s
vertical list, following `ulink` from `i` back to `i`. -/
def uncoverLoop (i : Nat) : Nat → Nat → DLState → Option DLState
  | 0, _, _ => none
  | fuel + 1, p, s =>
    if p = i then some s
    else do
      let s1 ← unhide fuel p s
      uncoverLoop i fuel (s1.ulink p) s1

/-- `DLink::uncover(i)`: splice `i` back into the horizontal list, then
unhide all options containing `i` in reverse order. -/
def uncover (fuel i : Nat) (s : DLState) : Option DLState := do
  let l := s.llink i
  let r := s.rlink i
  let s1 := (s.setRlink l i).setLlink r i
  uncoverLoop i fuel (s1.ulink i) s1

/-- The loop of `DLink::chooseitem`: scan the horizontal list from
`rlink(0)` keeping the first item of strictly smallest length seen so far. -/
def chooseLoop : Nat → Nat → Nat → Int → DLState → Option Nat
  | 0, _, _, _, _ => none
  | fuel + 1, i, best, bestlen, s =>
    if i = 0 then some best
    else
      if s.len i < bestlen then chooseLoop fuel (s.rlink i) i (s.len i) s
      else chooseLoop fuel (s.rlink i) best bestlen s

/-- `DLink::chooseitem()`: minimum-length active item, leftmost on ties. -/
def chooseitem (fuel : Nat) (s : DLState) : Option Nat :=
  chooseLoop fuel (s.rlink 0) (s.rlink 0) (s.len (s.rlink 0)) s

/-- `DLink::getoption(p)`: scan forward to the next spacer and decode the
zero-based option index stored there as `-top-1`. -/
def getoption : Nat → Nat → DLState → Option Int
  | 0, _, _ => none
  | fuel + 1, p, s =>
    if 0 ≤ s.top p then getoption fuel (p + 1) s
    else some (-(s.top p) - 1)

/-- Forward half of `rdance`'s inner loop: starting at `k+1`, cover the item
of every non-spacer node of option `k`'s row, wrapping at the spacer via
`ulink`, until `p` returns to `k`. -/
def coverRowLoop (k : Nat) : Nat → Nat → DLState → Option DLState
  | 0, _, _ => none
  | fuel + 1, p, s =>
    if p = k then some s
    else
      let j := s.top p
      if j ≤ 0 then coverRowLoop k fuel (s.ulink p) s
      else do
        let s1 ← cover fuel j.toNat s
        coverRowLoop k fuel (p + 1) s1

/-- Backward half of `rdance`'s inner loop: starting at `k-1`, uncover the
item of every non-spacer node of option `k`'s row in reverse, wrapping at
the spacer via `dlink`, until `p` returns to `k`. -/
def uncoverRowLoop (k : Nat) : Nat → Nat → DLState → Option DLState
  | 0, _, _ => none
  | fuel + 1, p, s =>
    if p = k then some s
    else
      let j := s.top p
      if j ≤ 0 then uncoverRowLoop k fuel (s.dlink p) s
      else do
        let s1 ← uncover fuel j.toNat s
        uncoverRowLoop k fuel (p - 1) s1

/-- The `for (int k = dlink(i); k != i; k = dlink(k))` loop of `rdance`:
for each option `k` of item `i`'s list, cover the option's other items,
push `k`, recurse (the recursive `rdance` call is the parameter `rec`),
pop, and uncover in reverse; the `assert(top(k) == i)` is modelled as
`none` on violation. -/
def rdanceOpts (rec : DLState → List Nat → Option (DLState × List (List Nat))) :
    Nat → Nat → Nat → DLState → List Nat → Option (DLState × List (List Nat))
  | 0, _, _, _, _ => none
  | fuel + 1, i, k, s, stack =>
    if k = i then some (s, [])
    else
      if s.top k = (i : Int) then do
        let s1 ← coverRowLoop k fuel (k + 1) s
        let (s2, sols1) ← rec s1 (stack ++ [k])
        let s3 ← uncoverRowLoop k fuel (k - 1) s2
        let (s4, sols2) ← rdanceOpts rec fuel i (s3.dlink k) s3 stack
        some (s4, sols1 ++ sols2)
      else none

/-- `DLink::rdance(visitor, stack)` with a solution-collecting visitor: the
result is the final state together with the list of stack snapshots passed
to `visit`, in visit order.  `ncount` is incremented on entry; when
`rlink(0) = 0` the current stack is reported; otherwise the chosen item is
covered, its options iterated, and the item uncovered. -/
def rdance : Nat → DLState → List Nat → Option (DLState × List (List Nat))
  | 0, _, _ => none
  | fuel + 1, s0, stack =>
    let s := { s0 with ncount := s0.ncount + 1 }
    if s.rlink 0 = 0 then some (s, [stack])
    else do
      let i ← chooseitem fuel s
      let s1 ← cover fuel i s
      let (s2, sols) ← rdanceOpts (rdance fuel) fuel i (s1.dlink i) s1 stack
      let s3 ← uncover fuel i s2
      some (s3, sols)

/-- The inner `j` loop of `Counter::visit` for one chosen option: walk the
`config` string; wherever the option's row has a `'1'`, assert the slot is
still `'0'` (else abort, modelled `none`) and write the option's rank
character. -/
def markRow (row : List Char) (ch : Char) : Nat → List Char → Option (List Char)
  | _, [] => some []
  | j, c :: cs => do
    let cs' ← markRow row ch (j + 1) cs
    if row.getD j ' ' = '1' then
      if c = '0' then some (ch :: cs') else none
    else some (c :: cs')

/-- Rank-to-character encoding of `Counter::visit`: `k+'0'` for `k < 10`,
`k-10+'a'` otherwise. -/
def rankChar (k : Nat) : Char :=
  if k < 10 then Char.ofNat (k + '0'.toNat) else Char.ofNat (k - 10 + 'a'.toNat)

/-- The outer `i` loop of `Counter::visit`: mark the sorted chosen options
into the configuration string, rank `i+1` for the `i`-th option. -/
def renderOpts (rows : List (List Char)) : Nat → List Int → List Char → Option (List Char)
  | _, [], config => some config
  | i, opt :: rest, config => do
    let config' ← markRow (rows.getD opt.toNat []) (rankChar (i + 1)) 0 config
    renderOpts rows (i + 1) rest config'

/-- Insert into an ascending list, used to model `std::sort` on the option
indices (an ascending sort of integers). -/
def insertSorted (a : Int) : List Int → List Int
  | [] => [a]
  | b :: bs => if a ≤ b then a :: b :: bs else b :: insertSorted a bs

/-- Ascending insertion sort, the model of `std::sort` in `Counter::visit`. -/
def sortInts (l : List Int) : List Int := l.foldr insertSorted []

/-- `Counter::visit`: recover each stacked node's option index via
`getoption`, sort ascending, and render one output line of length
`nitems`. -/
def counterVisit (fuel : Nat) (rows : List (List Char)) (s : DLState) (stack : List Nat) :
    Option (List Char) := do
  let opts ← stack.mapM (fun k => getoption fuel k s)
  let options := sortInts opts
  renderOpts rows 0 options (List.replicate s.nitems '0')

/-- The worked 7-item instance of the spec: options A..F in input order. -/
def exRows : List (List Char) :=
  ["1001001".data, "1001000".data, "0001101".data,
   "0010110".data, "0110011".data, "0100001".data]

/-- Matrix of the worked instance followed by the top-level search. -/
def exRun : Option (DLState × List (List Nat)) := do
  let m ← build 7 exRows
  rdance 100 m []

def exSols : List (List Nat) :=
  match exRun with
  | some r => r.2
  | none => []

def exState : DLState :=
  match build 7 exRows with
  | some m => m
  | none => dlinit 0

/-- Character normalization: `addrow` only tests `s[i] == '1'`, so any
non-`'1'` character acts exactly like `'0'`. -/
def normChar (c : Char) : Char := if c = '1' then '1' else '0'

/-- Boolean characterization of the horizontal traversal: starting at `j`
and following `rlink`, the visited non-root entries are exactly `l`, after
which the walk is back at the root `0`. -/
def hchain (s : DLState) : Nat → List Nat → Bool
  | j, [] => decide (j = 0)
  | j, a :: l => decide (j = a) && decide (a ≠ 0) && hchain s (s.rlink a) l

/-- Functional model of the accumulator of `chooseitem`'s loop: fold the
remaining items keeping the first strictly smaller length. -/
def chooseAcc (s : DLState) : Nat → Int → List Nat → Nat
  | best, _, [] => best
  | best, bestlen, a :: l =>
    if s.len a < bestlen then chooseAcc s a (s.len a) l else chooseAcc s best bestlen l

/-- One non-spacer step of `hide`: splice node `q` out of its vertical list
(`dlink(u) = d; ulink(d) = u; len(x)--`), exactly the `else` branch of the
`hide` loop. -/
def spliceOut (s : DLState) (q : Nat) : DLState :=
  ((s.setDlink (s.ulink q) (s.dlink q)).setUlink (s.dlink q) (s.ulink q)).setLen
    (s.top q).toNat (s.len (s.top q).toNat - 1)

/-- One non-spacer step of `unhide`: splice node `q` back into its vertical
list (`dlink(u) = q; ulink(d) = q; len(x)++`), exactly the `else` branch of
the `unhide` loop. -/
def spliceIn (s : DLState) (q : Nat) : DLState :=
  ((s.setDlink (s.ulink q) q).setUlink (s.dlink q) q).setLen
    (s.top q).toNat (s.len (s.top q).toNat + 1)

/-- The consecutive node positions `a, a+1, …, b` (empty when `b < a`):
the cells of one option's row. -/
def rowCells (a b : Nat) : List Nat := (List.range (b + 1 - a)).map (a + ·)

/-- The cells of the row of `p` in the order the `hide` loop visits them:
`p+1 … b`, then (after the spacer jump) `a … p-1`. -/
def wrapCells (a b p : Nat) : List Nat := rowCells (p + 1) b ++ rowCells a (p - 1)

/-- Iterated `spliceOut` over a list of cells. -/
def spliceFold (s : DLState) (C : List Nat) : DLState := C.foldl spliceOut s

/-- Iterated `spliceIn` over a list of cells. -/
def unspliceFold (s : DLState) (C : List Nat) : DLState := C.foldl spliceIn s

/-- `r` lies in the vertical list structure of item `x`: it is either the
header node `x` itself or a cell whose `top` is `x`; in both cases it is a
legal index. -/
abbrev colmate (s : DLState) (x r : Nat) : Prop :=
  r < s.nodes.length ∧ (r = x ∨ (s.nitems < r ∧ s.top r = (x : Int)))

/-- Static well-formedness of a cell: a genuine (non-header, non-spacer)
node whose `top` names a real item and whose two vertical links stay inside
that item's column. -/
abbrev cellTagOK (s : DLState) (q : Nat) : Prop :=
  s.nitems < q ∧ q < s.nodes.length ∧ 1 ≤ s.top q ∧ s.top q ≤ (s.nitems : Int) ∧
  (s.top q).toNat < s.nodes.length ∧
  colmate s (s.top q).toNat (s.ulink q) ∧ colmate s (s.top q).toNat (s.dlink q)

/-- A currently linked cell: statically well-formed and doubly linked — its
vertical neighbors point back at it. -/
abbrev cellOK (s : DLState) (q : Nat) : Prop :=
  cellTagOK s q ∧ s.dlink (s.ulink q) = q ∧ s.ulink (s.dlink q) = q

/-- Well-formed row occupying positions `a..b`, bracketed by spacers at
`a-1` (whose `dlink` is `b`) and `b+1` (whose `ulink` is `a`), every cell
linked and no two cells sharing an item. -/
abbrev rowOK (s : DLState) (a b : Nat) : Prop :=
  s.nitems + 1 < a ∧ a ≤ b ∧ b + 1 < s.nodes.length ∧
  s.top (b + 1) ≤ 0 ∧ s.ulink (b + 1) = a ∧
  s.top (a - 1) ≤ 0 ∧ s.dlink (a - 1) = b ∧
  (∀ q ∈ rowCells a b, cellOK s q) ∧
  ((rowCells a b).map s.top).Nodup

/-- Boolean characterization of a vertical traversal: starting at `j` and
following `dlink`, the visited cells are exactly `P`, ending back at the
header `i`. -/
def vchain (s : DLState) (i : Nat) : Nat → List Nat → Bool
  | j, [] => decide (j = i)
  | j, p :: P => decide (j = p) && vchain s i (s.dlink p) P

/-- Everything `cover i` needs from a reachable state: `i` is a real item,
horizontally linked (with consistent neighbors that are not `i` itself),
vertically consistent at its header; `P` lists the options of `i`'s column
in `dlink` order, every `P`-cell carries `top = i` and sits inside a
well-formed row (`rA`/`rB` give the row bounds), and distinct options of
`P` occupy disjoint position ranges. -/
abbrev CoverOK (s : DLState) (i : Nat) (P : List Nat) (rA rB : Nat → Nat) : Prop :=
  1 ≤ i ∧ i ≤ s.nitems ∧ i < s.nodes.length ∧ i < s.headers.length ∧
  s.llink i < s.headers.length ∧ s.rlink i < s.headers.length ∧
  s.llink i ≠ i ∧ s.rlink i ≠ i ∧
  s.rlink (s.llink i) = i ∧ s.llink (s.rlink i) = i ∧
  s.dlink (s.ulink i) = i ∧ s.ulink (s.dlink i) = i ∧
  vchain s i (s.dlink i) P = true ∧
  (∀ p ∈ P, s.top p = (i : Int)) ∧
  (∀ p ∈ P, rA p ≤ p ∧ p ≤ rB p ∧ rowOK s (rA p) (rB p)) ∧
  P.Pairwise (fun p p' => rB p < rA p' ∨ rB p' < rA p)

/-- The state after `cover i` has hidden all rows of the column list `P`
(row bounds given by `rA`/`rB`): the splice folds of every row's wrap
cells, applied in column order. -/
def coverFold (rA rB : Nat → Nat) (s : DLState) (P : List Nat) : DLState :=
  P.foldl (fun t p => spliceFold t (wrapCells (rA p) (rB p) p)) s

/-- The full result of `cover i`: the hidden rows plus the horizontal
splice of header `i`. -/
def coverResult (rA rB : Nat → Nat) (i : Nat) (s : DLState) (P : List Nat) : DLState :=
  ((coverFold rA rB s P).setRlink (s.llink i) (s.rlink i)).setLlink (s.rlink i) (s.llink i)

/-- Static shape of one row `ab = (a, b)`: bracketed by spacers whose
cross links name the row ends, cells carrying real item numbers, no item
twice. -/
abbrev rowStatic (s : DLState) (ab : Nat × Nat) : Prop :=
  s.nitems + 1 < ab.1 ∧ ab.1 ≤ ab.2 ∧ ab.2 + 1 < s.nodes.length ∧
  s.top (ab.2 + 1) ≤ 0 ∧ s.ulink (ab.2 + 1) = ab.1 ∧
  s.top (ab.1 - 1) ≤ 0 ∧ s.dlink (ab.1 - 1) = ab.2 ∧
  (∀ q ∈ rowCells ab.1 ab.2, 1 ≤ s.top q ∧ s.top q ≤ (s.nitems : Int)) ∧
  ((rowCells ab.1 ab.2).map s.top).Nodup

/-- The items of row `ab`, as stored `top` values. -/
def itemsOf (s : DLState) (ab : Nat × Nat) : List Int :=
  (rowCells ab.1 ab.2).map s.top

/-- A row is alive for the covered-item list `K` when none of its items is
covered. -/
def rowAlive (s : DLState) (K : List Nat) (ab : Nat × Nat) : Bool :=
  decide (∀ x ∈ K, (x : Int) ∉ itemsOf s ab)

/-- The items `1..n` not currently covered, in increasing order. -/
def activeList (n : Nat) (K : List Nat) : List Nat :=
  (List.range' 1 n).filter (fun x => decide (x ∉ K))

/-- Boolean characterization of the horizontal doubly linked list: from
header `x` the remaining active items are `A`, each consecutive pair
mutually linked, closing at the root `0`. -/
def hlinked (s : DLState) : Nat → List Nat → Bool
  | x, [] => decide (s.rlink x = 0) && decide (s.llink 0 = x) && decide (x < s.headers.length)
  | x, y :: A => decide (s.rlink x = y) && decide (s.llink y = x) &&
      decide (x < s.headers.length) && hlinked s y A

/-- The search-time state invariant: sizes, static rows in increasing
disjoint position order, the horizontal list over the active items, and
for every active item a vertical list `cols x` that is a consistent
doubly linked chain holding exactly the `x`-cells of the alive rows. -/
abbrev SearchInv (s : DLState) (n : Nat) (Rows : List (Nat × Nat)) (K : List Nat)
    (cols : Nat → List Nat) : Prop :=
  s.nitems = n ∧ 0 < s.headers.length ∧
  (∀ ab ∈ Rows, rowStatic s ab) ∧
  Rows.Pairwise (fun ab ab' => ab.2 < ab'.1) ∧
  hlinked s 0 (activeList n K) = true ∧
  (∀ x, 1 ≤ x → x ≤ n → x ∉ K →
    x < s.nodes.length ∧
    vchain s x (s.dlink x) (cols x) = true ∧
    s.dlink (s.ulink x) = x ∧ s.ulink (s.dlink x) = x ∧
    (cols x).Nodup ∧
    (∀ c ∈ cols x, s.top c = (x : Int)) ∧
    (∀ c, c ∈ cols x ↔
      ∃ ab, ab ∈ Rows ∧ rowAlive s K ab = true ∧ c ∈ rowCells ab.1 ab.2 ∧
        s.top c = (x : Int))) ∧
  (∀ ab ∈ Rows, rowAlive s K ab = true → ∀ c ∈ rowCells ab.1 ab.2, cellOK s c)

/-- `{ s with ncount := c }`: the search bumps only this counter, so the
states along a search differ from their restorations exactly by it. -/
def setNc (s : DLState) (c : Nat) : DLState := { s with ncount := c }

/-- Covered-item bookkeeping: the covered list holds distinct real items. -/
abbrev Kwf (n : Nat) (K : List Nat) : Prop := K.Nodup ∧ ∀ y ∈ K, 1 ≤ y ∧ y ≤ n

/-- The live column of item `y`: its option cells `L` form the `dlink`
chain out of the header, every member a linked cell tagged `y`. -/
abbrev ColC (s : DLState) (y : Nat) (L : List Nat) : Prop :=
  1 ≤ y ∧ y ≤ s.nitems ∧ y < s.nodes.length ∧
  vchain s y (s.dlink y) L = true ∧
  s.dlink (s.ulink y) = y ∧ s.ulink (s.dlink y) = y ∧
  L.Nodup ∧ (∀ c ∈ L, s.top c = (y : Int)) ∧ (∀ c ∈ L, cellOK s c)

/-- The bounds of the row of node `p`, looked up among the recorded rows. -/
def rowFind (Rows : List (Nat × Nat)) (p : Nat) : Nat × Nat :=
  (Rows.find? (fun ab => decide (ab.1 ≤ p ∧ p ≤ ab.2))).getD (0, 0)

/-- Does cell `c` lie inside the row of some option `p` of the list `P`
(row bounds given by `rA`/`rB`)? -/
def hiddenBy (rA rB : Nat → Nat) (P : List Nat) (c : Nat) : Bool :=
  P.any (fun p => decide (rA p ≤ c) && decide (c ≤ rB p))

/-- First spacer at or after position `q`. -/
def nextSpacer (s : DLState) : Nat → Nat → Option Nat
  | 0, _ => none
  | fuel + 1, q => if s.top q ≤ 0 then some q else nextSpacer s fuel (q + 1)

/-- The item set of the option containing node `k`, read off the matrix:
scan forward to the row's closing spacer, whose `ulink` names the row
start. -/
def optionItems (m : DLState) (k : Nat) : List Int :=
  match nextSpacer m m.nodes.length k with
  | some sp => itemsOf m (m.ulink sp, sp - 1)
  | none => []

/-- A solution fragment `ext` chosen below covered set `K`: every entry is
a node of a recorded row, the items of those rows cover each uncovered item
exactly once, and never touch a covered item. -/
abbrev ExtGood (s : DLState) (n : Nat) (Rows : List (Nat × Nat)) (K : List Nat)
    (ext : List Nat) : Prop :=
  (∀ k ∈ ext, ∃ ab, ab ∈ Rows ∧ k ∈ rowCells ab.1 ab.2) ∧
  (∀ y : Nat, 1 ≤ y → y ≤ n → y ∉ K →
    ∃! k, k ∈ ext ∧ (y : Int) ∈ itemsOf s (rowFind Rows k)) ∧
  (∀ k ∈ ext, ∀ z ∈ itemsOf s (rowFind Rows k),
    ∃ y : Nat, z = (y : Int) ∧ 1 ≤ y ∧ y ≤ n ∧ y ∉ K)

/-- The search variant of the spec's refinement claim: identical to
`rdance` except that `chooseitem` is replaced by "always pick the first
active item", i.e. the root's `rlink`. -/
def rdanceF : Nat → DLState → List Nat → Option (DLState × List (List Nat))
  | 0, _, _ => none
  | fuel + 1, s0, stack =>
    let s := { s0 with ncount := s0.ncount + 1 }
    if s.rlink 0 = 0 then some (s, [stack])
    else do
      let i := s.rlink 0
      let s1 ← cover fuel i s
      let (s2, sols) ← rdanceOpts (rdanceF fuel) fuel i (s1.dlink i) s1 stack
      let s3 ← uncover fuel i s2
      some (s3, sols)

/-- The option identity of the row containing node `k`: the row's first
node position, read off the matrix by scanning to the closing spacer whose
`ulink` names the row start.  Distinct appended rows have distinct starts,
so this is a faithful stand-in for the zero-based option index. -/
def optionId (m : DLState) (k : Nat) : Nat :=
  match nextSpacer m m.nodes.length k with
  | some sp => m.ulink sp
  | none => 0

/-! ### Theorems about the claims -/

/-! ### Supporting lemmas -/

/-- Writing a header field never changes the nodes array. -/
theorem setRlink_nodes (s : DLState) (i v : Nat) : (s.setRlink i v).nodes = s.nodes := rfl

theorem setLlink_nodes (s : DLState) (i v : Nat) : (s.setLlink i v).nodes = s.nodes := rfl

/-- Writing a node field never changes the headers array. -/
theorem setDlink_headers (s : DLState) (i v : Nat) : (s.setDlink i v).headers = s.headers := rfl

theorem setUlink_headers (s : DLState) (i v : Nat) : (s.setUlink i v).headers = s.headers := rfl

theorem setLen_headers (s : DLState) (i : Nat) (v : Int) : (s.setLen i v).headers = s.headers := rfl

/-- Node writes preserve the length of the nodes array. -/
theorem setDlink_nodes_length (s : DLState) (i v : Nat) :
    (s.setDlink i v).nodes.length = s.nodes.length := by
  simp [DLState.setDlink]

theorem setUlink_nodes_length (s : DLState) (i v : Nat) :
    (s.setUlink i v).nodes.length = s.nodes.length := by
  simp [DLState.setUlink]

theorem setLen_nodes_length (s : DLState) (i : Nat) (v : Int) :
    (s.setLen i v).nodes.length = s.nodes.length := by
  simp [DLState.setLen]

/-- One `addrow` loop step grows the nodes array by one exactly when the
character is `'1'`. -/
theorem addrowStep_nodes_length (s : DLState) (i : Nat) (c : Char) :
    (addrowStep s i c).nodes.length = s.nodes.length + (if c = '1' then 1 else 0) := by
  by_cases h : c = '1' <;>
    simp [addrowStep, h, setDlink_nodes_length, setUlink_nodes_length, setLen_nodes_length,
      DLState.setLen, DLState.setUlink, DLState.setDlink]

/-- The `addrow` character loop grows the nodes array by the number of
`'1'` entries. -/
theorem addrowFold_nodes_length (l : List (Nat × Char)) (s : DLState) :
    ((l.foldl (fun t p => addrowStep t p.1 p.2) s)).nodes.length =
      s.nodes.length + l.countP (fun p => p.2 = '1') := by
  induction l generalizing s with
  | nil => simp
  | cons p l ih =>
    simp only [List.foldl_cons, ih, addrowStep_nodes_length, List.countP_cons]
    by_cases h : p.2 = '1'
    · simp [h]
      omega
    · simp [h]

/-- Counting `'1'` characters through `enum`. -/
theorem enum_countP_one (row : List Char) :
    row.enum.countP (fun p => p.2 = '1') = row.countP (fun c => c = '1') := by
  have h : ∀ (n : Nat) (l : List Char),
      (List.enumFrom n l).countP (fun p => p.2 = '1') = l.countP (fun c => c = '1') := by
    intro n l
    induction l generalizing n with
    | nil => simp
    | cons c cs ih => simp [List.countP_cons, ih]
  exact h 0 row

theorem dlinit_headers_getD (n i : Nat) (h : i < n + 1) :
    (dlinit n).headers.getD i default =
      { data := Int.ofNat i, prev := (i + n) % (n + 1), next := (i + 1) % (n + 1) } := by
  simp [dlinit, List.getD, List.getElem?_map, List.getElem?_range, h]

theorem dlinit_nodes_getD (n i : Nat) (h : i < n + 1) :
    (dlinit n).nodes.getD i default = ⟨0, i, i⟩ := by
  simp [dlinit, List.getD, List.getElem?_append, List.getElem?_map, List.getElem?_range, h]

theorem dlinit_nodes_getD_spacer (n : Nat) :
    (dlinit n).nodes.getD (n + 1) default = ⟨0, 0, 0⟩ := by
  simp [dlinit, List.getD, List.getElem?_append, List.getElem?_map, List.getElem?_range]

theorem enumFrom_map_pair (f : Char → Char) :
    ∀ (n : Nat) (l : List Char),
      List.enumFrom n (l.map f) = (List.enumFrom n l).map (fun p => (p.1, f p.2))
  | _, [] => by simp
  | n, c :: cs => by simp [enumFrom_map_pair f (n + 1) cs]

theorem addrowStep_norm (t : DLState) (i : Nat) (c : Char) :
    addrowStep t i (normChar c) = addrowStep t i c := by
  by_cases h : c = '1' <;> simp [normChar, addrowStep, h]

theorem enum_fold_norm (s : DLState) (row : List Char) :
    (row.map normChar).enum.foldl (fun t p => addrowStep t p.1 p.2) s
      = row.enum.foldl (fun t p => addrowStep t p.1 p.2) s := by
  rw [show (row.map normChar).enum = List.enumFrom 0 (row.map normChar) from rfl]
  rw [enumFrom_map_pair normChar 0 row, List.foldl_map]
  have h : (fun (t : DLState) (p : Nat × Char) =>
        addrowStep t (p.1, normChar p.2).1 (p.1, normChar p.2).2)
      = (fun t p => addrowStep t p.1 p.2) := by
    funext t p
    exact addrowStep_norm t p.1 p.2
  rw [h]
  rfl

theorem chooseLoop_spec (s : DLState) :
    ∀ (l : List Nat) (fuel j best : Nat) (bestlen : Int),
      hchain s j l = true → l.length < fuel →
      chooseLoop fuel j best bestlen s = some (chooseAcc s best bestlen l) := by
  intro l
  induction l with
  | nil =>
    intro fuel j best bestlen hch hf
    match fuel, hf with
    | fuel + 1, _ =>
      simp only [hchain, decide_eq_true_eq] at hch
      simp [chooseLoop, hch, chooseAcc]
  | cons a l ih =>
    intro fuel j best bestlen hch hf
    match fuel, hf with
    | fuel + 1, hf =>
      simp only [hchain, Bool.and_eq_true, decide_eq_true_eq] at hch
      obtain ⟨⟨hj, ha⟩, hrest⟩ := hch
      subst hj
      simp only [chooseLoop, if_neg ha, chooseAcc]
      have hf' : l.length < fuel := by simpa using Nat.lt_of_succ_lt_succ hf
      by_cases hlt : s.len j < bestlen
      · simp only [if_pos hlt]
        exact ih fuel (s.rlink j) j (s.len j) hrest hf'
      · simp only [if_neg hlt]
        exact ih fuel (s.rlink j) best bestlen hrest hf'

theorem chooseAcc_split (s : DLState) :
    ∀ (l : List Nat) (best : Nat) (bestlen : Int),
      (chooseAcc s best bestlen l = best ∧ ∀ j ∈ l, bestlen ≤ s.len j) ∨
      (∃ p c q, l = p ++ c :: q ∧ chooseAcc s best bestlen l = c ∧ s.len c < bestlen ∧
        (∀ j ∈ p, s.len c < s.len j) ∧ (∀ j ∈ q, s.len c ≤ s.len j)) := by
  intro l
  induction l with
  | nil => intro best bestlen; left; simp [chooseAcc]
  | cons a l ih =>
    intro best bestlen
    by_cases hlt : s.len a < bestlen
    · rcases ih a (s.len a) with ⟨heq, hall⟩ | ⟨p, c, q, hsplit, heq, hc, hp, hq⟩
      · right
        refine ⟨[], a, l, by simp, ?_, hlt, by simp, hall⟩
        simp [chooseAcc, if_pos hlt, heq]
      · right
        refine ⟨a :: p, c, q, by simp [hsplit], ?_, lt_trans hc hlt, ?_, hq⟩
        · simp [chooseAcc, if_pos hlt, heq]
        · intro j hj
          rcases List.mem_cons.mp hj with rfl | hj
          · exact hc
          · exact hp j hj
    · rcases ih best bestlen with ⟨heq, hall⟩ | ⟨p, c, q, hsplit, heq, hc, hp, hq⟩
      · left
        constructor
        · simp [chooseAcc, if_neg hlt, heq]
        · intro j hj
          rcases List.mem_cons.mp hj with rfl | hj
          · exact le_of_not_lt hlt
          · exact hall j hj
      · right
        refine ⟨a :: p, c, q, by simp [hsplit], ?_, hc, ?_, hq⟩
        · simp [chooseAcc, if_neg hlt, heq]
        · intro j hj
          rcases List.mem_cons.mp hj with rfl | hj
          · exact lt_of_lt_of_le hc (le_of_not_lt hlt)
          · exact hp j hj

/-- Reading after `List.set`: the written value when the indices agree and
the write is in bounds, the old value otherwise. -/
theorem getD_set_node (l : List DNode) (i j : Nat) (v : DNode) :
    (l.set i v).getD j default = if i = j ∧ i < l.length then v else l.getD j default := by
  simp only [List.getD, List.get?_eq_getElem?]
  by_cases hij : i = j
  · subst hij
    by_cases hlt : i < l.length
    · simp [List.getElem?_set_eq_of_lt v hlt, hlt]
    · rw [List.set_eq_of_length_le (Nat.le_of_not_lt hlt)]
      simp [hlt]
  · rw [List.getElem?_set_ne hij]
    simp [hij]

theorem top_setLen (s : DLState) (i : Nat) (v : Int) (j : Nat) :
    (s.setLen i v).top j = if i = j ∧ i < s.nodes.length then v else s.top j := by
  simp only [DLState.top, DLState.setLen, getD_set_node]
  split_ifs <;> rfl

theorem top_setUlink (s : DLState) (i v j : Nat) : (s.setUlink i v).top j = s.top j := by
  simp only [DLState.top, DLState.setUlink, getD_set_node]
  split_ifs with h
  · obtain ⟨rfl, -⟩ := h
    rfl
  · rfl

theorem top_setDlink (s : DLState) (i v j : Nat) : (s.setDlink i v).top j = s.top j := by
  simp only [DLState.top, DLState.setDlink, getD_set_node]
  split_ifs with h
  · obtain ⟨rfl, -⟩ := h
    rfl
  · rfl

theorem ulink_setLen (s : DLState) (i : Nat) (v : Int) (j : Nat) :
    (s.setLen i v).ulink j = s.ulink j := by
  simp only [DLState.ulink, DLState.setLen, getD_set_node]
  split_ifs with h
  · obtain ⟨rfl, -⟩ := h
    rfl
  · rfl

theorem ulink_setUlink (s : DLState) (i v j : Nat) :
    (s.setUlink i v).ulink j = if i = j ∧ i < s.nodes.length then v else s.ulink j := by
  simp only [DLState.ulink, DLState.setUlink, getD_set_node]
  split_ifs <;> rfl

theorem ulink_setDlink (s : DLState) (i v j : Nat) : (s.setDlink i v).ulink j = s.ulink j := by
  simp only [DLState.ulink, DLState.setDlink, getD_set_node]
  split_ifs with h
  · obtain ⟨rfl, -⟩ := h
    rfl
  · rfl

theorem dlink_setLen (s : DLState) (i : Nat) (v : Int) (j : Nat) :
    (s.setLen i v).dlink j = s.dlink j := by
  simp only [DLState.dlink, DLState.setLen, getD_set_node]
  split_ifs with h
  · obtain ⟨rfl, -⟩ := h
    rfl
  · rfl

theorem dlink_setUlink (s : DLState) (i v j : Nat) : (s.setUlink i v).dlink j = s.dlink j := by
  simp only [DLState.dlink, DLState.setUlink, getD_set_node]
  split_ifs with h
  · obtain ⟨rfl, -⟩ := h
    rfl
  · rfl

theorem dlink_setDlink (s : DLState) (i v j : Nat) :
    (s.setDlink i v).dlink j = if i = j ∧ i < s.nodes.length then v else s.dlink j := by
  simp only [DLState.dlink, DLState.setDlink, getD_set_node]
  split_ifs <;> rfl

theorem getD_set_hnode (l : List DNode) (i j : Nat) (v : DNode) :
    (l.set i v).getD j default = if i = j ∧ i < l.length then v else l.getD j default :=
  getD_set_node l i j v

theorem rlink_setRlink (s : DLState) (i v j : Nat) :
    (s.setRlink i v).rlink j = if i = j ∧ i < s.headers.length then v else s.rlink j := by
  simp only [DLState.rlink, DLState.setRlink, getD_set_node]
  split_ifs <;> rfl

theorem rlink_setLlink (s : DLState) (i v j : Nat) : (s.setLlink i v).rlink j = s.rlink j := by
  simp only [DLState.rlink, DLState.setLlink, getD_set_node]
  split_ifs with h
  · obtain ⟨rfl, -⟩ := h
    rfl
  · rfl

theorem llink_setRlink (s : DLState) (i v j : Nat) : (s.setRlink i v).llink j = s.llink j := by
  simp only [DLState.llink, DLState.setRlink, getD_set_node]
  split_ifs with h
  · obtain ⟨rfl, -⟩ := h
    rfl
  · rfl

theorem llink_setLlink (s : DLState) (i v j : Nat) :
    (s.setLlink i v).llink j = if i = j ∧ i < s.headers.length then v else s.llink j := by
  simp only [DLState.llink, DLState.setLlink, getD_set_node]
  split_ifs <;> rfl

theorem setLen_headers_length (s : DLState) (i : Nat) (v : Int) :
    (s.setLen i v).headers = s.headers := rfl

theorem setRlink_headers_length (s : DLState) (i v : Nat) :
    (s.setRlink i v).headers.length = s.headers.length := by
  simp [DLState.setRlink]

theorem setLlink_headers_length (s : DLState) (i v : Nat) :
    (s.setLlink i v).headers.length = s.headers.length := by
  simp [DLState.setLlink]

/-- Two nodes with equal fields are equal. -/
theorem dnode_ext (n₁ n₂ : DNode) (h1 : n₁.data = n₂.data) (h2 : n₁.prev = n₂.prev)
    (h3 : n₁.next = n₂.next) : n₁ = n₂ := by
  cases n₁
  cases n₂
  simp_all

/-- Extensionality for solver states through the named accessors: equal
lengths, counters and pointwise equal fields give equal states. -/
theorem dlstate_ext_fields (s t : DLState)
    (h1 : s.headers.length = t.headers.length) (h2 : s.nodes.length = t.nodes.length)
    (h3 : s.nrows = t.nrows) (h4 : s.ncount = t.ncount)
    (h5 : ∀ j, s.name j = t.name j) (h6 : ∀ j, s.llink j = t.llink j)
    (h7 : ∀ j, s.rlink j = t.rlink j)
    (h8 : ∀ j, s.top j = t.top j) (h9 : ∀ j, s.ulink j = t.ulink j)
    (h10 : ∀ j, s.dlink j = t.dlink j) : s = t := by
  obtain ⟨sh, sn, sr, sc⟩ := s
  obtain ⟨th, tn, tr, tc⟩ := t
  simp only [DLState.name, DLState.llink, DLState.rlink, DLState.top, DLState.ulink,
    DLState.dlink] at h5 h6 h7 h8 h9 h10
  simp only at h1 h2 h3 h4
  subst h3; subst h4
  have hh : sh = th := by
    apply List.ext_getElem h1
    intro j hj hj'
    have e5 := h5 j
    have e6 := h6 j
    have e7 := h7 j
    rw [List.getD_eq_getElem sh default hj, List.getD_eq_getElem th default hj'] at e5 e6 e7
    exact dnode_ext _ _ e5 e6 e7
  have hn : sn = tn := by
    apply List.ext_getElem h2
    intro j hj hj'
    have e8 := h8 j
    have e9 := h9 j
    have e10 := h10 j
    rw [List.getD_eq_getElem sn default hj, List.getD_eq_getElem tn default hj'] at e8 e9 e10
    exact dnode_ext _ _ e8 e9 e10
  simp [hh, hn]

theorem headers_spliceOut (s : DLState) (q : Nat) : (spliceOut s q).headers = s.headers := rfl

theorem headers_spliceIn (s : DLState) (q : Nat) : (spliceIn s q).headers = s.headers := rfl

theorem nrows_spliceOut (s : DLState) (q : Nat) : (spliceOut s q).nrows = s.nrows := rfl

theorem nrows_spliceIn (s : DLState) (q : Nat) : (spliceIn s q).nrows = s.nrows := rfl

theorem ncount_spliceOut (s : DLState) (q : Nat) : (spliceOut s q).ncount = s.ncount := rfl

theorem ncount_spliceIn (s : DLState) (q : Nat) : (spliceIn s q).ncount = s.ncount := rfl

theorem nitems_spliceOut (s : DLState) (q : Nat) : (spliceOut s q).nitems = s.nitems := rfl

theorem nitems_spliceIn (s : DLState) (q : Nat) : (spliceIn s q).nitems = s.nitems := rfl

theorem nodes_length_spliceOut (s : DLState) (q : Nat) :
    (spliceOut s q).nodes.length = s.nodes.length := by
  simp [spliceOut, setLen_nodes_length, setUlink_nodes_length, setDlink_nodes_length]

theorem nodes_length_spliceIn (s : DLState) (q : Nat) :
    (spliceIn s q).nodes.length = s.nodes.length := by
  simp [spliceIn, setLen_nodes_length, setUlink_nodes_length, setDlink_nodes_length]

theorem top_spliceOut (s : DLState) (q j : Nat) :
    (spliceOut s q).top j =
      if (s.top q).toNat = j ∧ (s.top q).toNat < s.nodes.length then
        s.len (s.top q).toNat - 1
      else s.top j := by
  simp [spliceOut, top_setLen, top_setUlink, top_setDlink,
    setUlink_nodes_length, setDlink_nodes_length]

theorem ulink_spliceOut (s : DLState) (q j : Nat) :
    (spliceOut s q).ulink j =
      if s.dlink q = j ∧ s.dlink q < s.nodes.length then s.ulink q else s.ulink j := by
  simp [spliceOut, ulink_setLen, ulink_setUlink, ulink_setDlink, setDlink_nodes_length]

theorem dlink_spliceOut (s : DLState) (q j : Nat) :
    (spliceOut s q).dlink j =
      if s.ulink q = j ∧ s.ulink q < s.nodes.length then s.dlink q else s.dlink j := by
  simp [spliceOut, dlink_setLen, dlink_setUlink, dlink_setDlink]

theorem top_spliceIn (s : DLState) (q j : Nat) :
    (spliceIn s q).top j =
      if (s.top q).toNat = j ∧ (s.top q).toNat < s.nodes.length then
        s.len (s.top q).toNat + 1
      else s.top j := by
  simp [spliceIn, top_setLen, top_setUlink, top_setDlink,
    setUlink_nodes_length, setDlink_nodes_length]

theorem ulink_spliceIn (s : DLState) (q j : Nat) :
    (spliceIn s q).ulink j =
      if s.dlink q = j ∧ s.dlink q < s.nodes.length then q else s.ulink j := by
  simp [spliceIn, ulink_setLen, ulink_setUlink, ulink_setDlink, setDlink_nodes_length]

theorem dlink_spliceIn (s : DLState) (q j : Nat) :
    (spliceIn s q).dlink j =
      if s.ulink q = j ∧ s.ulink q < s.nodes.length then q else s.dlink j := by
  simp [spliceIn, dlink_setLen, dlink_setUlink, dlink_setDlink]

theorem name_spliceOut (s : DLState) (q j : Nat) : (spliceOut s q).name j = s.name j := rfl

theorem llink_spliceOut (s : DLState) (q j : Nat) : (spliceOut s q).llink j = s.llink j := rfl

theorem rlink_spliceOut (s : DLState) (q j : Nat) : (spliceOut s q).rlink j = s.rlink j := rfl

/-- The dancing-links identity at one cell: splicing a doubly linked cell
out and immediately back in restores the state exactly. -/
theorem spliceIn_spliceOut (s : DLState) (q : Nat) (h : cellOK s q) :
    spliceIn (spliceOut s q) q = s := by
  obtain ⟨⟨hq1, hq2, htop1, htop2, hxlen, ⟨hul, -⟩, ⟨hdl, -⟩⟩, hdu, hud⟩ := h
  have hxq : (s.top q).toNat ≠ q := by
    have : (s.top q).toNat ≤ s.nitems := by omega
    omega
  have htq : (spliceOut s q).top q = s.top q := by
    rw [top_spliceOut, if_neg (fun hc => hxq hc.1)]
  have huq : (spliceOut s q).ulink q = s.ulink q := by
    rw [ulink_spliceOut]
    split_ifs <;> rfl
  have hdq : (spliceOut s q).dlink q = s.dlink q := by
    rw [dlink_spliceOut]
    split_ifs with hc
    · obtain ⟨he, -⟩ := hc
      rw [← he]
    · rfl
  have hlx : (spliceOut s q).len (s.top q).toNat = s.len (s.top q).toNat - 1 := by
    show (spliceOut s q).top _ = _
    rw [top_spliceOut]
    simp [hxlen]
  apply dlstate_ext_fields
  · rfl
  · rw [nodes_length_spliceIn, nodes_length_spliceOut]
  · rfl
  · rfl
  · intro j; rfl
  · intro j; rfl
  · intro j; rfl
  · intro j
    rw [top_spliceIn, htq, nodes_length_spliceOut, hlx]
    by_cases hj : (s.top q).toNat = j
    · subst hj
      simp only [hxlen, and_true, if_pos rfl]
      show s.len (s.top q).toNat - 1 + 1 = s.top (s.top q).toNat
      simp only [DLState.len]
      omega
    · rw [if_neg (fun hc => hj hc.1), top_spliceOut, if_neg (fun hc => hj hc.1)]
  · intro j
    rw [ulink_spliceIn, hdq, nodes_length_spliceOut]
    by_cases hj : s.dlink q = j
    · subst hj
      simp [hdl, hud]
    · rw [if_neg (fun hc => hj hc.1), ulink_spliceOut, if_neg (fun hc => hj hc.1)]
  · intro j
    rw [dlink_spliceIn, huq, nodes_length_spliceOut]
    by_cases hj : s.ulink q = j
    · subst hj
      simp [hul, hdu]
    · rw [if_neg (fun hc => hj hc.1), dlink_spliceOut, if_neg (fun hc => hj hc.1)]

/-- `spliceOut` does not change the `top` of any non-header node. -/
theorem top_spliceOut_cell (t : DLState) (q : Nat) (hx : (t.top q).toNat ≤ t.nitems)
    (r : Nat) (hr : t.nitems < r) : (spliceOut t q).top r = t.top r := by
  rw [top_spliceOut, if_neg]
  intro hc
  omega

/-- `spliceIn` does not change the `top` of any non-header node. -/
theorem top_spliceIn_cell (t : DLState) (q : Nat) (hx : (t.top q).toNat ≤ t.nitems)
    (r : Nat) (hr : t.nitems < r) : (spliceIn t q).top r = t.top r := by
  rw [top_spliceIn, if_neg]
  intro hc
  omega

/-- Column membership is insensitive to `spliceOut` of a well-tagged cell. -/
theorem colmate_spliceOut_iff (t : DLState) (q : Nat) (hq : cellTagOK t q) (x r : Nat) :
    colmate (spliceOut t q) x r ↔ colmate t x r := by
  obtain ⟨-, -, h1, h2, -, -, -⟩ := hq
  have hx : (t.top q).toNat ≤ t.nitems := by omega
  unfold colmate
  rw [nodes_length_spliceOut, nitems_spliceOut]
  constructor
  · rintro ⟨hb, hcase⟩
    refine ⟨hb, ?_⟩
    rcases hcase with hr | ⟨hr1, hr2⟩
    · exact Or.inl hr
    · exact Or.inr ⟨hr1, by rw [← top_spliceOut_cell t q hx r hr1]; exact hr2⟩
  · rintro ⟨hb, hcase⟩
    refine ⟨hb, ?_⟩
    rcases hcase with hr | ⟨hr1, hr2⟩
    · exact Or.inl hr
    · exact Or.inr ⟨hr1, by rw [top_spliceOut_cell t q hx r hr1]; exact hr2⟩

/-- Column membership is insensitive to `spliceIn` of a well-tagged cell. -/
theorem colmate_spliceIn_iff (t : DLState) (q : Nat) (hq : cellTagOK t q) (x r : Nat) :
    colmate (spliceIn t q) x r ↔ colmate t x r := by
  obtain ⟨-, -, h1, h2, -, -, -⟩ := hq
  have hx : (t.top q).toNat ≤ t.nitems := by omega
  unfold colmate
  rw [nodes_length_spliceIn, nitems_spliceIn]
  constructor
  · rintro ⟨hb, hcase⟩
    refine ⟨hb, ?_⟩
    rcases hcase with hr | ⟨hr1, hr2⟩
    · exact Or.inl hr
    · exact Or.inr ⟨hr1, by rw [← top_spliceIn_cell t q hx r hr1]; exact hr2⟩
  · rintro ⟨hb, hcase⟩
    refine ⟨hb, ?_⟩
    rcases hcase with hr | ⟨hr1, hr2⟩
    · exact Or.inl hr
    · exact Or.inr ⟨hr1, by rw [top_spliceIn_cell t q hx r hr1]; exact hr2⟩

/-- A node that is neither a vertical neighbor of `q` nor `q`'s item header
keeps all three fields across `spliceOut`. -/
theorem spliceOut_frame (t : DLState) (q r : Nat)
    (hru : r ≠ t.ulink q) (hrd : r ≠ t.dlink q) (hrx : r ≠ (t.top q).toNat) :
    (spliceOut t q).top r = t.top r ∧ (spliceOut t q).ulink r = t.ulink r ∧
      (spliceOut t q).dlink r = t.dlink r := by
  refine ⟨?_, ?_, ?_⟩
  · rw [top_spliceOut, if_neg (fun hc => hrx hc.1.symm)]
  · rw [ulink_spliceOut, if_neg (fun hc => hrd hc.1.symm)]
  · rw [dlink_spliceOut, if_neg (fun hc => hru hc.1.symm)]

/-- A node that is neither a vertical neighbor of `q` nor `q`'s item header
keeps all three fields across `spliceIn`. -/
theorem spliceIn_frame (t : DLState) (q r : Nat)
    (hru : r ≠ t.ulink q) (hrd : r ≠ t.dlink q) (hrx : r ≠ (t.top q).toNat) :
    (spliceIn t q).top r = t.top r ∧ (spliceIn t q).ulink r = t.ulink r ∧
      (spliceIn t q).dlink r = t.dlink r := by
  refine ⟨?_, ?_, ?_⟩
  · rw [top_spliceIn, if_neg (fun hc => hrx hc.1.symm)]
  · rw [ulink_spliceIn, if_neg (fun hc => hrd hc.1.symm)]
  · rw [dlink_spliceIn, if_neg (fun hc => hru hc.1.symm)]

/-- A spacer (non-positive `top`, non-header position) is never a write
target of a splice of a well-tagged cell. -/
theorem spacer_not_target (t : DLState) (q : Nat) (hq : cellTagOK t q) (r : Nat)
    (hr : t.nitems < r) (hsp : t.top r ≤ 0) :
    r ≠ t.ulink q ∧ r ≠ t.dlink q ∧ r ≠ (t.top q).toNat := by
  obtain ⟨hq1, hq2, ht1, ht2, hx, ⟨hub, hu⟩, ⟨hdb, hd⟩⟩ := hq
  have hxle : (t.top q).toNat ≤ t.nitems := by omega
  refine ⟨?_, ?_, ?_⟩
  · rcases hu with hu | ⟨hu1, hu2⟩
    · omega
    · intro he
      rw [← he] at hu2
      rw [hu2] at hsp
      omega
  · rcases hd with hd | ⟨hd1, hd2⟩
    · omega
    · intro he
      rw [← he] at hd2
      rw [hd2] at hsp
      omega
  · omega

/-- A node tagged with an item `y` different from `q`'s item is never a
write target of a splice of `q`. -/
theorem ytag_not_target (t : DLState) (q : Nat) (hq : cellTagOK t q) (y r : Nat)
    (hyr : r = y ∧ y ≤ t.nitems ∨ t.nitems < r ∧ t.top r = (y : Int))
    (hy : y ≠ (t.top q).toNat) :
    r ≠ t.ulink q ∧ r ≠ t.dlink q ∧ r ≠ (t.top q).toNat := by
  obtain ⟨hq1, hq2, ht1, ht2, hx, ⟨hub, hu⟩, ⟨hdb, hd⟩⟩ := hq
  have hxle : (t.top q).toNat ≤ t.nitems := by omega
  refine ⟨?_, ?_, ?_⟩
  · rcases hu with hu | ⟨hu1, hu2⟩
    · rcases hyr with ⟨rfl, hy2⟩ | ⟨hr1, -⟩
      · omega
      · omega
    · rcases hyr with ⟨rfl, hy2⟩ | ⟨hr1, hr2⟩
      · omega
      · intro he
        rw [he] at hr2
        rw [hu2] at hr2
        have : y = (t.top q).toNat := by omega
        exact hy this
  · rcases hd with hd | ⟨hd1, hd2⟩
    · rcases hyr with ⟨rfl, hy2⟩ | ⟨hr1, -⟩
      · omega
      · omega
    · rcases hyr with ⟨rfl, hy2⟩ | ⟨hr1, hr2⟩
      · omega
      · intro he
        rw [he] at hr2
        rw [hd2] at hr2
        have : y = (t.top q).toNat := by omega
        exact hy this
  · rcases hyr with ⟨rfl, hy2⟩ | ⟨hr1, -⟩
    · omega
    · omega

/-- Splicing out one linked cell keeps every other linked cell linked: the
central preservation fact behind `cover`. -/
theorem cellOK_spliceOut (t : DLState) (q c : Nat) (hq : cellOK t q) (hc : cellOK t c)
    (hne : c ≠ q) : cellOK (spliceOut t q) c := by
  obtain ⟨hqt, hqdu, hqud⟩ := hq
  obtain ⟨hct, hcdu, hcud⟩ := hc
  obtain ⟨hq1, hq2, hqe1, hqe2, hqx, ⟨hqub, hqu⟩, ⟨hqdb, hqd⟩⟩ := hqt
  obtain ⟨hc1, hc2, hce1, hce2, hcx, ⟨hcub, hcu⟩, ⟨hcdb, hcd⟩⟩ := hct
  have hxqle : (t.top q).toNat ≤ t.nitems := by omega
  have hxcle : (t.top c).toNat ≤ t.nitems := by omega
  have htc : (spliceOut t q).top c = t.top c := top_spliceOut_cell t q hxqle c hc1
  have hulc : (spliceOut t q).ulink c =
      if t.dlink q = c then t.ulink q else t.ulink c := by
    rw [ulink_spliceOut]
    by_cases he : t.dlink q = c
    · simp [he, hc2]
    · simp [he]
  have hdlc : (spliceOut t q).dlink c =
      if t.ulink q = c then t.dlink q else t.dlink c := by
    rw [dlink_spliceOut]
    by_cases he : t.ulink q = c
    · simp [he, hc2]
    · simp [he]
  have hsame : t.dlink q = c → (t.top c).toNat = (t.top q).toNat := by
    intro he
    rcases hqd with hqd | ⟨-, hqd2⟩
    · omega
    · rw [he] at hqd2
      rw [hqd2]
      omega
  have hsame' : t.ulink q = c → (t.top c).toNat = (t.top q).toNat := by
    intro he
    rcases hqu with hqu | ⟨-, hqu2⟩
    · omega
    · rw [he] at hqu2
      rw [hqu2]
      omega
  refine ⟨⟨?_, ?_, ?_, ?_, ?_, ?_, ?_⟩, ?_, ?_⟩
  · rw [nitems_spliceOut]; exact hc1
  · rw [nodes_length_spliceOut]; exact hc2
  · rw [htc]; exact hce1
  · rw [htc, nitems_spliceOut]; exact hce2
  · rw [htc, nodes_length_spliceOut]; exact hcx
  · rw [htc, colmate_spliceOut_iff t q ⟨hq1, hq2, hqe1, hqe2, hqx, ⟨hqub, hqu⟩, ⟨hqdb, hqd⟩⟩]
    rw [hulc]
    by_cases he : t.dlink q = c
    · rw [if_pos he, hsame he]
      exact ⟨hqub, hqu⟩
    · rw [if_neg he]
      exact ⟨hcub, hcu⟩
  · rw [htc, colmate_spliceOut_iff t q ⟨hq1, hq2, hqe1, hqe2, hqx, ⟨hqub, hqu⟩, ⟨hqdb, hqd⟩⟩]
    rw [hdlc]
    by_cases he : t.ulink q = c
    · rw [if_pos he, hsame' he]
      exact ⟨hqdb, hqd⟩
    · rw [if_neg he]
      exact ⟨hcdb, hcd⟩
  · rw [hulc]
    by_cases he : t.dlink q = c
    · rw [if_pos he, dlink_spliceOut, if_pos ⟨rfl, hqub⟩, he]
    · rw [if_neg he, dlink_spliceOut]
      rw [if_neg]
      · exact hcdu
      · rintro ⟨he2, -⟩
        rw [← he2] at hcdu
        rw [hqdu] at hcdu
        exact hne hcdu.symm
  · rw [hdlc]
    by_cases he : t.ulink q = c
    · rw [if_pos he, ulink_spliceOut, if_pos ⟨rfl, hqdb⟩, he]
    · rw [if_neg he, ulink_spliceOut]
      rw [if_neg]
      · exact hcud
      · rintro ⟨he2, -⟩
        rw [← he2] at hcud
        rw [hqud] at hcud
        exact hne hcud.symm

/-- Splicing one well-tagged cell back in keeps every cell well tagged:
the preservation fact behind `uncover`. -/
theorem cellTagOK_spliceIn (t : DLState) (q c : Nat) (hq : cellTagOK t q)
    (hc : cellTagOK t c) : cellTagOK (spliceIn t q) c := by
  obtain ⟨hq1, hq2, hqe1, hqe2, hqx, ⟨hqub, hqu⟩, ⟨hqdb, hqd⟩⟩ := hq
  obtain ⟨hc1, hc2, hce1, hce2, hcx, ⟨hcub, hcu⟩, ⟨hcdb, hcd⟩⟩ := hc
  have hxqle : (t.top q).toNat ≤ t.nitems := by omega
  have hxcle : (t.top c).toNat ≤ t.nitems := by omega
  have htc : (spliceIn t q).top c = t.top c := top_spliceIn_cell t q hxqle c hc1
  have htq' : ((t.top q).toNat : Int) = t.top q := Int.toNat_of_nonneg (by omega)
  have hsame : t.dlink q = c → (t.top c).toNat = (t.top q).toNat := by
    intro he
    rcases hqd with hqd | ⟨-, hqd2⟩
    · omega
    · rw [he] at hqd2
      rw [hqd2]
      omega
  have hsame' : t.ulink q = c → (t.top c).toNat = (t.top q).toNat := by
    intro he
    rcases hqu with hqu | ⟨-, hqu2⟩
    · omega
    · rw [he] at hqu2
      rw [hqu2]
      omega
  have hqtag : colmate t (t.top q).toNat q := ⟨hq2, Or.inr ⟨hq1, htq'.symm⟩⟩
  refine ⟨?_, ?_, ?_, ?_, ?_, ?_, ?_⟩
  · rw [nitems_spliceIn]; exact hc1
  · rw [nodes_length_spliceIn]; exact hc2
  · rw [htc]; exact hce1
  · rw [htc, nitems_spliceIn]; exact hce2
  · rw [htc, nodes_length_spliceIn]; exact hcx
  · rw [htc, colmate_spliceIn_iff t q ⟨hq1, hq2, hqe1, hqe2, hqx, ⟨hqub, hqu⟩, ⟨hqdb, hqd⟩⟩]
    rw [ulink_spliceIn]
    by_cases he : t.dlink q = c
    · rw [if_pos ⟨he, hqdb⟩, hsame he]
      exact hqtag
    · rw [if_neg (fun hco => he hco.1)]
      exact ⟨hcub, hcu⟩
  · rw [htc, colmate_spliceIn_iff t q ⟨hq1, hq2, hqe1, hqe2, hqx, ⟨hqub, hqu⟩, ⟨hqdb, hqd⟩⟩]
    rw [dlink_spliceIn]
    by_cases he : t.ulink q = c
    · rw [if_pos ⟨he, hqub⟩, hsame' he]
      exact hqtag
    · rw [if_neg (fun hco => he hco.1)]
      exact ⟨hcdb, hcd⟩

/-- Master facts about a run of `spliceOut` over pairwise distinct linked
cells: counters, headers, non-header tops, spacers and foreign columns are
untouched, and cells not in the run stay linked. -/
theorem spliceFold_facts : ∀ (C : List Nat) (s : DLState),
    (∀ c ∈ C, cellOK s c) → C.Nodup →
    (spliceFold s C).headers = s.headers ∧
    (spliceFold s C).nodes.length = s.nodes.length ∧
    (spliceFold s C).nrows = s.nrows ∧
    (spliceFold s C).ncount = s.ncount ∧
    (∀ r, s.nitems < r → (spliceFold s C).top r = s.top r) ∧
    (∀ r, s.nitems < r → s.top r ≤ 0 →
      (spliceFold s C).ulink r = s.ulink r ∧ (spliceFold s C).dlink r = s.dlink r) ∧
    (∀ y r, (r = y ∧ y ≤ s.nitems ∨ s.nitems < r ∧ s.top r = (y : Int)) →
      (∀ c ∈ C, y ≠ (s.top c).toNat) →
      (spliceFold s C).top r = s.top r ∧ (spliceFold s C).ulink r = s.ulink r ∧
        (spliceFold s C).dlink r = s.dlink r) ∧
    (∀ c', cellOK s c' → c' ∉ C → cellOK (spliceFold s C) c')
  | [], s, _, _ => by
    refine ⟨rfl, rfl, rfl, rfl, fun r _ => rfl, fun r _ _ => ⟨rfl, rfl⟩,
      fun y r _ _ => ⟨rfl, rfl, rfl⟩, fun c' hc' _ => ?_⟩
    simpa [spliceFold] using hc'
  | c :: C', s, hOK, hnd => by
    have hc : cellOK s c := hOK c (List.mem_cons_self c C')
    have hnd' : C'.Nodup := (List.nodup_cons.mp hnd).2
    have hcnot : c ∉ C' := (List.nodup_cons.mp hnd).1
    have hOK' : ∀ c' ∈ C', cellOK (spliceOut s c) c' := by
      intro c' hm
      exact cellOK_spliceOut s c c' hc (hOK c' (List.mem_cons_of_mem c hm))
        (fun he => hcnot (he ▸ hm))
    have hfold : spliceFold s (c :: C') = spliceFold (spliceOut s c) C' := rfl
    obtain ⟨ih1, ih2, ih3, ih4, ih5, ih6, ih7, ih8⟩ :=
      spliceFold_facts C' (spliceOut s c) hOK' hnd'
    have hxle : (s.top c).toNat ≤ s.nitems := by
      obtain ⟨⟨-, -, he1, he2, -, -, -⟩, -, -⟩ := hc
      omega
    have hni : (spliceOut s c).nitems = s.nitems := nitems_spliceOut s c
    refine ⟨?_, ?_, ?_, ?_, ?_, ?_, ?_, ?_⟩
    · rw [hfold, ih1, headers_spliceOut]
    · rw [hfold, ih2, nodes_length_spliceOut]
    · rw [hfold, ih3, nrows_spliceOut]
    · rw [hfold, ih4, ncount_spliceOut]
    · intro r hr
      rw [hfold, ih5 r (by rw [hni]; exact hr), top_spliceOut_cell s c hxle r hr]
    · intro r hr hsp
      have hstep := spacer_not_target s c hc.1 r hr hsp
      obtain ⟨hf1, hf2, hf3⟩ := spliceOut_frame s c r hstep.1 hstep.2.1 hstep.2.2
      have hr' : (spliceOut s c).nitems < r := by rw [hni]; exact hr
      have hsp' : (spliceOut s c).top r ≤ 0 := by rw [hf1]; exact hsp
      obtain ⟨hg1, hg2⟩ := ih6 r hr' hsp'
      rw [hfold]
      exact ⟨by rw [hg1, hf2], by rw [hg2, hf3]⟩
    · intro y r hyr hyC
      have hyc : y ≠ (s.top c).toNat := hyC c (List.mem_cons_self c C')
      have hstep := ytag_not_target s c hc.1 y r hyr hyc
      obtain ⟨hf1, hf2, hf3⟩ := spliceOut_frame s c r hstep.1 hstep.2.1 hstep.2.2
      have hyr' : r = y ∧ y ≤ (spliceOut s c).nitems ∨
          (spliceOut s c).nitems < r ∧ (spliceOut s c).top r = (y : Int) := by
        rw [hni]
        rcases hyr with h | ⟨h1, h2⟩
        · exact Or.inl h
        · exact Or.inr ⟨h1, by rw [hf1]; exact h2⟩
      have hyC' : ∀ c' ∈ C', y ≠ ((spliceOut s c).top c').toNat := by
        intro c' hm
        have : (spliceOut s c).top c' = s.top c' := by
          have hcm := hOK c' (List.mem_cons_of_mem c hm)
          exact top_spliceOut_cell s c hxle c' hcm.1.1
        rw [this]
        exact hyC c' (List.mem_cons_of_mem c hm)
      obtain ⟨hg1, hg2, hg3⟩ := ih7 y r hyr' hyC'
      rw [hfold]
      exact ⟨by rw [hg1, hf1], by rw [hg2, hf2], by rw [hg3, hf3]⟩
    · intro c' hc' hnm
      have h1 : c' ≠ c := fun he => hnm (he ▸ List.mem_cons_self c C')
      have h2 : c' ∉ C' := fun hm => hnm (List.mem_cons_of_mem c hm)
      rw [hfold]
      exact ih8 c' (cellOK_spliceOut s c c' hc hc' h1) h2

theorem ulink_spliceOut_self (s : DLState) (q : Nat) :
    (spliceOut s q).ulink q = s.ulink q := by
  rw [ulink_spliceOut]
  split_ifs <;> rfl

theorem dlink_spliceOut_self (s : DLState) (q : Nat) :
    (spliceOut s q).dlink q = s.dlink q := by
  rw [dlink_spliceOut]
  split_ifs with hcn
  · rw [← hcn.1]
  · rfl

/-- Master facts about a run of `spliceIn` over well-tagged cells:
counters, headers, non-header tops, spacers and foreign columns are
untouched, and every cell stays well tagged. -/
theorem unspliceFold_facts : ∀ (C : List Nat) (s : DLState),
    (∀ c ∈ C, cellTagOK s c) →
    (unspliceFold s C).headers = s.headers ∧
    (unspliceFold s C).nodes.length = s.nodes.length ∧
    (unspliceFold s C).nrows = s.nrows ∧
    (unspliceFold s C).ncount = s.ncount ∧
    (∀ r, s.nitems < r → (unspliceFold s C).top r = s.top r) ∧
    (∀ r, s.nitems < r → s.top r ≤ 0 →
      (unspliceFold s C).ulink r = s.ulink r ∧ (unspliceFold s C).dlink r = s.dlink r) ∧
    (∀ y r, (r = y ∧ y ≤ s.nitems ∨ s.nitems < r ∧ s.top r = (y : Int)) →
      (∀ c ∈ C, y ≠ (s.top c).toNat) →
      (unspliceFold s C).top r = s.top r ∧ (unspliceFold s C).ulink r = s.ulink r ∧
        (unspliceFold s C).dlink r = s.dlink r) ∧
    (∀ c', cellTagOK s c' → cellTagOK (unspliceFold s C) c')
  | [], s, _ => by
    exact ⟨rfl, rfl, rfl, rfl, fun r _ => rfl, fun r _ _ => ⟨rfl, rfl⟩,
      fun y r _ _ => ⟨rfl, rfl, rfl⟩, fun c' hc' => hc'⟩
  | c :: C', s, hOK => by
    have hc : cellTagOK s c := hOK c (List.mem_cons_self c C')
    have hOK' : ∀ c' ∈ C', cellTagOK (spliceIn s c) c' := by
      intro c' hm
      exact cellTagOK_spliceIn s c c' hc (hOK c' (List.mem_cons_of_mem c hm))
    have hfold : unspliceFold s (c :: C') = unspliceFold (spliceIn s c) C' := rfl
    obtain ⟨ih1, ih2, ih3, ih4, ih5, ih6, ih7, ih8⟩ :=
      unspliceFold_facts C' (spliceIn s c) hOK'
    have hxle : (s.top c).toNat ≤ s.nitems := by
      obtain ⟨-, -, he1, he2, -, -, -⟩ := hc
      omega
    have hni : (spliceIn s c).nitems = s.nitems := nitems_spliceIn s c
    refine ⟨?_, ?_, ?_, ?_, ?_, ?_, ?_, ?_⟩
    · rw [hfold, ih1, headers_spliceIn]
    · rw [hfold, ih2, nodes_length_spliceIn]
    · rw [hfold, ih3, nrows_spliceIn]
    · rw [hfold, ih4, ncount_spliceIn]
    · intro r hr
      rw [hfold, ih5 r (by rw [hni]; exact hr), top_spliceIn_cell s c hxle r hr]
    · intro r hr hsp
      have hstep := spacer_not_target s c hc r hr hsp
      obtain ⟨hf1, hf2, hf3⟩ := spliceIn_frame s c r hstep.1 hstep.2.1 hstep.2.2
      have hr' : (spliceIn s c).nitems < r := by rw [hni]; exact hr
      have hsp' : (spliceIn s c).top r ≤ 0 := by rw [hf1]; exact hsp
      obtain ⟨hg1, hg2⟩ := ih6 r hr' hsp'
      rw [hfold]
      exact ⟨by rw [hg1, hf2], by rw [hg2, hf3]⟩
    · intro y r hyr hyC
      have hyc : y ≠ (s.top c).toNat := hyC c (List.mem_cons_self c C')
      have hstep := ytag_not_target s c hc y r hyr hyc
      obtain ⟨hf1, hf2, hf3⟩ := spliceIn_frame s c r hstep.1 hstep.2.1 hstep.2.2
      have hyr' : r = y ∧ y ≤ (spliceIn s c).nitems ∨
          (spliceIn s c).nitems < r ∧ (spliceIn s c).top r = (y : Int) := by
        rw [hni]
        rcases hyr with h | ⟨h1, h2⟩
        · exact Or.inl h
        · exact Or.inr ⟨h1, by rw [hf1]; exact h2⟩
      have hyC' : ∀ c' ∈ C', y ≠ ((spliceIn s c).top c').toNat := by
        intro c' hm
        have heq : (spliceIn s c).top c' = s.top c' := by
          have hcm := hOK c' (List.mem_cons_of_mem c hm)
          exact top_spliceIn_cell s c hxle c' hcm.1
        rw [heq]
        exact hyC c' (List.mem_cons_of_mem c hm)
      obtain ⟨hg1, hg2, hg3⟩ := ih7 y r hyr' hyC'
      rw [hfold]
      exact ⟨by rw [hg1, hf1], by rw [hg2, hf2], by rw [hg3, hf3]⟩
    · intro c' hc'
      rw [hfold]
      exact ih8 c' (cellTagOK_spliceIn s c c' hc hc')

/-- Cells of a single row (pairwise distinct items) keep their own three
fields across the whole `spliceOut` run of that row. -/
theorem spliceFold_own : ∀ (C : List Nat) (s : DLState),
    (∀ c ∈ C, cellOK s c) → ((C.map s.top).Nodup) →
    ∀ c ∈ C, (spliceFold s C).top c = s.top c ∧
      (spliceFold s C).ulink c = s.ulink c ∧ (spliceFold s C).dlink c = s.dlink c
  | [], _, _, _ => by intro c hm; cases hm
  | c0 :: C', s, hOK, hnd => by
    intro c hm
    have hc0 : cellOK s c0 := hOK c0 (List.mem_cons_self c0 C')
    have hxle : (s.top c0).toNat ≤ s.nitems := by
      obtain ⟨⟨-, -, he1, he2, -, -, -⟩, -, -⟩ := hc0
      omega
    have hndC : (c0 :: C').Nodup := hnd.of_map
    have hOK' : ∀ c' ∈ C', cellOK (spliceOut s c0) c' := by
      intro c' hm'
      exact cellOK_spliceOut s c0 c' hc0 (hOK c' (List.mem_cons_of_mem c0 hm'))
        (fun he => (List.nodup_cons.mp hndC).1 (he ▸ hm'))
    have hfold : spliceFold s (c0 :: C') = spliceFold (spliceOut s c0) C' := rfl
    have htopsC' : ∀ c' ∈ C', (spliceOut s c0).top c' = s.top c' := by
      intro c' hm2
      exact top_spliceOut_cell s c0 hxle c' (hOK c' (List.mem_cons_of_mem c0 hm2)).1.1
    have hnd' : (C'.map (spliceOut s c0).top).Nodup := by
      have hmapeq : C'.map (spliceOut s c0).top = C'.map s.top := by
        apply List.map_congr_left
        intro c' hm2
        exact htopsC' c' hm2
      rw [hmapeq]
      exact (List.nodup_cons.mp hnd).2
    obtain ⟨-, -, -, -, -, -, fr7, -⟩ := spliceFold_facts C' (spliceOut s c0) hOK'
      (List.nodup_cons.mp hndC).2
    rcases List.mem_cons.mp hm with rfl | hm'
    · obtain ⟨⟨hg1, hg2, hg3, hg4, -, -, -⟩, -, -⟩ := hc0
      have hso1 : (spliceOut s c).top c = s.top c := top_spliceOut_cell s c hxle c hg1
      have hso2 : (spliceOut s c).ulink c = s.ulink c := ulink_spliceOut_self s c
      have hso3 : (spliceOut s c).dlink c = s.dlink c := dlink_spliceOut_self s c
      have htagf : c = (s.top c).toNat ∧ (s.top c).toNat ≤ (spliceOut s c).nitems ∨
          (spliceOut s c).nitems < c ∧ (spliceOut s c).top c = (((s.top c).toNat : Nat) : Int) := by
        rw [nitems_spliceOut]
        refine Or.inr ⟨hg1, ?_⟩
        rw [hso1]
        exact (Int.toNat_of_nonneg (by omega)).symm
      have hyC' : ∀ c' ∈ C', (s.top c).toNat ≠ ((spliceOut s c).top c').toNat := by
        intro c' hm'
        rw [htopsC' c' hm']
        intro he
        have hnodup12 := (List.nodup_cons.mp hnd).1
        have hne : s.top c ≠ s.top c' := by
          intro he2
          exact hnodup12 (he2 ▸ List.mem_map_of_mem s.top hm')
        have hcm := hOK c' (List.mem_cons_of_mem c hm')
        obtain ⟨⟨-, -, hp1, -, -, -, -⟩, -, -⟩ := hcm
        exact hne (by omega)
      obtain ⟨hh1, hh2, hh3⟩ := fr7 (s.top c).toNat c htagf hyC'
      rw [hfold]
      exact ⟨by rw [hh1, hso1], by rw [hh2, hso2], by rw [hh3, hso3]⟩
    · have hcm : cellOK s c := hOK c (List.mem_cons_of_mem c0 hm')
      have hcmpos : 1 ≤ s.top c := by
        obtain ⟨⟨-, -, hp1, -, -, -, -⟩, -, -⟩ := hcm
        exact hp1
      have hyC : (s.top c).toNat ≠ (s.top c0).toNat := by
        have hnodup12 := (List.nodup_cons.mp hnd).1
        have hne : s.top c0 ≠ s.top c := by
          intro he2
          exact hnodup12 (he2 ▸ List.mem_map_of_mem s.top hm')
        obtain ⟨⟨-, -, hp0, -, -, -, -⟩, -, -⟩ := hc0
        intro he
        exact hne (by omega)
      have hstep := ytag_not_target s c0 hc0.1 (s.top c).toNat c
        (Or.inr ⟨hcm.1.1, (Int.toNat_of_nonneg (by omega)).symm⟩) hyC
      obtain ⟨hf1, hf2, hf3⟩ := spliceOut_frame s c0 c hstep.1 hstep.2.1 hstep.2.2
      obtain ⟨hh1, hh2, hh3⟩ := spliceFold_own C' (spliceOut s c0) hOK' hnd' c hm'
      rw [hfold]
      exact ⟨by rw [hh1, hf1], by rw [hh2, hf2], by rw [hh3, hf3]⟩

theorem mem_rowCells (a b c : Nat) : c ∈ rowCells a b ↔ a ≤ c ∧ c ≤ b := by
  unfold rowCells
  simp only [List.mem_map, List.mem_range]
  constructor
  · rintro ⟨k, hk, rfl⟩
    omega
  · rintro ⟨h1, h2⟩
    exact ⟨c - a, by omega, by omega⟩

theorem rowCells_empty (a b : Nat) (h : b < a) : rowCells a b = [] := by
  unfold rowCells
  have : b + 1 - a = 0 := by omega
  rw [this]
  rfl

theorem rowCells_cons (a b : Nat) (h : a ≤ b) : rowCells a b = a :: rowCells (a + 1) b := by
  unfold rowCells
  have h1 : b + 1 - a = (b + 1 - (a + 1)) + 1 := by omega
  rw [h1, List.range_succ_eq_map]
  simp only [List.map_cons, List.map_map, Nat.add_zero]
  congr 1
  apply List.map_congr_left
  intro k hk
  simp only [Function.comp_apply]
  omega

theorem rowCells_snoc (a b : Nat) (ha : 1 ≤ a) (h : a ≤ b) : rowCells a b = rowCells a (b - 1) ++ [b] := by
  unfold rowCells
  have h1 : b + 1 - a = (b - 1 + 1 - a) + 1 := by omega
  rw [h1, List.range_succ, List.map_append]
  simp only [List.map_cons, List.map_nil]
  have h2 : a + (b - 1 + 1 - a) = b := by omega
  rw [h2]

theorem rowCells_nodup (a b : Nat) : (rowCells a b).Nodup := by
  unfold rowCells
  exact List.Nodup.map (fun _ _ hxy => Nat.add_left_cancel hxy) (List.nodup_range _)

theorem wrapCells_nodup (a b p : Nat) : (wrapCells a b p).Nodup := by
  unfold wrapCells
  rw [List.nodup_append]
  refine ⟨rowCells_nodup _ _, rowCells_nodup _ _, ?_⟩
  intro c hc1 hc2
  rw [mem_rowCells] at hc1
  rw [mem_rowCells] at hc2
  omega

theorem wrapCells_sub (a b p : Nat) (ha : 1 ≤ a) (hap : a ≤ p) (hpb : p ≤ b) :
    ∀ c ∈ wrapCells a b p, c ∈ rowCells a b ∧ c ≠ p := by
  intro c hc
  unfold wrapCells at hc
  rcases List.mem_append.mp hc with h | h <;> rw [mem_rowCells] at h
  · exact ⟨(mem_rowCells a b c).mpr (by omega), by omega⟩
  · exact ⟨(mem_rowCells a b c).mpr (by omega), by omega⟩

/-- The dancing-links identity for a run: splicing out a set of pairwise
distinct linked cells and splicing them back in reverse order restores the
state exactly. -/
theorem unspliceFold_spliceFold : ∀ (C : List Nat) (s : DLState),
    (∀ c ∈ C, cellOK s c) → C.Nodup →
    unspliceFold (spliceFold s C) C.reverse = s
  | [], s, _, _ => rfl
  | c :: C', s, hOK, hnd => by
    have hc : cellOK s c := hOK c (List.mem_cons_self c C')
    have hOK' : ∀ c' ∈ C', cellOK (spliceOut s c) c' := by
      intro c' hm
      exact cellOK_spliceOut s c c' hc (hOK c' (List.mem_cons_of_mem c hm))
        (fun he => (List.nodup_cons.mp hnd).1 (he ▸ hm))
    have hrev : (c :: C').reverse = C'.reverse ++ [c] := by simp
    have hfold : spliceFold s (c :: C') = spliceFold (spliceOut s c) C' := rfl
    rw [hrev, hfold]
    show unspliceFold (spliceFold (spliceOut s c) C') (C'.reverse ++ [c]) = s
    unfold unspliceFold
    rw [List.foldl_append]
    have ih := unspliceFold_spliceFold C' (spliceOut s c) hOK' (List.nodup_cons.mp hnd).2
    unfold unspliceFold at ih
    rw [ih]
    simp only [List.foldl_cons, List.foldl_nil]
    exact spliceIn_spliceOut s c hc

/-- The `hide` loop from inside the row up to the closing spacer: it
splices out the cells `q..b` one by one, then jumps back to the row start
`a`. -/
theorem hideLoop_upper (p a b : Nat) : ∀ (k : Nat) (t : DLState) (q fuel' : Nat),
    q + k = b + 1 →
    (∀ c ∈ rowCells q b, cellOK t c) →
    t.nitems < q →
    t.top (b + 1) ≤ 0 → t.ulink (b + 1) = a →
    p < q →
    hideLoop p (fuel' + (k + 1)) q t = hideLoop p fuel' a (spliceFold t (rowCells q b))
  | 0, t, q, fuel' => by
    intro hk hcells hni htb hub hpq
    have hq : q = b + 1 := by omega
    subst hq
    rw [rowCells_empty _ _ (by omega)]
    have hfe : fuel' + (0 + 1) = fuel' + 1 := by omega
    rw [hfe]
    show hideLoop p (fuel' + 1) (b + 1) t = hideLoop p fuel' a (spliceFold t [])
    simp only [hideLoop, spliceFold, List.foldl_nil]
    rw [if_neg (by omega : ¬b + 1 = p), if_pos htb, hub]
  | k + 1, t, q, fuel' => by
    intro hk hcells hni htb hub hpq
    have hqb : q ≤ b := by omega
    have hq : cellOK t q := hcells q ((mem_rowCells q b q).mpr ⟨le_refl q, hqb⟩)
    have htq : 1 ≤ t.top q := hq.1.2.2.1
    have hfe : fuel' + (k + 1 + 1) = (fuel' + (k + 1)) + 1 := by omega
    rw [hfe]
    have hstep : hideLoop p ((fuel' + (k + 1)) + 1) q t =
        hideLoop p (fuel' + (k + 1)) (q + 1) (spliceOut t q) := by
      simp only [hideLoop]
      rw [if_neg (by omega : ¬q = p), if_neg (by omega : ¬t.top q ≤ 0)]
      rfl
    rw [hstep]
    have hsps := spacer_not_target t q hq.1 (b + 1) (by omega) htb
    obtain ⟨hf1, hf2, hf3⟩ := spliceOut_frame t q (b + 1) hsps.1 hsps.2.1 hsps.2.2
    have hcells' : ∀ c ∈ rowCells (q + 1) b, cellOK (spliceOut t q) c := by
      intro c hm
      rw [mem_rowCells] at hm
      exact cellOK_spliceOut t q c hq
        (hcells c ((mem_rowCells q b c).mpr ⟨by omega, hm.2⟩)) (by omega)
    have ih := hideLoop_upper p a b k (spliceOut t q) (q + 1) fuel' (by omega) hcells'
      (by rw [nitems_spliceOut]; omega) (by rw [hf1]; exact htb) (by rw [hf2]; exact hub)
      (by omega)
    rw [ih]
    rw [rowCells_cons q b hqb]
    rfl

/-- The `hide` loop across the lower part of the row: it splices out the
cells `q..p-1` and stops at `p`. -/
theorem hideLoop_lower (p : Nat) : ∀ (k : Nat) (t : DLState) (q fuel' : Nat),
    q + k = p →
    (∀ c ∈ rowCells q (p - 1), cellOK t c) →
    t.nitems < q →
    hideLoop p (fuel' + (k + 1)) q t = some (spliceFold t (rowCells q (p - 1)))
  | 0, t, q, fuel' => by
    intro hk hcells hni
    have hq : q = p := by omega
    have hfe : fuel' + (0 + 1) = fuel' + 1 := by omega
    rw [hfe]
    simp only [hq]
    rw [rowCells_empty _ _ (by omega)]
    simp [hideLoop, spliceFold]
  | k + 1, t, q, fuel' => by
    intro hk hcells hni
    have hqp : q < p := by omega
    have hq : cellOK t q := hcells q ((mem_rowCells q (p - 1) q).mpr ⟨le_refl q, by omega⟩)
    have htq : 1 ≤ t.top q := hq.1.2.2.1
    have hfe : fuel' + (k + 1 + 1) = (fuel' + (k + 1)) + 1 := by omega
    rw [hfe]
    have hstep : hideLoop p ((fuel' + (k + 1)) + 1) q t =
        hideLoop p (fuel' + (k + 1)) (q + 1) (spliceOut t q) := by
      simp only [hideLoop]
      rw [if_neg (by omega : ¬q = p), if_neg (by omega : ¬t.top q ≤ 0)]
      rfl
    rw [hstep]
    have hcells' : ∀ c ∈ rowCells (q + 1) (p - 1), cellOK (spliceOut t q) c := by
      intro c hm
      rw [mem_rowCells] at hm
      exact cellOK_spliceOut t q c hq
        (hcells c ((mem_rowCells q (p - 1) c).mpr ⟨by omega, hm.2⟩)) (by omega)
    have ih := hideLoop_lower p k (spliceOut t q) (q + 1) fuel' (by omega) hcells'
      (by rw [nitems_spliceOut]; omega)
    rw [ih]
    rw [rowCells_cons q (p - 1) (by omega)]
    rfl

/-- The full `hide(p)` call on a well-formed row `a..b` containing `p`:
it returns the state with every other row cell spliced out, in wrap
order. -/
theorem hide_run (t : DLState) (a b p fuel' : Nat)
    (hcells : ∀ c ∈ rowCells a b, cellOK t c)
    (hna : t.nitems < a) (hap : a ≤ p) (hpb : p ≤ b)
    (htb : t.top (b + 1) ≤ 0) (hub : t.ulink (b + 1) = a) :
    hide (fuel' + (p - a + 1) + (b - p + 1)) p t = some (spliceFold t (wrapCells a b p)) := by
  unfold hide
  have hcu : ∀ c ∈ rowCells (p + 1) b, cellOK t c := by
    intro c hm
    rw [mem_rowCells] at hm
    exact hcells c ((mem_rowCells a b c).mpr ⟨by omega, hm.2⟩)
  have h1 := hideLoop_upper p a b (b - p) t (p + 1) (fuel' + (p - a + 1)) (by omega) hcu
    (by omega) htb hub (by omega)
  have hfe : fuel' + (p - a + 1) + (b - p + 1) = (fuel' + (p - a + 1)) + (b - p + 1) := by
    omega
  rw [hfe, h1]
  set t1 := spliceFold t (rowCells (p + 1) b) with ht1
  obtain ⟨-, -, -, -, -, -, -, fpres⟩ := spliceFold_facts (rowCells (p + 1) b) t hcu
    (rowCells_nodup _ _)
  have hcl : ∀ c ∈ rowCells a (p - 1), cellOK t1 c := by
    intro c hm
    rw [mem_rowCells] at hm
    refine fpres c (hcells c ((mem_rowCells a b c).mpr ⟨hm.1, by omega⟩)) ?_
    rw [mem_rowCells]
    omega
  have h2 := hideLoop_lower p (p - a) t1 a fuel' (by omega) hcl
    (by rw [ht1]; obtain ⟨-, -, -, -, -, -, -, -⟩ := spliceFold_facts (rowCells (p + 1) b) t hcu
          (rowCells_nodup _ _)
        show t1.nitems < a
        have : t1.headers = t.headers :=
          (spliceFold_facts (rowCells (p + 1) b) t hcu (rowCells_nodup _ _)).1
        unfold DLState.nitems
        rw [this]
        exact hna)
  rw [h2]
  unfold wrapCells spliceFold
  rw [List.foldl_append]
  rfl

/-- The `unhide` loop down the lower part of the row and across the
opening spacer: it splices the cells `q` down to `a` back in, then jumps
to the row end `b`. -/
theorem unhideLoop_lower (p a b : Nat) : ∀ (k : Nat) (t : DLState) (q fuel' : Nat),
    q + 1 = a + k →
    (∀ c ∈ rowCells a q, cellTagOK t c) →
    t.nitems + 1 < a →
    t.top (a - 1) ≤ 0 → t.dlink (a - 1) = b →
    q < p →
    unhideLoop p (fuel' + (k + 1)) q t =
      unhideLoop p fuel' b (unspliceFold t (rowCells a q).reverse)
  | 0, t, q, fuel' => by
    intro hk hcells hni hta hdb hqp
    have hq : q = a - 1 := by omega
    have hfe : fuel' + (0 + 1) = fuel' + 1 := by omega
    rw [hfe]
    simp only [hq]
    rw [rowCells_empty _ _ (by omega)]
    simp only [unhideLoop, unspliceFold, List.reverse_nil, List.foldl_nil]
    rw [if_neg (by omega : ¬a - 1 = p), if_pos hta, hdb]
  | k + 1, t, q, fuel' => by
    intro hk hcells hni hta hdb hqp
    have haq : a ≤ q := by omega
    have hq : cellTagOK t q := hcells q ((mem_rowCells a q q).mpr ⟨haq, le_refl q⟩)
    have htq : 1 ≤ t.top q := hq.2.2.1
    have hfe : fuel' + (k + 1 + 1) = (fuel' + (k + 1)) + 1 := by omega
    rw [hfe]
    have hstep : unhideLoop p ((fuel' + (k + 1)) + 1) q t =
        unhideLoop p (fuel' + (k + 1)) (q - 1) (spliceIn t q) := by
      simp only [unhideLoop]
      rw [if_neg (by omega : ¬q = p), if_neg (by omega : ¬t.top q ≤ 0)]
      rfl
    rw [hstep]
    have hsps := spacer_not_target t q hq (a - 1) (by omega) hta
    obtain ⟨hf1, hf2, hf3⟩ := spliceIn_frame t q (a - 1) hsps.1 hsps.2.1 hsps.2.2
    have hcells' : ∀ c ∈ rowCells a (q - 1), cellTagOK (spliceIn t q) c := by
      intro c hm
      rw [mem_rowCells] at hm
      exact cellTagOK_spliceIn t q c hq
        (hcells c ((mem_rowCells a q c).mpr ⟨hm.1, by omega⟩))
    have ih := unhideLoop_lower p a b k (spliceIn t q) (q - 1) fuel' (by omega) hcells'
      (by rw [nitems_spliceIn]; omega) (by rw [hf1]; exact hta) (by rw [hf3]; exact hdb)
      (by omega)
    rw [ih]
    rw [rowCells_snoc a q (by omega) haq, List.reverse_append]
    rfl

/-- The `unhide` loop down the upper part of the row: it splices the cells
`q` down to `p+1` back in and stops at `p`. -/
theorem unhideLoop_upper (p : Nat) : ∀ (k : Nat) (t : DLState) (q fuel' : Nat),
    q = p + k →
    (∀ c ∈ rowCells (p + 1) q, cellTagOK t c) →
    unhideLoop p (fuel' + (k + 1)) q t = some (unspliceFold t (rowCells (p + 1) q).reverse)
  | 0, t, q, fuel' => by
    intro hk hcells
    have hq : q = p := by omega
    have hfe : fuel' + (0 + 1) = fuel' + 1 := by omega
    rw [hfe]
    simp only [hq]
    rw [rowCells_empty _ _ (by omega)]
    simp [unhideLoop, unspliceFold]
  | k + 1, t, q, fuel' => by
    intro hk hcells
    have hpq : p < q := by omega
    have hq : cellTagOK t q := hcells q ((mem_rowCells (p + 1) q q).mpr ⟨by omega, le_refl q⟩)
    have htq : 1 ≤ t.top q := hq.2.2.1
    have hfe : fuel' + (k + 1 + 1) = (fuel' + (k + 1)) + 1 := by omega
    rw [hfe]
    have hstep : unhideLoop p ((fuel' + (k + 1)) + 1) q t =
        unhideLoop p (fuel' + (k + 1)) (q - 1) (spliceIn t q) := by
      simp only [unhideLoop]
      rw [if_neg (by omega : ¬q = p), if_neg (by omega : ¬t.top q ≤ 0)]
      rfl
    rw [hstep]
    have hcells' : ∀ c ∈ rowCells (p + 1) (q - 1), cellTagOK (spliceIn t q) c := by
      intro c hm
      rw [mem_rowCells] at hm
      exact cellTagOK_spliceIn t q c hq
        (hcells c ((mem_rowCells (p + 1) q c).mpr ⟨hm.1, by omega⟩))
    have ih := unhideLoop_upper p k (spliceIn t q) (q - 1) fuel' (by omega) hcells'
    rw [ih]
    rw [rowCells_snoc (p + 1) q (by omega) (by omega), List.reverse_append]
    rfl

/-- The full `unhide(p)` call on the row `a..b` of `p` whose other cells
are currently hidden: it splices them back in reverse wrap order. -/
theorem unhide_run (t : DLState) (a b p fuel' : Nat)
    (hcells : ∀ c ∈ wrapCells a b p, cellTagOK t c)
    (hna : t.nitems + 1 < a) (hap : a ≤ p) (hpb : p ≤ b)
    (hta : t.top (a - 1) ≤ 0) (hdb : t.dlink (a - 1) = b) :
    unhide (fuel' + (b - p + 1) + (p - a + 1)) p t =
      some (unspliceFold t (wrapCells a b p).reverse) := by
  unfold unhide
  have hcl : ∀ c ∈ rowCells a (p - 1), cellTagOK t c := by
    intro c hm
    rw [mem_rowCells] at hm
    refine hcells c ?_
    unfold wrapCells
    rw [List.mem_append, mem_rowCells, mem_rowCells]
    right
    exact ⟨hm.1, hm.2⟩
  have h1 := unhideLoop_lower p a b (p - a) t (p - 1) (fuel' + (b - p + 1)) (by omega) hcl
    hna hta hdb (by omega)
  have hfe : fuel' + (b - p + 1) + (p - a + 1) = (fuel' + (b - p + 1)) + (p - a + 1) := by
    omega
  rw [hfe, h1]
  set t2 := unspliceFold t (rowCells a (p - 1)).reverse with ht2
  obtain ⟨-, -, -, -, -, -, -, upres⟩ := unspliceFold_facts (rowCells a (p - 1)).reverse t
    (by intro c hm
        rw [List.mem_reverse] at hm
        exact hcl c hm)
  have hcu : ∀ c ∈ rowCells (p + 1) b, cellTagOK t2 c := by
    intro c hm
    rw [mem_rowCells] at hm
    refine upres c (hcells c ?_)
    unfold wrapCells
    rw [List.mem_append, mem_rowCells]
    left
    exact ⟨hm.1, hm.2⟩
  have h2 := unhideLoop_upper p (b - p) t2 b fuel' (by omega) hcu
  rw [h2]
  unfold wrapCells
  rw [List.reverse_append]
  unfold unspliceFold
  rw [List.foldl_append]
  rfl

/-- `cellTagOK` transfers to a state with equal sizes, equal non-header
tops, and equal own fields. -/
theorem cellTagOK_transfer (s t : DLState) (hlen : t.nodes.length = s.nodes.length)
    (hni : t.nitems = s.nitems) (htops : ∀ r, s.nitems < r → t.top r = s.top r)
    (c : Nat) (hc : cellTagOK s c)
    (ht : t.top c = s.top c) (hu : t.ulink c = s.ulink c) (hd : t.dlink c = s.dlink c) :
    cellTagOK t c := by
  obtain ⟨h1, h2, h3, h4, h5, ⟨hub, hcu⟩, ⟨hdb, hcd⟩⟩ := hc
  refine ⟨by omega, by omega, by rw [ht]; exact h3, by rw [ht, hni]; exact h4,
    by rw [ht, hlen]; exact h5, ?_, ?_⟩
  · rw [ht, hu]
    refine ⟨by omega, ?_⟩
    rcases hcu with hcu | ⟨hcu1, hcu2⟩
    · exact Or.inl hcu
    · exact Or.inr ⟨by omega, by rw [htops _ hcu1]; exact hcu2⟩
  · rw [ht, hd]
    refine ⟨by omega, ?_⟩
    rcases hcd with hcd | ⟨hcd1, hcd2⟩
    · exact Or.inl hcd
    · exact Or.inr ⟨by omega, by rw [htops _ hcd1]; exact hcd2⟩

/-- A `vchain` only reads the `dlink` fields of its members, so it
transfers to any state agreeing there. -/
theorem vchain_transfer (s t : DLState) (i : Nat) :
    ∀ (P : List Nat) (j : Nat), (∀ p ∈ P, t.dlink p = s.dlink p) →
      vchain t i j P = vchain s i j P
  | [], j, _ => rfl
  | p :: P', j, hdl => by
    simp only [vchain]
    rw [hdl p (List.mem_cons_self p P')]
    rw [vchain_transfer s t i P' (s.dlink p) (fun p' hm => hdl p' (List.mem_cons_of_mem p hm))]

/-- The last member of a non-empty `vchain` is the cell whose `dlink`
closes the cycle at the header `i`. -/
theorem vchain_getLast (s : DLState) (i : Nat) :
    ∀ (P : List Nat) (j : Nat), vchain s i j P = true → P ≠ [] →
      ∀ d, s.dlink (P.getLastD d) = i
  | [], _, _, hne, _ => absurd rfl hne
  | p :: P', j, hch, _, d => by
    simp only [vchain, Bool.and_eq_true, decide_eq_true_eq] at hch
    obtain ⟨-, hrest⟩ := hch
    match P', hrest with
    | [], hrest =>
      simp only [vchain, decide_eq_true_eq] at hrest
      simpa [List.getLastD] using hrest
    | p' :: P'', hrest =>
      have := vchain_getLast s i (p' :: P'') (s.dlink p) hrest (by simp) p
      simpa [List.getLastD] using this

/-- Members of a `vchain` are visited in order: the head is the entry. -/
theorem vchain_head (s : DLState) (i : Nat) (P : List Nat) (j : Nat) (p : Nat)
    (hch : vchain s i j (p :: P) = true) : j = p ∧ vchain s i (s.dlink p) P = true := by
  simp only [vchain, Bool.and_eq_true, decide_eq_true_eq] at hch
  exact ⟨hch.1, hch.2⟩

/-- One full row step of `cover i`/`uncover i`: hiding the row of `p`
succeeds and produces the wrap-order splice fold; unhiding undoes it; and
the fold leaves headers, sizes, spacers, the whole column `i`, and every
cell outside the row untouched. -/
theorem hideRow_step (s : DLState) (i a b p : Nat)
    (hrow : rowOK s a b) (hap : a ≤ p) (hpb : p ≤ b)
    (htopp : s.top p = (i : Int)) (hi : i ≤ s.nitems) :
    (∀ fuel, b - a + 2 ≤ fuel → hide fuel p s = some (spliceFold s (wrapCells a b p))) ∧
    (∀ fuel, b - a + 2 ≤ fuel → unhide fuel p (spliceFold s (wrapCells a b p)) = some s) ∧
    (spliceFold s (wrapCells a b p)).headers = s.headers ∧
    (spliceFold s (wrapCells a b p)).nodes.length = s.nodes.length ∧
    (spliceFold s (wrapCells a b p)).nrows = s.nrows ∧
    (spliceFold s (wrapCells a b p)).ncount = s.ncount ∧
    (∀ r, s.nitems < r → (spliceFold s (wrapCells a b p)).top r = s.top r) ∧
    (∀ r, s.nitems < r → s.top r ≤ 0 →
      (spliceFold s (wrapCells a b p)).ulink r = s.ulink r ∧
      (spliceFold s (wrapCells a b p)).dlink r = s.dlink r) ∧
    (∀ r, r = i ∨ (s.nitems < r ∧ s.top r = (i : Int)) →
      (spliceFold s (wrapCells a b p)).top r = s.top r ∧
      (spliceFold s (wrapCells a b p)).ulink r = s.ulink r ∧
      (spliceFold s (wrapCells a b p)).dlink r = s.dlink r) ∧
    (∀ c', cellOK s c' → c' ∉ wrapCells a b p → cellOK (spliceFold s (wrapCells a b p)) c') := by
  obtain ⟨hna, hab, hbl, htb, hub, hta, hdb, hcells, hndtop⟩ := hrow
  have ha1 : 1 ≤ a := by omega
  have hwsub := wrapCells_sub a b p ha1 hap hpb
  have hwOK : ∀ c ∈ wrapCells a b p, cellOK s c := fun c hm => hcells c (hwsub c hm).1
  have hwnd : (wrapCells a b p).Nodup := wrapCells_nodup a b p
  have hpmem : p ∈ rowCells a b := (mem_rowCells a b p).mpr ⟨hap, hpb⟩
  have hpOK : cellOK s p := hcells p hpmem
  have hinj := List.inj_on_of_nodup_map hndtop
  have htopsne : ∀ c ∈ wrapCells a b p, s.top c ≠ (i : Int) := by
    intro c hm he
    have h1 := (hwsub c hm).1
    have h2 := (hwsub c hm).2
    exact h2 (hinj h1 hpmem (he.trans htopp.symm))
  have hyC : ∀ c ∈ wrapCells a b p, i ≠ (s.top c).toNat := by
    intro c hm he
    have hok := hwOK c hm
    have h3 : 1 ≤ s.top c := hok.1.2.2.1
    exact htopsne c hm (by omega)
  obtain ⟨f1, f2, f3, f4, f5, f6, f7, f8⟩ := spliceFold_facts (wrapCells a b p) s hwOK hwnd
  have hwndtop : ((wrapCells a b p).map s.top).Nodup := by
    refine List.Nodup.map_on ?_ hwnd
    intro x hx y hy hxy
    exact hinj (hwsub x hx).1 (hwsub y hy).1 hxy
  have hown := spliceFold_own (wrapCells a b p) s hwOK hwndtop
  have htagOK : ∀ c ∈ wrapCells a b p, cellTagOK (spliceFold s (wrapCells a b p)) c := by
    intro c hm
    obtain ⟨o1, o2, o3⟩ := hown c hm
    exact cellTagOK_transfer s _ f2 (by unfold DLState.nitems; rw [f1]) f5 c (hwOK c hm).1
      o1 o2 o3
  have hniw : (spliceFold s (wrapCells a b p)).nitems = s.nitems := by
    unfold DLState.nitems
    rw [f1]
  refine ⟨?_, ?_, f1, f2, f3, f4, f5, f6, ?_, f8⟩
  · intro fuel hfu
    have hsh : fuel = (fuel - (b - a + 2)) + (p - a + 1) + (b - p + 1) := by omega
    rw [hsh]
    exact hide_run s a b p (fuel - (b - a + 2)) hcells (by omega) hap hpb htb hub
  · intro fuel hfu
    have hsh : fuel = (fuel - (b - a + 2)) + (b - p + 1) + (p - a + 1) := by omega
    rw [hsh]
    have hspa := f6 (a - 1) (by omega) hta
    have hspt := f5 (a - 1) (by omega)
    have hur := unhide_run (spliceFold s (wrapCells a b p)) a b p (fuel - (b - a + 2))
      htagOK (by omega) hap hpb (by rw [hspt]; exact hta) (by rw [hspa.2]; exact hdb)
    rw [hur]
    rw [unspliceFold_spliceFold (wrapCells a b p) s hwOK hwnd]
  · intro r hr
    rcases hr with rfl | ⟨hr1, hr2⟩
    · exact f7 r r (Or.inl ⟨rfl, hi⟩) hyC
    · exact f7 i r (Or.inr ⟨hr1, hr2⟩) hyC

/-- `rowOK` transfers to a state with equal sizes, stable non-header tops,
stable spacers, and preserved cells. -/
theorem rowOK_transfer (s t : DLState) (a b : Nat) (hrow : rowOK s a b)
    (hni : t.nitems = s.nitems) (hlen : t.nodes.length = s.nodes.length)
    (htops : ∀ r, s.nitems < r → t.top r = s.top r)
    (hsp : ∀ r, s.nitems < r → s.top r ≤ 0 → t.ulink r = s.ulink r ∧ t.dlink r = s.dlink r)
    (hcellpres : ∀ c ∈ rowCells a b, cellOK t c) :
    rowOK t a b := by
  obtain ⟨hna, hab, hbl, htb, hub, hta, hdb, hcells, hnd⟩ := hrow
  refine ⟨by omega, hab, by omega, ?_, ?_, ?_, ?_, hcellpres, ?_⟩
  · rw [htops (b + 1) (by omega)]; exact htb
  · rw [(hsp (b + 1) (by omega) htb).1]; exact hub
  · rw [htops (a - 1) (by omega)]; exact hta
  · rw [(hsp (a - 1) (by omega) hta).2]; exact hdb
  · have hmape : (rowCells a b).map t.top = (rowCells a b).map s.top := by
      apply List.map_congr_left
      intro c hm
      rw [mem_rowCells] at hm
      exact htops c (by omega)
    rw [hmape]
    exact hnd

/-- The telescoping lemma for one `cover i`/`uncover i` pair: walking item
`i`'s column `P` (in `dlink` order), the cover loop hides every row —
producing exactly `coverFold` — and the uncover loop, entered at the last
option, unhides them in reverse and restores the starting state exactly. -/
theorem coverSeg (i : Nat) (rA rB : Nat → Nat) : ∀ (P : List Nat) (s : DLState) (j : Nat),
    vchain s i j P = true →
    (∀ p ∈ P, s.top p = (i : Int)) →
    (∀ p ∈ P, rA p ≤ p ∧ p ≤ rB p ∧ rowOK s (rA p) (rB p)) →
    P.Pairwise (fun p p' => rB p < rA p' ∨ rB p' < rA p) →
    i ≤ s.nitems →
    (∀ fuel', (∀ p ∈ P, rB p - rA p + 2 ≤ fuel') →
      coverLoop i (fuel' + P.length) j s = coverLoop i fuel' i (coverFold rA rB s P)) ∧
    (coverFold rA rB s P).headers = s.headers ∧
    (coverFold rA rB s P).nodes.length = s.nodes.length ∧
    (coverFold rA rB s P).nrows = s.nrows ∧ (coverFold rA rB s P).ncount = s.ncount ∧
    (∀ r, r = i ∨ (s.nitems < r ∧ s.top r = (i : Int)) →
      (coverFold rA rB s P).top r = s.top r ∧ (coverFold rA rB s P).ulink r = s.ulink r ∧
        (coverFold rA rB s P).dlink r = s.dlink r) ∧
    (∀ X fuel', (∀ p ∈ P, rB p - rA p + 2 ≤ fuel') →
      (P ≠ [] → X = s.ulink (P.headI)) →
      uncoverLoop i (fuel' + P.length) (P.getLastD X) (coverFold rA rB s P) =
        uncoverLoop i fuel' X s)
  | [], s, j, hch, _, _, _, _ => by
    refine ⟨?_, rfl, rfl, rfl, rfl, fun r _ => ⟨rfl, rfl, rfl⟩, ?_⟩
    · intro fuel' _
      have hj : j = i := by simpa [vchain] using hch
      rw [hj]
      simp [coverFold]
    · intro X fuel' _ _
      rfl
  | p :: P', s, j, hch, htops, hrows, hdisj, hi => by
    obtain ⟨hj, hch'⟩ := vchain_head s i P' j p hch
    obtain ⟨hap, hpb, hrowp⟩ := hrows p (List.mem_cons_self p P')
    have htopp : s.top p = (i : Int) := htops p (List.mem_cons_self p P')
    obtain ⟨hhide, hunhide, g1, g2, g3, g4, g5, g6, g7, g8⟩ :=
      hideRow_step s i (rA p) (rB p) p hrowp hap hpb htopp hi
    set t1 := spliceFold s (wrapCells (rA p) (rB p) p) with ht1def
    have hcf : coverFold rA rB s (p :: P') = coverFold rA rB t1 P' := rfl
    have hpOK : cellOK s p :=
      hrowp.2.2.2.2.2.2.2.1 p ((mem_rowCells (rA p) (rB p) p).mpr ⟨hap, hpb⟩)
    have hpni : s.nitems < p := hpOK.1.1
    have hpne : p ≠ i := by omega
    have hni1 : t1.nitems = s.nitems := by
      unfold DLState.nitems
      rw [g1]
    have hitag : ∀ p' ∈ P', p' = i ∨ (s.nitems < p' ∧ s.top p' = (i : Int)) := by
      intro p' hm
      obtain ⟨hap', hpb', hrowp'⟩ := hrows p' (List.mem_cons_of_mem p hm)
      have hpOK' : cellOK s p' :=
        hrowp'.2.2.2.2.2.2.2.1 p' ((mem_rowCells _ _ p').mpr ⟨hap', hpb'⟩)
      exact Or.inr ⟨hpOK'.1.1, htops p' (List.mem_cons_of_mem p hm)⟩
    have hdlP' : ∀ p' ∈ P', t1.dlink p' = s.dlink p' := by
      intro p' hm
      exact (g7 p' (hitag p' hm)).2.2
    have hch1 : vchain t1 i (s.dlink p) P' = true := by
      rw [vchain_transfer s t1 i P' (s.dlink p) hdlP']
      exact hch'
    have htops1 : ∀ p' ∈ P', t1.top p' = (i : Int) := by
      intro p' hm
      rw [(g7 p' (hitag p' hm)).1]
      exact htops p' (List.mem_cons_of_mem p hm)
    have hdisjp : ∀ p' ∈ P', rB p < rA p' ∨ rB p' < rA p := by
      intro p' hm
      exact (List.pairwise_cons.mp hdisj).1 p' hm
    have hrows1 : ∀ p' ∈ P', rA p' ≤ p' ∧ p' ≤ rB p' ∧ rowOK t1 (rA p') (rB p') := by
      intro p' hm
      obtain ⟨hap', hpb', hrowp'⟩ := hrows p' (List.mem_cons_of_mem p hm)
      refine ⟨hap', hpb', rowOK_transfer s t1 (rA p') (rB p') hrowp' hni1 g2 g5 g6 ?_⟩
      intro c hmc
      rw [mem_rowCells] at hmc
      refine g8 c (hrowp'.2.2.2.2.2.2.2.1 c ((mem_rowCells _ _ c).mpr hmc)) ?_
      intro hw
      obtain ⟨hcr, -⟩ := wrapCells_sub (rA p) (rB p) p (by
          have := hrowp.1
          omega) hap hpb c hw
      rw [mem_rowCells] at hcr
      rcases hdisjp p' hm with hd | hd <;> omega
    have hdisj1 : P'.Pairwise (fun p p' => rB p < rA p' ∨ rB p' < rA p) :=
      (List.pairwise_cons.mp hdisj).2
    have hi1 : i ≤ t1.nitems := by omega
    obtain ⟨ihcov, ih1, ih2, ih3, ih4, ih5, ihunc⟩ :=
      coverSeg i rA rB P' t1 (s.dlink p) hch1 htops1 hrows1 hdisj1 hi1
    have hitagt1 : ∀ r, r = i ∨ (s.nitems < r ∧ s.top r = (i : Int)) →
        r = i ∨ (t1.nitems < r ∧ t1.top r = (i : Int)) := by
      intro r hr
      rcases hr with rfl | ⟨hr1, hr2⟩
      · exact Or.inl rfl
      · exact Or.inr ⟨by omega, by rw [(g7 r (Or.inr ⟨hr1, hr2⟩)).1]; exact hr2⟩
    refine ⟨?_, by rw [hcf, ih1, g1], by rw [hcf, ih2, g2], by rw [hcf, ih3, g3],
      by rw [hcf, ih4, g4], ?_, ?_⟩
    · intro fuel' hfu
      have hfp : rB p - rA p + 2 ≤ fuel' := hfu p (List.mem_cons_self p P')
      have hle : fuel' + (p :: P').length = (fuel' + P'.length) + 1 := by
        simp only [List.length_cons]
        omega
      rw [hj, hle, hcf]
      show coverLoop i ((fuel' + P'.length) + 1) p s = coverLoop i fuel' i (coverFold rA rB t1 P')
      simp only [coverLoop]
      rw [if_neg hpne]
      rw [hhide (fuel' + P'.length) (by omega)]
      show coverLoop i (fuel' + P'.length) (t1.dlink p) t1 =
        coverLoop i fuel' i (coverFold rA rB t1 P')
      rw [(g7 p (Or.inr ⟨hpni, htopp⟩)).2.2]
      exact ihcov fuel' (fun p' hm => hfu p' (List.mem_cons_of_mem p hm))
    · intro r hr
      obtain ⟨k1, k2, k3⟩ := ih5 r (hitagt1 r hr)
      obtain ⟨m1, m2, m3⟩ := g7 r hr
      exact ⟨by rw [hcf, k1, m1], by rw [hcf, k2, m2], by rw [hcf, k3, m3]⟩
    · intro X fuel' hfu hX
      have hfp : rB p - rA p + 2 ≤ fuel' := hfu p (List.mem_cons_self p P')
      have hXp : X = s.ulink p := by
        have := hX (by simp)
        simpa using this
      have hXhyp1 : P' ≠ [] → (p : Nat) = t1.ulink (P'.headI) := by
        intro hne
        match P', hch', hne with
        | p' :: P'', hch', _ =>
          obtain ⟨hj', -⟩ := vchain_head s i P'' (s.dlink p) p' hch'
          have hul : t1.ulink p' = s.ulink p' :=
            (g7 p' (hitag p' (List.mem_cons_self p' P''))).2.1
          show p = t1.ulink ((p' :: P'').headI)
          simp only [List.headI]
          rw [hul, ← hj']
          exact hpOK.2.2.symm
      have ihu := ihunc p (fuel' + 1)
        (fun p' hm => by have := hfu p' (List.mem_cons_of_mem p hm); omega) hXhyp1
      have hle : (fuel' + 1) + P'.length = fuel' + (p :: P').length := by
        simp only [List.length_cons]
        omega
      rw [hle] at ihu
      have hgl : (p :: P').getLastD X = P'.getLastD p := List.getLastD_cons X p P'
      rw [hcf, hgl, ihu]
      show uncoverLoop i (fuel' + 1) p t1 = uncoverLoop i fuel' X s
      simp only [uncoverLoop]
      rw [if_neg hpne]
      rw [hunhide fuel' (by omega)]
      show uncoverLoop i fuel' (s.ulink p) s = uncoverLoop i fuel' X s
      rw [hXp]

theorem name_setRlink (s : DLState) (i v j : Nat) : (s.setRlink i v).name j = s.name j := by
  simp only [DLState.name, DLState.setRlink, getD_set_node]
  split_ifs with h
  · obtain ⟨rfl, -⟩ := h
    rfl
  · rfl

theorem name_setLlink (s : DLState) (i v j : Nat) : (s.setLlink i v).name j = s.name j := by
  simp only [DLState.name, DLState.setLlink, getD_set_node]
  split_ifs with h
  · obtain ⟨rfl, -⟩ := h
    rfl
  · rfl

theorem getLastD_mem : ∀ (l : List Nat) (d : Nat), l ≠ [] → l.getLastD d ∈ l
  | [], _, hne => absurd rfl hne
  | [a], d, _ => by simp [List.getLastD]
  | a :: b :: l, d, _ => by
    have h := getLastD_mem (b :: l) a (by simp)
    simp only [List.getLastD_cons] at h ⊢
    exact List.mem_cons_of_mem a h

theorem top_setNc (s : DLState) (c j : Nat) : (setNc s c).top j = s.top j := rfl

theorem ulink_setNc (s : DLState) (c j : Nat) : (setNc s c).ulink j = s.ulink j := rfl

theorem dlink_setNc (s : DLState) (c j : Nat) : (setNc s c).dlink j = s.dlink j := rfl

theorem llink_setNc (s : DLState) (c j : Nat) : (setNc s c).llink j = s.llink j := rfl

theorem rlink_setNc (s : DLState) (c j : Nat) : (setNc s c).rlink j = s.rlink j := rfl

theorem nodes_setNc (s : DLState) (c : Nat) : (setNc s c).nodes = s.nodes := rfl

theorem headers_setNc (s : DLState) (c : Nat) : (setNc s c).headers = s.headers := rfl

theorem setDlink_setNc (s : DLState) (c i v : Nat) :
    (setNc s c).setDlink i v = setNc (s.setDlink i v) c := rfl

theorem setUlink_setNc (s : DLState) (c i v : Nat) :
    (setNc s c).setUlink i v = setNc (s.setUlink i v) c := rfl

theorem setLen_setNc (s : DLState) (c i : Nat) (v : Int) :
    (setNc s c).setLen i v = setNc (s.setLen i v) c := rfl

theorem setLlink_setNc (s : DLState) (c i v : Nat) :
    (setNc s c).setLlink i v = setNc (s.setLlink i v) c := rfl

theorem setRlink_setNc (s : DLState) (c i v : Nat) :
    (setNc s c).setRlink i v = setNc (s.setRlink i v) c := rfl

/-- `hide` only reads and writes links, so it commutes with `ncount`. -/
theorem hideLoop_setNc (p : Nat) : ∀ (fuel q : Nat) (s : DLState) (c : Nat),
    hideLoop p fuel q (setNc s c) = Option.map (fun t => setNc t c) (hideLoop p fuel q s)
  | 0, _, _, _ => rfl
  | fuel + 1, q, s, c => by
    simp only [hideLoop]
    by_cases hq : q = p
    · simp [hq]
    · rw [if_neg hq, if_neg hq]
      show (if s.top q ≤ 0 then hideLoop p fuel (s.ulink q) (setNc s c)
          else hideLoop p fuel (q + 1)
            (setNc (((s.setDlink (s.ulink q) (s.dlink q)).setUlink (s.dlink q)
              (s.ulink q)).setLen (s.top q).toNat (s.len (s.top q).toNat - 1)) c)) = _
      by_cases hsp : s.top q ≤ 0
      · rw [if_pos hsp, if_pos hsp, hideLoop_setNc p fuel (s.ulink q) s c]
      · rw [if_neg hsp, if_neg hsp, hideLoop_setNc p fuel (q + 1) _ c]

theorem unhideLoop_setNc (p : Nat) : ∀ (fuel q : Nat) (s : DLState) (c : Nat),
    unhideLoop p fuel q (setNc s c) = Option.map (fun t => setNc t c) (unhideLoop p fuel q s)
  | 0, _, _, _ => rfl
  | fuel + 1, q, s, c => by
    simp only [unhideLoop]
    by_cases hq : q = p
    · simp [hq]
    · rw [if_neg hq, if_neg hq]
      show (if s.top q ≤ 0 then unhideLoop p fuel (s.dlink q) (setNc s c)
          else unhideLoop p fuel (q - 1)
            (setNc (((s.setDlink (s.ulink q) q).setUlink (s.dlink q) q).setLen
              (s.top q).toNat (s.len (s.top q).toNat + 1)) c)) = _
      by_cases hsp : s.top q ≤ 0
      · rw [if_pos hsp, if_pos hsp, unhideLoop_setNc p fuel (s.dlink q) s c]
      · rw [if_neg hsp, if_neg hsp, unhideLoop_setNc p fuel (q - 1) _ c]

theorem hide_setNc (fuel p : Nat) (s : DLState) (c : Nat) :
    hide fuel p (setNc s c) = Option.map (fun t => setNc t c) (hide fuel p s) :=
  hideLoop_setNc p fuel (p + 1) s c

theorem unhide_setNc (fuel p : Nat) (s : DLState) (c : Nat) :
    unhide fuel p (setNc s c) = Option.map (fun t => setNc t c) (unhide fuel p s) :=
  unhideLoop_setNc p fuel (p - 1) s c

theorem coverLoop_setNc (i : Nat) : ∀ (fuel q : Nat) (s : DLState) (c : Nat),
    coverLoop i fuel q (setNc s c) = Option.map (fun t => setNc t c) (coverLoop i fuel q s)
  | 0, _, _, _ => rfl
  | fuel + 1, q, s, c => by
    simp only [coverLoop]
    by_cases hq : q = i
    · simp [hq]
    · rw [if_neg hq, if_neg hq, hide_setNc]
      cases hide fuel q s with
      | none => rfl
      | some s1 => exact coverLoop_setNc i fuel (s1.dlink q) s1 c

theorem uncoverLoop_setNc (i : Nat) : ∀ (fuel q : Nat) (s : DLState) (c : Nat),
    uncoverLoop i fuel q (setNc s c) = Option.map (fun t => setNc t c) (uncoverLoop i fuel q s)
  | 0, _, _, _ => rfl
  | fuel + 1, q, s, c => by
    simp only [uncoverLoop]
    by_cases hq : q = i
    · simp [hq]
    · rw [if_neg hq, if_neg hq, unhide_setNc]
      cases unhide fuel q s with
      | none => rfl
      | some s1 => exact uncoverLoop_setNc i fuel (s1.ulink q) s1 c

theorem cover_setNc (fuel i : Nat) (s : DLState) (c : Nat) :
    cover fuel i (setNc s c) = Option.map (fun t => setNc t c) (cover fuel i s) := by
  unfold cover
  rw [dlink_setNc, coverLoop_setNc]
  cases coverLoop i fuel (s.dlink i) s with
  | none => rfl
  | some s1 => rfl

theorem uncover_setNc (fuel i : Nat) (s : DLState) (c : Nat) :
    uncover fuel i (setNc s c) = Option.map (fun t => setNc t c) (uncover fuel i s) := by
  exact uncoverLoop_setNc i fuel
    (((s.setRlink (s.llink i) i).setLlink (s.rlink i) i).ulink i)
    ((s.setRlink (s.llink i) i).setLlink (s.rlink i) i) c

theorem coverRowLoop_setNc (k : Nat) : ∀ (fuel p : Nat) (s : DLState) (c : Nat),
    coverRowLoop k fuel p (setNc s c) = Option.map (fun t => setNc t c) (coverRowLoop k fuel p s)
  | 0, _, _, _ => rfl
  | fuel + 1, p, s, c => by
    simp only [coverRowLoop]
    by_cases hp : p = k
    · simp [hp]
    · rw [if_neg hp, if_neg hp]
      show (if s.top p ≤ 0 then coverRowLoop k fuel (s.ulink p) (setNc s c) else _) = _
      by_cases hsp : s.top p ≤ 0
      · rw [if_pos hsp, if_pos hsp, coverRowLoop_setNc k fuel (s.ulink p) s c]
      · rw [if_neg hsp, if_neg hsp]
        show (do
          let s1 ← cover fuel (s.top p).toNat (setNc s c)
          coverRowLoop k fuel (p + 1) s1) = _
        rw [cover_setNc]
        cases cover fuel (s.top p).toNat s with
        | none => rfl
        | some s1 => exact coverRowLoop_setNc k fuel (p + 1) s1 c

theorem uncoverRowLoop_setNc (k : Nat) : ∀ (fuel p : Nat) (s : DLState) (c : Nat),
    uncoverRowLoop k fuel p (setNc s c) =
      Option.map (fun t => setNc t c) (uncoverRowLoop k fuel p s)
  | 0, _, _, _ => rfl
  | fuel + 1, p, s, c => by
    simp only [uncoverRowLoop]
    by_cases hp : p = k
    · simp [hp]
    · rw [if_neg hp, if_neg hp]
      show (if s.top p ≤ 0 then uncoverRowLoop k fuel (s.dlink p) (setNc s c) else _) = _
      by_cases hsp : s.top p ≤ 0
      · rw [if_pos hsp, if_pos hsp, uncoverRowLoop_setNc k fuel (s.dlink p) s c]
      · rw [if_neg hsp, if_neg hsp]
        show (do
          let s1 ← uncover fuel (s.top p).toNat (setNc s c)
          uncoverRowLoop k fuel (p - 1) s1) = _
        rw [uncover_setNc]
        cases uncover fuel (s.top p).toNat s with
        | none => rfl
        | some s1 => exact uncoverRowLoop_setNc k fuel (p - 1) s1 c

/-- Filtering a duplicate-free list whose predicate rejects exactly one
member is erasing that member. -/
theorem filter_eq_erase : ∀ (l : List Nat) (c : Nat) (p : Nat → Bool), l.Nodup → c ∈ l →
    (∀ a ∈ l, (p a = false ↔ a = c)) → l.filter p = l.erase c
  | [], c, p, _, hc, _ => absurd hc (List.not_mem_nil c)
  | a :: l', c, p, hnd, hc, hiff => by
    by_cases hac : a = c
    · subst hac
      have hpa : p a = false := (hiff a (List.mem_cons_self a l')).mpr rfl
      rw [List.erase_cons_head]
      have hrest : l'.filter p = l' := by
        rw [List.filter_eq_self]
        intro b hb
        have hba : b ≠ a := fun he => (List.nodup_cons.mp hnd).1 (he ▸ hb)
        rcases Bool.eq_false_or_eq_true (p b) with ht | hf
        · exact ht
        · exact absurd ((hiff b (List.mem_cons_of_mem a hb)).mp hf) hba
      simp [List.filter_cons, hpa, hrest]
    · have hpa : p a = true := by
        rcases Bool.eq_false_or_eq_true (p a) with ht | hf
        · exact ht
        · exact absurd ((hiff a (List.mem_cons_self a l')).mp hf) hac
      have hcl : c ∈ l' := by
        rcases List.mem_cons.mp hc with he | hm
        · exact absurd he.symm hac
        · exact hm
      rw [List.erase_cons_tail]
      · rw [List.filter_cons, if_pos (by simp [hpa]),
          filter_eq_erase l' c p (List.nodup_cons.mp hnd).2 hcl
            (fun b hb => hiff b (List.mem_cons_of_mem a hb))]
      · simp [hac]

/-- A duplicate-free list of numbers below `n` has at most `n` entries. -/
theorem nodup_length_le (l : List Nat) (n : Nat) (hnd : l.Nodup)
    (hlt : ∀ a ∈ l, a < n) : l.length ≤ n := by
  classical
  have hsub : l.toFinset ⊆ Finset.range n := by
    intro a ha
    rw [List.mem_toFinset] at ha
    rw [Finset.mem_range]
    exact hlt a ha
  have hcard := Finset.card_le_card hsub
  rw [Finset.card_range] at hcard
  rwa [List.toFinset_card_of_nodup hnd] at hcard

theorem hlinked_here (s : DLState) : ∀ (A : List Nat) (j : Nat),
    hlinked s j A = true → j < s.headers.length
  | [], j, h => by
    simp only [hlinked, Bool.and_eq_true, decide_eq_true_eq] at h
    exact h.2
  | a :: A', j, h => by
    simp only [hlinked, Bool.and_eq_true, decide_eq_true_eq] at h
    exact h.1.2

theorem hlinked_mem_lt (s : DLState) : ∀ (A : List Nat) (j : Nat),
    hlinked s j A = true → ∀ m ∈ A, m < s.headers.length
  | [], _, _, m, hm => absurd hm (List.not_mem_nil m)
  | a :: A', j, h, m, hm => by
    simp only [hlinked, Bool.and_eq_true, decide_eq_true_eq] at h
    rcases List.mem_cons.mp hm with rfl | hm'
    · exact hlinked_here s A' m h.2
    · exact hlinked_mem_lt s A' a h.2 m hm'

/-- Every member of the horizontal list has mutually consistent neighbor
links, and neither neighbor is the member itself. -/
theorem hlinked_edges (s : DLState) : ∀ (A : List Nat) (j : Nat),
    hlinked s j A = true → A.Nodup → j ∉ A → 0 ∉ A →
    ∀ x ∈ A, s.rlink (s.llink x) = x ∧ s.llink (s.rlink x) = x ∧
      s.llink x ≠ x ∧ s.rlink x ≠ x
  | [], _, _, _, _, _, x, hx => absurd hx (List.not_mem_nil x)
  | a :: A', j, h, hnd, hj, h0, x, hx => by
    simp only [hlinked, Bool.and_eq_true, decide_eq_true_eq] at h
    obtain ⟨⟨⟨h1, h2⟩, h3⟩, h4⟩ := h
    rcases List.mem_cons.mp hx with rfl | hx'
    · refine ⟨by rw [h2, h1], ?_, ?_, ?_⟩
      · match A', h4 with
        | [], h4 =>
          simp only [hlinked, Bool.and_eq_true, decide_eq_true_eq] at h4
          rw [h4.1.1, h4.1.2]
        | y :: A'', h4 =>
          simp only [hlinked, Bool.and_eq_true, decide_eq_true_eq] at h4
          rw [h4.1.1.1, h4.1.1.2]
      · rw [h2]
        intro he
        exact hj (he ▸ List.mem_cons_self x A')
      · match A', h4 with
        | [], h4 =>
          simp only [hlinked, Bool.and_eq_true, decide_eq_true_eq] at h4
          rw [h4.1.1]
          intro he
          exact h0 (he ▸ List.mem_cons_self x [])
        | y :: A'', h4 =>
          simp only [hlinked, Bool.and_eq_true, decide_eq_true_eq] at h4
          rw [h4.1.1.1]
          intro he
          exact (List.nodup_cons.mp hnd).1 (he ▸ List.mem_cons_self y A'')
    · exact hlinked_edges s A' a h4 (List.nodup_cons.mp hnd).2
        (List.nodup_cons.mp hnd).1 (fun hm => h0 (List.mem_cons_of_mem a hm)) x hx'

/-- In a horizontal list passing through `x`, `x`'s left neighbor is the
entry before it and its right neighbor the entry after it. -/
theorem hlinked_x_links (s : DLState) (x : Nat) (A₂ : List Nat) :
    ∀ (A₁ : List Nat) (j : Nat), hlinked s j (A₁ ++ x :: A₂) = true →
      s.llink x = A₁.getLastD j ∧ s.rlink x = A₂.headI
  | [], j, h => by
    simp only [List.nil_append, hlinked, Bool.and_eq_true, decide_eq_true_eq] at h
    refine ⟨by simpa [List.getLastD] using h.1.1.2, ?_⟩
    match A₂, h.2 with
    | [], h2 =>
      simp only [hlinked, Bool.and_eq_true, decide_eq_true_eq] at h2
      exact h2.1.1
    | y :: A₂', h2 =>
      simp only [hlinked, Bool.and_eq_true, decide_eq_true_eq] at h2
      exact h2.1.1.1
  | a :: A₁', j, h => by
    simp only [List.cons_append, hlinked, Bool.and_eq_true, decide_eq_true_eq] at h
    have := hlinked_x_links s x A₂ A₁' a h.2
    rw [List.getLastD_cons]
    exact this

/-- `hlinked` only reads the links of the root, the entry and the
members, so it transfers between states agreeing there. -/
theorem hlinked_transfer (s t : DLState) (hlen : t.headers.length = s.headers.length) :
    ∀ (A : List Nat) (j : Nat),
      (∀ m, m = j ∨ m ∈ A → t.rlink m = s.rlink m) →
      (∀ m, m = 0 ∨ m ∈ A → t.llink m = s.llink m) →
      hlinked t j A = hlinked s j A
  | [], j, hr, hl => by
    simp [hlinked, hr j (Or.inl rfl), hl 0 (Or.inl rfl), hlen]
  | a :: A', j, hr, hl => by
    simp only [hlinked]
    rw [hr j (Or.inl rfl), hl a (Or.inr (List.mem_cons_self a A')), hlen,
      hlinked_transfer s t hlen A' a
        (fun m hm => hr m (Or.inr (by
          rcases hm with rfl | hm'
          · exact List.mem_cons_self m A'
          · exact List.mem_cons_of_mem a hm')))
        (fun m hm => hl m (by
          rcases hm with rfl | hm'
          · exact Or.inl rfl
          · exact Or.inr (List.mem_cons_of_mem a hm')))]

/-- Splicing `x` out of the horizontal list (`rlink(llink x) = rlink x;
llink(rlink x) = llink x`) removes exactly `x` from the traversal. -/
theorem hlinked_splice (s : DLState) (x : Nat) (A₂ : List Nat)
    (h0len : 0 < s.headers.length) :
    ∀ (A₁ : List Nat) (j : Nat),
      hlinked s j (A₁ ++ x :: A₂) = true →
      (A₁ ++ x :: A₂).Nodup → j ∉ A₁ ++ x :: A₂ → 0 ∉ A₁ ++ x :: A₂ →
      hlinked ((s.setRlink (s.llink x) (s.rlink x)).setLlink (s.rlink x) (s.llink x)) j
        (A₁ ++ A₂) = true
  | [], j, h, hnd, hj, h0 => by
    simp only [List.nil_append, hlinked, Bool.and_eq_true, decide_eq_true_eq] at h
    obtain ⟨⟨⟨h1, h2⟩, h3⟩, h4⟩ := h
    have hrl' : ∀ m, ((s.setRlink (s.llink x) (s.rlink x)).setLlink (s.rlink x)
        (s.llink x)).rlink m =
        if s.llink x = m ∧ s.llink x < s.headers.length then s.rlink x else s.rlink m := by
      intro m
      rw [rlink_setLlink, rlink_setRlink]
    have hll' : ∀ m, ((s.setRlink (s.llink x) (s.rlink x)).setLlink (s.rlink x)
        (s.llink x)).llink m =
        if s.rlink x = m ∧ s.rlink x < s.headers.length then s.llink x else s.llink m := by
      intro m
      rw [llink_setLlink, llink_setRlink, setRlink_headers_length]
    have hhlen : ((s.setRlink (s.llink x) (s.rlink x)).setLlink (s.rlink x)
        (s.llink x)).headers.length = s.headers.length := by
      rw [setLlink_headers_length, setRlink_headers_length]
    match A₂, h4, hnd, hj, h0 with
    | [], h4, _, hj, h0 =>
      simp only [hlinked, Bool.and_eq_true, decide_eq_true_eq] at h4
      obtain ⟨⟨g1, g2⟩, g3⟩ := h4
      simp only [hlinked, Bool.and_eq_true, decide_eq_true_eq]
      refine ⟨⟨?_, ?_⟩, by rw [hhlen]; exact h3⟩
      · rw [hrl' j, if_pos ⟨h2, by rw [h2]; exact h3⟩, g1]
      · rw [hll' 0, if_pos ⟨g1, by rw [g1]; exact h0len⟩, h2]
    | y :: A₂', h4, hnd, hj, h0 =>
      simp only [hlinked, Bool.and_eq_true, decide_eq_true_eq] at h4
      obtain ⟨⟨⟨g1, g2⟩, g3⟩, g4⟩ := h4
      have hylen : y < s.headers.length := hlinked_here s A₂' y g4
      simp only [hlinked, Bool.and_eq_true, decide_eq_true_eq]
      refine ⟨⟨⟨?_, ?_⟩, by rw [hhlen]; exact h3⟩, ?_⟩
      · rw [hrl' j, if_pos ⟨h2, by rw [h2]; exact h3⟩, g1]
      · rw [hll' y, if_pos ⟨g1, by rw [g1]; exact hylen⟩, h2]
      · rw [hlinked_transfer s _ hhlen A₂' y ?_ ?_]
        · exact g4
        · intro m hm
          rw [hrl' m, if_neg]
          rintro ⟨he, -⟩
          rw [h2] at he
          subst he
          rcases hm with rfl | hm'
          · exact hj (by simp)
          · exact hj (by simp [hm'])
        · intro m hm
          rw [hll' m, if_neg]
          rintro ⟨he, -⟩
          rw [g1] at he
          subst he
          rcases hm with he0 | hm'
          · exact h0 (by simp [he0.symm])
          · simp only [List.nil_append, List.nodup_cons] at hnd
            exact hnd.2.1 hm'
  | a :: A₁', j, h, hnd, hj, h0 => by
    simp only [List.cons_append, hlinked, Bool.and_eq_true, decide_eq_true_eq] at h
    obtain ⟨⟨⟨h1, h2⟩, h3⟩, h4⟩ := h
    obtain ⟨hlx, hrx⟩ := hlinked_x_links s x A₂ A₁' a h4
    have hrl' : ∀ m, ((s.setRlink (s.llink x) (s.rlink x)).setLlink (s.rlink x)
        (s.llink x)).rlink m =
        if s.llink x = m ∧ s.llink x < s.headers.length then s.rlink x else s.rlink m := by
      intro m
      rw [rlink_setLlink, rlink_setRlink]
    have hll' : ∀ m, ((s.setRlink (s.llink x) (s.rlink x)).setLlink (s.rlink x)
        (s.llink x)).llink m =
        if s.rlink x = m ∧ s.rlink x < s.headers.length then s.llink x else s.llink m := by
      intro m
      rw [llink_setLlink, llink_setRlink, setRlink_headers_length]
    have hhlen : ((s.setRlink (s.llink x) (s.rlink x)).setLlink (s.rlink x)
        (s.llink x)).headers.length = s.headers.length := by
      rw [setLlink_headers_length, setRlink_headers_length]
    have hlxmem : s.llink x ∈ a :: A₁' := by
      rw [hlx]
      match A₁' with
      | [] => exact List.mem_cons_self a []
      | b :: A₁'' =>
        exact List.mem_cons_of_mem a (getLastD_mem (b :: A₁'') a (by simp))
    show hlinked _ j (a :: (A₁' ++ A₂)) = true
    simp only [hlinked, Bool.and_eq_true, decide_eq_true_eq]
    refine ⟨⟨⟨?_, ?_⟩, by rw [hhlen]; exact h3⟩, ?_⟩
    · rw [hrl' j, if_neg]
      · exact h1
      · rintro ⟨he, -⟩
        apply hj
        rw [← he]
        rcases List.mem_cons.mp hlxmem with hh | hh
        · exact hh ▸ List.mem_cons_self a (A₁' ++ x :: A₂)
        · exact List.mem_cons_of_mem a (List.mem_append_left _ hh)
    · rw [hll' a, if_neg]
      · exact h2
      · rintro ⟨he, -⟩
        rw [hrx] at he
        simp only [List.cons_append, List.nodup_cons] at hnd
        match A₂, he with
        | [], he =>
          have ha : a = 0 := by
            have h00 : (0 : Nat) = a := he
            omega
          exact absurd (by simp [ha]) h0
        | y :: A₂', he =>
          simp only [List.headI] at he
          subst he
          exact hnd.1 (List.mem_append_right _ (by simp))
    · rw [List.cons_append] at hnd h0
      exact hlinked_splice s x A₂ h0len A₁' a h4 (List.nodup_cons.mp hnd).2
        (List.nodup_cons.mp hnd).1 (fun hm => h0 (List.mem_cons_of_mem a hm))

theorem activeList_nodup (n : Nat) (K : List Nat) : (activeList n K).Nodup := by
  unfold activeList
  apply List.Nodup.filter
  rw [List.range'_eq_map_range]
  exact (List.nodup_range n).map (fun a b => by omega)

theorem mem_activeList (n : Nat) (K : List Nat) (x : Nat) :
    x ∈ activeList n K ↔ 1 ≤ x ∧ x ≤ n ∧ x ∉ K := by
  unfold activeList
  rw [List.mem_filter, List.mem_range'_1]
  simp only [decide_eq_true_eq]
  exact ⟨fun ⟨⟨h1, h2⟩, h3⟩ => ⟨h1, by omega, h3⟩, fun ⟨h1, h2, h3⟩ => ⟨⟨h1, by omega⟩, h3⟩⟩

theorem activeList_cons (n x : Nat) (K : List Nat) :
    activeList n (x :: K) = (activeList n K).filter (fun z => decide (z ≠ x)) := by
  unfold activeList
  rw [List.filter_filter]
  apply List.filter_congr
  intro a _
  by_cases h1 : a = x
  · subst h1
    simp
  · by_cases h2 : a ∈ K
    · simp [h1, h2]
    · simp [h1, h2]

theorem filter_ne_split (A₁ A₂ : List Nat) (x : Nat) (h1 : x ∉ A₁) (h2 : x ∉ A₂) :
    (A₁ ++ x :: A₂).filter (fun z => decide (z ≠ x)) = A₁ ++ A₂ := by
  have e1 : A₁.filter (fun z => decide (z ≠ x)) = A₁ :=
    List.filter_eq_self.mpr (fun a ha => by
      simp only [decide_eq_true_eq]
      exact fun he => h1 (he ▸ ha))
  have e2 : A₂.filter (fun z => decide (z ≠ x)) = A₂ :=
    List.filter_eq_self.mpr (fun a ha => by
      simp only [decide_eq_true_eq]
      exact fun he => h2 (he ▸ ha))
  rw [List.filter_append, List.filter_cons]
  have hx : decide (x ≠ x) = false := by simp
  rw [hx]
  simp only [Bool.false_eq_true, if_false]
  rw [e1, e2]

theorem hlinked_hchain (s : DLState) : ∀ (A : List Nat) (j : Nat),
    hlinked s j A = true → 0 ∉ A → hchain s (s.rlink j) A = true
  | [], j, h, _ => by
    simp only [hlinked, Bool.and_eq_true, decide_eq_true_eq] at h
    simp [hchain, h.1.1]
  | a :: A', j, h, h0 => by
    simp only [hlinked, Bool.and_eq_true, decide_eq_true_eq] at h
    simp only [hchain, Bool.and_eq_true, decide_eq_true_eq]
    refine ⟨⟨h.1.1.1, fun he => h0 (by simp [he])⟩, ?_⟩
    exact hlinked_hchain s A' a h.2 (fun hm => h0 (List.mem_cons_of_mem a hm))

theorem hlinked_rlink0_iff (s : DLState) (A : List Nat) (h : hlinked s 0 A = true)
    (h0 : 0 ∉ A) : s.rlink 0 = 0 ↔ A = [] := by
  cases A with
  | nil =>
    simp only [hlinked, Bool.and_eq_true, decide_eq_true_eq] at h
    exact ⟨fun _ => rfl, fun _ => h.1.1⟩
  | cons a A' =>
    simp only [hlinked, Bool.and_eq_true, decide_eq_true_eq] at h
    constructor
    · intro hr
      rw [h.1.1.1] at hr
      exact absurd (by simp [hr] : (0 : Nat) ∈ a :: A') h0
    · intro he
      exact absurd he (by simp)

theorem chooseAcc_mem (s : DLState) : ∀ (l : List Nat) (best : Nat) (bestlen : Int),
    chooseAcc s best bestlen l = best ∨ chooseAcc s best bestlen l ∈ l
  | [], _, _ => Or.inl rfl
  | a :: l', best, bestlen => by
    simp only [chooseAcc]
    by_cases hlt : s.len a < bestlen
    · rw [if_pos hlt]
      rcases chooseAcc_mem s l' a (s.len a) with h | h
      · exact Or.inr (by rw [h]; exact List.mem_cons_self a l')
      · exact Or.inr (List.mem_cons_of_mem a h)
    · rw [if_neg hlt]
      rcases chooseAcc_mem s l' best bestlen with h | h
      · exact Or.inl h
      · exact Or.inr (List.mem_cons_of_mem a h)

theorem Kwf_length (n : Nat) (K : List Nat) (h : Kwf n K) : K.length ≤ n := by
  classical
  have hsub : K.toFinset ⊆ Finset.Icc 1 n := by
    intro a ha
    rw [List.mem_toFinset] at ha
    rw [Finset.mem_Icc]
    exact h.2 a ha
  have hc := Finset.card_le_card hsub
  rw [Nat.card_Icc, List.toFinset_card_of_nodup h.1] at hc
  omega

theorem activeList_eq_nil (n : Nat) (K : List Nat) (h : activeList n K = []) :
    ∀ y, 1 ≤ y → y ≤ n → y ∈ K := by
  intro y h1 h2
  by_contra hy
  have hm : y ∈ activeList n K := (mem_activeList n K y).mpr ⟨h1, h2, hy⟩
  rw [h] at hm
  exact absurd hm (List.not_mem_nil y)

/-- Splicing out a cell of a different column leaves a column's live chain
untouched. -/
theorem ColC_frame_spliceOut (s : DLState) (y : Nat) (L : List Nat) (hcol : ColC s y L)
    (c : Nat) (hc : cellOK s c) (hne : (s.top c).toNat ≠ y) :
    ColC (spliceOut s c) y L := by
  obtain ⟨hy1, hy2, hy3, hch, hdu, hud, hnd, htops, hOKs⟩ := hcol
  have hytag : (y = y ∧ y ≤ s.nitems) ∨ (s.nitems < y ∧ s.top y = (y : Int)) :=
    Or.inl ⟨rfl, hy2⟩
  have hyfr0 := ytag_not_target s c hc.1 y y hytag (Ne.symm hne)
  obtain ⟨hf1, hf2, hf3⟩ := spliceOut_frame s c y hyfr0.1 hyfr0.2.1 hyfr0.2.2
  have hmfr : ∀ m ∈ L, (spliceOut s c).top m = s.top m ∧
      (spliceOut s c).ulink m = s.ulink m ∧ (spliceOut s c).dlink m = s.dlink m := by
    intro m hm
    have hmtag : (m = y ∧ y ≤ s.nitems) ∨ (s.nitems < m ∧ s.top m = (y : Int)) :=
      Or.inr ⟨(hOKs m hm).1.1, htops m hm⟩
    have h := ytag_not_target s c hc.1 y m hmtag (Ne.symm hne)
    exact spliceOut_frame s c m h.1 h.2.1 h.2.2
  have hUtag : (s.ulink y = y ∧ y ≤ s.nitems) ∨
      (s.nitems < s.ulink y ∧ s.top (s.ulink y) = (y : Int)) := by
    match L, hch, hnd, htops, hOKs with
    | [], hch, _, _, _ =>
      have hdy : s.dlink y = y := by simpa [vchain] using hch
      rw [hdy] at hud
      exact Or.inl ⟨hud, hy2⟩
    | l0 :: L0, hch, hnd, htops, hOKs =>
      have hlast := vchain_getLast s y (l0 :: L0) (s.dlink y) hch (by simp) l0
      have hlmem := getLastD_mem (l0 :: L0) l0 (by simp)
      have hlOK := hOKs _ hlmem
      have huy : s.ulink y = (l0 :: L0).getLastD l0 := by
        have h2 := hlOK.2.2
        rw [hlast] at h2
        exact h2
      rw [huy]
      exact Or.inr ⟨hlOK.1.1, htops _ hlmem⟩
  have hDtag : (s.dlink y = y ∧ y ≤ s.nitems) ∨
      (s.nitems < s.dlink y ∧ s.top (s.dlink y) = (y : Int)) := by
    match L, hch, htops, hOKs with
    | [], hch, _, _ =>
      have hdy : s.dlink y = y := by simpa [vchain] using hch
      exact Or.inl ⟨hdy, hy2⟩
    | l0 :: L0, hch, htops, hOKs =>
      have hdy : s.dlink y = l0 := (vchain_head s y L0 (s.dlink y) l0 hch).1
      rw [hdy]
      exact Or.inr ⟨(hOKs l0 (List.mem_cons_self l0 L0)).1.1,
        htops l0 (List.mem_cons_self l0 L0)⟩
  have hUfr0 := ytag_not_target s c hc.1 y (s.ulink y) hUtag (Ne.symm hne)
  obtain ⟨-, -, hUfr⟩ := spliceOut_frame s c (s.ulink y) hUfr0.1 hUfr0.2.1 hUfr0.2.2
  have hDfr0 := ytag_not_target s c hc.1 y (s.dlink y) hDtag (Ne.symm hne)
  obtain ⟨-, hDfr, -⟩ := spliceOut_frame s c (s.dlink y) hDfr0.1 hDfr0.2.1 hDfr0.2.2
  refine ⟨hy1, by rw [nitems_spliceOut]; exact hy2,
    by rw [nodes_length_spliceOut]; exact hy3, ?_, ?_, ?_, hnd, ?_, ?_⟩
  · rw [hf3, vchain_transfer s (spliceOut s c) y L (s.dlink y) (fun p hp => (hmfr p hp).2.2)]
    exact hch
  · rw [hf2, hUfr]
    exact hdu
  · rw [hf3, hDfr]
    exact hud
  · intro m hm
    rw [(hmfr m hm).1]
    exact htops m hm
  · intro m hm
    have hmc : m ≠ c := by
      intro he
      apply hne
      rw [← he, htops m hm]
      omega
    exact cellOK_spliceOut s c m hc (hOKs m hm) hmc

/-- Walking a column chain from any tagged node `u`, splicing out a chain
member erases exactly it, leaving `u`'s downward pointer consistent. -/
theorem colEraseAux (s : DLState) (y : Nat) (hy2 : y ≤ s.nitems) (c : Nat) :
    ∀ (L : List Nat) (u : Nat),
    ((u = y ∧ y ≤ s.nitems) ∨ (s.nitems < u ∧ s.top u = (y : Int))) →
    s.ulink (s.dlink u) = u →
    vchain s y (s.dlink u) L = true →
    (∀ l ∈ L, cellOK s l) → (∀ l ∈ L, s.top l = (y : Int)) → L.Nodup → u ∉ L → c ∈ L →
    vchain (spliceOut s c) y ((spliceOut s c).dlink u) (L.erase c) = true ∧
    (spliceOut s c).ulink ((spliceOut s c).dlink u) = u
  | [], u, _, _, _, _, _, _, _ => fun hc => absurd hc (List.not_mem_nil c)
  | l :: L', u, hutag, hpb, hch, hOKs, htops, hnd, hu => fun hc => by
    obtain ⟨hhead, hch'⟩ := vchain_head s y L' (s.dlink u) l hch
    have hlOK := hOKs l (List.mem_cons_self l L')
    obtain ⟨⟨hl1, hl2, hl3, hl4, hl5, ⟨hlub, hlu⟩, ⟨hldb, hld⟩⟩, hldu, hlud⟩ := hlOK
    have hulll : s.ulink l = u := by
      rw [← hhead]
      exact hpb
    by_cases hcl : c = l
    · subst hcl
      rw [List.erase_cons_head]
      have hdu1 : (spliceOut s c).dlink u = s.dlink c := by
        rw [dlink_spliceOut, if_pos ⟨hulll, hlub⟩]
      have hmdl : ∀ m ∈ L', (spliceOut s c).dlink m = s.dlink m := by
        intro m hm
        rw [dlink_spliceOut, if_neg]
        rintro ⟨he, -⟩
        rw [hulll] at he
        subst he
        exact hu (List.mem_cons_of_mem c hm)
      constructor
      · rw [hdu1, vchain_transfer s (spliceOut s c) y L' (s.dlink c) hmdl]
        exact hch'
      · rw [hdu1, ulink_spliceOut, if_pos ⟨rfl, hldb⟩, hulll]
    · have hcL' : c ∈ L' := (List.mem_cons.mp hc).resolve_left hcl
      have hcOK := hOKs c (List.mem_cons_of_mem l hcL')
      obtain ⟨⟨hc1, hc2, hc3, hc4, hc5, ⟨hcub, hcu⟩, ⟨hcdb, hcd⟩⟩, hcdu, hcud⟩ := hcOK
      have ih := colEraseAux s y hy2 c L' l
        (Or.inr ⟨hl1, htops l (List.mem_cons_self l L')⟩) hlud hch'
        (fun m hm => hOKs m (List.mem_cons_of_mem l hm))
        (fun m hm => htops m (List.mem_cons_of_mem l hm))
        (List.nodup_cons.mp hnd).2 (List.nodup_cons.mp hnd).1 hcL'
      have hdu1 : (spliceOut s c).dlink u = l := by
        rw [dlink_spliceOut, if_neg]
        · exact hhead
        · rintro ⟨he, -⟩
          rw [he] at hcdu
          rw [hhead] at hcdu
          exact hcl hcdu.symm
      have hlu1 : (spliceOut s c).ulink l = u := by
        rw [ulink_spliceOut, if_neg]
        · exact hulll
        · rintro ⟨he, -⟩
          rw [he] at hcud
          rw [hulll] at hcud
          subst hcud
          exact hu hc
      rw [List.erase_cons_tail]
      · constructor
        · simp only [vchain, Bool.and_eq_true, decide_eq_true_eq]
          exact ⟨hdu1, ih.1⟩
        · rw [hdu1, hlu1]
      · simp only [beq_iff_eq]
        exact fun h => hcl h.symm

/-- Splicing out one member of a column's live chain erases exactly that
member and keeps the column consistent: the dancing-links deletion. -/
theorem ColC_erase (s : DLState) (y : Nat) (L : List Nat) (hcol : ColC s y L)
    (c : Nat) (hc : c ∈ L) : ColC (spliceOut s c) y (L.erase c) := by
  obtain ⟨hy1, hy2, hy3, hch, hdu, hud, hnd, htops, hOKs⟩ := hcol
  have hcOK := hOKs c hc
  obtain ⟨⟨hc1, hc2, hc3, hc4, hc5, ⟨hcub, hcu⟩, ⟨hcdb, hcd⟩⟩, hcdu, hcud⟩ := hOKs c hc
  have haux := colEraseAux s y hy2 c L y (Or.inl ⟨rfl, hy2⟩) hud hch hOKs htops hnd
    (by
      intro hm
      have := (hOKs y hm).1.1
      omega) hc
  have htopc : (s.top c).toNat ≤ s.nitems := by omega
  refine ⟨hy1, by rw [nitems_spliceOut]; exact hy2,
    by rw [nodes_length_spliceOut]; exact hy3, haux.1, ?_, haux.2, hnd.erase c, ?_, ?_⟩
  · rw [ulink_spliceOut]
    by_cases hcy : s.dlink c = y
    · rw [if_pos ⟨hcy, hcdb⟩, dlink_spliceOut, if_pos ⟨rfl, hcub⟩, hcy]
    · rw [if_neg (fun hco => hcy hco.1), dlink_spliceOut]
      by_cases he : s.ulink c = s.ulink y
      · exfalso
        rw [he, hdu] at hcdu
        omega
      · rw [if_neg (fun hco => he hco.1)]
        exact hdu
  · intro m hm
    obtain ⟨hmne, hmL⟩ := (List.Nodup.mem_erase_iff hnd).mp hm
    rw [top_spliceOut_cell s c htopc m (hOKs m hmL).1.1]
    exact htops m hmL
  · intro m hm
    obtain ⟨hmne, hmL⟩ := (List.Nodup.mem_erase_iff hnd).mp hm
    exact cellOK_spliceOut s c m hcOK (hOKs m hmL) hmne

/-- A run of splices of foreign-column cells leaves a column's chain
untouched. -/
theorem ColC_spliceFold_of_ne : ∀ (C : List Nat) (s : DLState) (y : Nat) (L : List Nat),
    ColC s y L → (∀ c' ∈ C, cellOK s c') → C.Nodup →
    (∀ c' ∈ C, (s.top c').toNat ≠ y) →
    ColC (spliceFold s C) y L
  | [], _, _, _, hcol, _, _, _ => hcol
  | c0 :: C', s, y, L, hcol, hOKC, hndC, hneC => by
    have hc0 : cellOK s c0 := hOKC c0 (List.mem_cons_self c0 C')
    have htopc0 : (s.top c0).toNat ≤ s.nitems := by
      have h1 := hc0.1.2.2.1
      have h2 := hc0.1.2.2.2.1
      omega
    have h1 : ColC (spliceOut s c0) y L :=
      ColC_frame_spliceOut s y L hcol c0 hc0 (hneC c0 (List.mem_cons_self c0 C'))
    have hfold : spliceFold s (c0 :: C') = spliceFold (spliceOut s c0) C' := rfl
    rw [hfold]
    refine ColC_spliceFold_of_ne C' (spliceOut s c0) y L h1 ?_ (List.nodup_cons.mp hndC).2 ?_
    · intro c' hm
      exact cellOK_spliceOut s c0 c' hc0 (hOKC c' (List.mem_cons_of_mem c0 hm))
        (fun he => (List.nodup_cons.mp hndC).1 (he ▸ hm))
    · intro c' hm
      rw [top_spliceOut_cell s c0 htopc0 c' (hOKC c' (List.mem_cons_of_mem c0 hm)).1.1]
      exact hneC c' (List.mem_cons_of_mem c0 hm)

/-- Hiding a row that meets column `y` in exactly the cell `c` erases `c`
from `y`'s chain: frame splices before `c`, the erase at `c`, frame
splices after. -/
theorem ColC_spliceFold_erase (s : DLState) (y : Nat) (L : List Nat) (hcol : ColC s y L)
    (C₁ C₂ : List Nat) (c : Nat)
    (hOKC : ∀ c' ∈ C₁ ++ c :: C₂, cellOK s c') (hndC : (C₁ ++ c :: C₂).Nodup)
    (hne1 : ∀ c' ∈ C₁, (s.top c').toNat ≠ y) (hne2 : ∀ c' ∈ C₂, (s.top c').toNat ≠ y)
    (hcL : c ∈ L) :
    ColC (spliceFold s (C₁ ++ c :: C₂)) y (L.erase c) := by
  rw [List.nodup_append] at hndC
  obtain ⟨hnd1, hndcc, hdisj⟩ := hndC
  have hOK1 : ∀ c' ∈ C₁, cellOK s c' := fun c' hm => hOKC c' (List.mem_append_left _ hm)
  obtain ⟨f1, f2, f3, f4, f5, f6, f7, f8⟩ := spliceFold_facts C₁ s hOK1 hnd1
  have h1 : ColC (spliceFold s C₁) y L := ColC_spliceFold_of_ne C₁ s y L hcol hOK1 hnd1 hne1
  have hcmem : c ∈ C₁ ++ c :: C₂ :=
    List.mem_append_right _ (List.mem_cons_self c C₂)
  have hcnot1 : c ∉ C₁ := fun hm => hdisj hm (List.mem_cons_self c C₂)
  have hcOKt : cellOK (spliceFold s C₁) c := f8 c (hOKC c hcmem) hcnot1
  have hcOKs := hOKC c hcmem
  have h2 : ColC (spliceOut (spliceFold s C₁) c) y (L.erase c) :=
    ColC_erase (spliceFold s C₁) y L h1 c hcL
  have hsplit : spliceFold s (C₁ ++ c :: C₂) = spliceFold (spliceOut (spliceFold s C₁) c) C₂ := by
    unfold spliceFold
    rw [List.foldl_append]
    rfl
  rw [hsplit]
  have hnit : (spliceFold s C₁).nitems = s.nitems := by
    unfold DLState.nitems
    rw [f1]
  have htc : (spliceFold s C₁).top c = s.top c := f5 c hcOKs.1.1
  have htople : ((spliceFold s C₁).top c).toNat ≤ (spliceFold s C₁).nitems := by
    have h3 := hcOKs.1.2.2.1
    have h4 := hcOKs.1.2.2.2.1
    rw [htc, hnit]
    omega
  refine ColC_spliceFold_of_ne C₂ (spliceOut (spliceFold s C₁) c) y (L.erase c) h2 ?_
    (List.nodup_cons.mp hndcc).2 ?_
  · intro c' hm
    have hm2 : c' ∈ C₁ ++ c :: C₂ :=
      List.mem_append_right _ (List.mem_cons_of_mem c hm)
    have hnot1 : c' ∉ C₁ := fun hm' => hdisj hm' (List.mem_cons_of_mem c hm)
    have hOKt : cellOK (spliceFold s C₁) c' := f8 c' (hOKC c' hm2) hnot1
    exact cellOK_spliceOut (spliceFold s C₁) c c' hcOKt hOKt
      (fun he => (List.nodup_cons.mp hndcc).1 (he ▸ hm))
  · intro c' hm
    have hm2 : c' ∈ C₁ ++ c :: C₂ :=
      List.mem_append_right _ (List.mem_cons_of_mem c hm)
    have hgt : s.nitems < c' := (hOKC c' hm2).1.1
    rw [top_spliceOut_cell (spliceFold s C₁) c htople c' (by rw [hnit]; exact hgt),
      f5 c' hgt]
    exact hne2 c' hm

theorem mem_wrapCells (a b p c : Nat) (ha : 1 ≤ a) (hap : a ≤ p) (hpb : p ≤ b) :
    c ∈ wrapCells a b p ↔ a ≤ c ∧ c ≤ b ∧ c ≠ p := by
  unfold wrapCells
  rw [List.mem_append, mem_rowCells, mem_rowCells]
  omega

/-- Hiding one row (pivot cell `p` excluded, its column foreign to `y`)
restricts column `y`'s chain to the members outside the row. -/
theorem ColC_hideRow (s : DLState) (y : Nat) (L : List Nat) (hcol : ColC s y L)
    (a b p : Nat) (hrow : rowOK s a b) (hap : a ≤ p) (hpb : p ≤ b)
    (hpy : (s.top p).toNat ≠ y)
    (hmemL : ∀ c, a ≤ c → c ≤ b → s.top c = (y : Int) → c ∈ L) :
    ColC (spliceFold s (wrapCells a b p)) y
      (L.filter (fun c' => !(decide (a ≤ c') && decide (c' ≤ b)))) := by
  obtain ⟨hna, hab, hbl, htb, hub, hta, hdb, hcells, hndtop⟩ := hrow
  have ha1 : 1 ≤ a := by omega
  have hwsub := wrapCells_sub a b p ha1 hap hpb
  have hwOK : ∀ c ∈ wrapCells a b p, cellOK s c := fun c hm => hcells c (hwsub c hm).1
  have hwnd : (wrapCells a b p).Nodup := wrapCells_nodup a b p
  have hinj := List.inj_on_of_nodup_map hndtop
  have htopsL : ∀ c ∈ L, s.top c = (y : Int) := hcol.2.2.2.2.2.2.2.1
  by_cases hex : ∃ c, c ∈ rowCells a b ∧ s.top c = (y : Int)
  · obtain ⟨c, hcr, hcy⟩ := hex
    have hcp : c ≠ p := by
      intro he
      apply hpy
      rw [← he, hcy]
      omega
    have hcw : c ∈ wrapCells a b p := by
      rw [mem_wrapCells a b p c ha1 hap hpb]
      rw [mem_rowCells] at hcr
      exact ⟨hcr.1, hcr.2, hcp⟩
    obtain ⟨C₁, C₂, hsplit⟩ := List.append_of_mem hcw
    have hndw : (C₁ ++ c :: C₂).Nodup := hsplit ▸ hwnd
    rw [List.nodup_append] at hndw
    have hne : ∀ c' ∈ wrapCells a b p, c' ≠ c → (s.top c').toNat ≠ y := by
      intro c' hm hne he
      have hOKc' := hwOK c' hm
      have h1 : 1 ≤ s.top c' := hOKc'.1.2.2.1
      have htc' : s.top c' = (y : Int) := by omega
      exact hne (hinj (hwsub c' hm).1 hcr (htc'.trans hcy.symm))
    have hfe : L.filter (fun c' => !(decide (a ≤ c') && decide (c' ≤ b))) = L.erase c := by
      apply filter_eq_erase L c _ hcol.2.2.2.2.2.2.1
        (hmemL c (by rw [mem_rowCells] at hcr; omega) (by rw [mem_rowCells] at hcr; omega) hcy)
      intro m hm
      constructor
      · intro hf
        have hmab : a ≤ m ∧ m ≤ b := by simpa using hf
        exact hinj ((mem_rowCells a b m).mpr hmab) hcr ((htopsL m hm).trans hcy.symm)
      · intro he
        subst he
        rw [mem_rowCells] at hcr
        simp [hcr.1, hcr.2]
    rw [hfe, hsplit]
    refine ColC_spliceFold_erase s y L hcol C₁ C₂ c (hsplit ▸ hwOK) (hsplit ▸ hwnd) ?_ ?_
      (hmemL c (by rw [mem_rowCells] at hcr; omega) (by rw [mem_rowCells] at hcr; omega) hcy)
    · intro c' hm
      refine hne c' (hsplit ▸ List.mem_append_left _ hm) ?_
      intro he
      subst he
      exact hndw.2.2 hm (List.mem_cons_self c' C₂)
    · intro c' hm
      refine hne c' (hsplit ▸ List.mem_append_right _ (List.mem_cons_of_mem c hm)) ?_
      intro he
      subst he
      exact (List.nodup_cons.mp hndw.2.1).1 hm
  · have hfe : L.filter (fun c' => !(decide (a ≤ c') && decide (c' ≤ b))) = L := by
      apply List.filter_eq_self.mpr
      intro m hm
      have hnab : ¬(a ≤ m ∧ m ≤ b) := by
        intro hmab
        exact hex ⟨m, (mem_rowCells a b m).mpr hmab, htopsL m hm⟩
      by_cases h1 : a ≤ m
      · by_cases h2 : m ≤ b
        · exact absurd ⟨h1, h2⟩ hnab
        · simp [h1, h2]
      · simp [h1]
    rw [hfe]
    refine ColC_spliceFold_of_ne (wrapCells a b p) s y L hcol hwOK hwnd ?_
    intro c' hm he
    have hOKc' := hwOK c' hm
    have h1 : 1 ≤ s.top c' := hOKc'.1.2.2.1
    have htc' : s.top c' = (y : Int) := by omega
    exact hex ⟨c', (hwsub c' hm).1, htc'⟩

/-- Master facts about `coverFold`: sizes, non-header tops and spacers are
stable, cells outside the hidden rows stay linked, and every foreign
column's chain is exactly filtered down to the cells outside the hidden
rows. -/
theorem coverFoldCols (x : Nat) (rA rB : Nat → Nat) :
    ∀ (P : List Nat) (s : DLState),
    (∀ p ∈ P, s.top p = (x : Int)) →
    (∀ p ∈ P, rA p ≤ p ∧ p ≤ rB p ∧ rowOK s (rA p) (rB p)) →
    P.Pairwise (fun p p' => rB p < rA p' ∨ rB p' < rA p) →
    x ≤ s.nitems →
    (coverFold rA rB s P).nodes.length = s.nodes.length ∧
    (∀ r, s.nitems < r → (coverFold rA rB s P).top r = s.top r) ∧
    (∀ r, s.nitems < r → s.top r ≤ 0 →
      (coverFold rA rB s P).ulink r = s.ulink r ∧
        (coverFold rA rB s P).dlink r = s.dlink r) ∧
    (∀ c', cellOK s c' → (∀ p ∈ P, ¬(rA p ≤ c' ∧ c' ≤ rB p)) →
      cellOK (coverFold rA rB s P) c') ∧
    (∀ (y : Nat) (L : List Nat), y ≠ x → ColC s y L →
      (∀ p ∈ P, ∀ c, rA p ≤ c → c ≤ rB p → s.top c = (y : Int) → c ∈ L) →
      ColC (coverFold rA rB s P) y (L.filter (fun c' => !(hiddenBy rA rB P c'))))
  | [], s, _, _, _, _ => by
    refine ⟨rfl, fun r _ => rfl, fun r _ _ => ⟨rfl, rfl⟩, fun c' hc' _ => hc', ?_⟩
    intro y L _ hcol _
    have hfe : L.filter (fun c' => !(hiddenBy rA rB [] c')) = L :=
      List.filter_eq_self.mpr (fun a _ => by simp [hiddenBy])
    rw [hfe]
    exact hcol
  | p :: P', s, htops, hrows, hdisj, hx => by
    obtain ⟨hap, hpb, hrowp⟩ := hrows p (List.mem_cons_self p P')
    have htopp : s.top p = (x : Int) := htops p (List.mem_cons_self p P')
    obtain ⟨hhide, hunhide, g1, g2, g3, g4, g5, g6, g7, g8⟩ :=
      hideRow_step s x (rA p) (rB p) p hrowp hap hpb htopp hx
    set t1 := spliceFold s (wrapCells (rA p) (rB p) p) with ht1def
    have hcf : coverFold rA rB s (p :: P') = coverFold rA rB t1 P' := rfl
    have hpOK : cellOK s p :=
      hrowp.2.2.2.2.2.2.2.1 p ((mem_rowCells (rA p) (rB p) p).mpr ⟨hap, hpb⟩)
    have hpni : s.nitems < p := hpOK.1.1
    have hni1 : t1.nitems = s.nitems := by
      unfold DLState.nitems
      rw [g1]
    have hna : s.nitems + 1 < rA p := hrowp.1
    have ha1 : 1 ≤ rA p := by omega
    have hitag : ∀ p' ∈ P', p' = x ∨ (s.nitems < p' ∧ s.top p' = (x : Int)) := by
      intro p' hm
      obtain ⟨hap', hpb', hrowp'⟩ := hrows p' (List.mem_cons_of_mem p hm)
      have hpOK' : cellOK s p' :=
        hrowp'.2.2.2.2.2.2.2.1 p' ((mem_rowCells _ _ p').mpr ⟨hap', hpb'⟩)
      exact Or.inr ⟨hpOK'.1.1, htops p' (List.mem_cons_of_mem p hm)⟩
    have htops1 : ∀ p' ∈ P', t1.top p' = (x : Int) := by
      intro p' hm
      rw [(g7 p' (hitag p' hm)).1]
      exact htops p' (List.mem_cons_of_mem p hm)
    have hdisjp : ∀ p' ∈ P', rB p < rA p' ∨ rB p' < rA p := by
      intro p' hm
      exact (List.pairwise_cons.mp hdisj).1 p' hm
    have hrows1 : ∀ p' ∈ P', rA p' ≤ p' ∧ p' ≤ rB p' ∧ rowOK t1 (rA p') (rB p') := by
      intro p' hm
      obtain ⟨hap', hpb', hrowp'⟩ := hrows p' (List.mem_cons_of_mem p hm)
      refine ⟨hap', hpb', rowOK_transfer s t1 (rA p') (rB p') hrowp' hni1 g2 g5 g6 ?_⟩
      intro c hmc
      rw [mem_rowCells] at hmc
      refine g8 c (hrowp'.2.2.2.2.2.2.2.1 c ((mem_rowCells _ _ c).mpr hmc)) ?_
      intro hw
      obtain ⟨hcr, -⟩ := wrapCells_sub (rA p) (rB p) p ha1 hap hpb c hw
      rw [mem_rowCells] at hcr
      rcases hdisjp p' hm with hd | hd <;> omega
    have hdisj1 : P'.Pairwise (fun q q' => rB q < rA q' ∨ rB q' < rA q) :=
      (List.pairwise_cons.mp hdisj).2
    have hx1 : x ≤ t1.nitems := by omega
    obtain ⟨ih1, ih2, ih3, ih4, ih5⟩ := coverFoldCols x rA rB P' t1 htops1 hrows1 hdisj1 hx1
    refine ⟨?_, ?_, ?_, ?_, ?_⟩
    · rw [hcf, ih1, g2]
    · intro r hr
      rw [hcf, ih2 r (by omega), g5 r hr]
    · intro r hr hsp
      have hsp1 : t1.top r ≤ 0 := by
        rw [g5 r hr]
        exact hsp
      obtain ⟨k1, k2⟩ := ih3 r (by omega) hsp1
      obtain ⟨m1, m2⟩ := g6 r hr hsp
      rw [hcf]
      exact ⟨by rw [k1, m1], by rw [k2, m2]⟩
    · intro c' hc' hout
      have houtp : ¬(rA p ≤ c' ∧ c' ≤ rB p) := hout p (List.mem_cons_self p P')
      have hcw : c' ∉ wrapCells (rA p) (rB p) p := by
        intro hw
        obtain ⟨hcr, -⟩ := wrapCells_sub (rA p) (rB p) p ha1 hap hpb c' hw
        rw [mem_rowCells] at hcr
        exact houtp hcr
      rw [hcf]
      exact ih4 c' (g8 c' hc' hcw) (fun q hm => hout q (List.mem_cons_of_mem p hm))
    · intro y L hyx hcol hmem
      have hpy : (s.top p).toNat ≠ y := by
        rw [htopp]
        simpa using Ne.symm hyx
      have hcol1 : ColC t1 y
          (L.filter (fun c' => !(decide (rA p ≤ c') && decide (c' ≤ rB p)))) :=
        ColC_hideRow s y L hcol (rA p) (rB p) p hrowp hap hpb hpy
          (hmem p (List.mem_cons_self p P'))
      have hmem1 : ∀ p' ∈ P', ∀ c, rA p' ≤ c → c ≤ rB p' → t1.top c = (y : Int) →
          c ∈ L.filter (fun c' => !(decide (rA p ≤ c') && decide (c' ≤ rB p))) := by
        intro p' hm c hc1 hc2 htc
        have hna' : s.nitems + 1 < rA p' := (hrows p' (List.mem_cons_of_mem p hm)).2.2.1
        have hcgt : s.nitems < c := by omega
        have htcs : s.top c = (y : Int) := by
          rw [← g5 c hcgt]
          exact htc
        have hcL : c ∈ L := hmem p' (List.mem_cons_of_mem p hm) c hc1 hc2 htcs
        rw [List.mem_filter]
        refine ⟨hcL, ?_⟩
        have : ¬(rA p ≤ c ∧ c ≤ rB p) := by
          rcases hdisjp p' hm with hd | hd <;> omega
        simp only [Bool.not_eq_true']
        by_cases h1 : rA p ≤ c
        · by_cases h2 : c ≤ rB p
          · exact absurd ⟨h1, h2⟩ this
          · simp [h1, h2]
        · simp [h1]
      have := ih5 y _ hyx hcol1 hmem1
      rw [hcf]
      have hfe : (L.filter (fun c' => !(decide (rA p ≤ c') && decide (c' ≤ rB p)))).filter
          (fun c' => !(hiddenBy rA rB P' c')) =
          L.filter (fun c' => !(hiddenBy rA rB (p :: P') c')) := by
        rw [List.filter_filter]
        apply List.filter_congr
        intro a _
        show ((!(hiddenBy rA rB P' a)) && (!(decide (rA p ≤ a) && decide (a ≤ rB p)))) =
          (!(hiddenBy rA rB (p :: P') a))
        unfold hiddenBy
        rw [List.any_cons, Bool.not_or, Bool.and_comm]
      rw [← hfe]
      exact this

theorem itemsOf_transfer (s t : DLState) (ab : Nat × Nat)
    (htops : ∀ r, s.nitems < r → t.top r = s.top r) (hna : s.nitems < ab.1) :
    itemsOf t ab = itemsOf s ab := by
  unfold itemsOf
  apply List.map_congr_left
  intro c hm
  rw [mem_rowCells] at hm
  exact htops c (by omega)

theorem rowAlive_transfer (s t : DLState) (ab : Nat × Nat)
    (htops : ∀ r, s.nitems < r → t.top r = s.top r) (hna : s.nitems < ab.1)
    (K : List Nat) : rowAlive t K ab = rowAlive s K ab := by
  unfold rowAlive
  rw [itemsOf_transfer s t ab htops hna]

theorem rowAlive_cons (s : DLState) (x : Nat) (K : List Nat) (ab : Nat × Nat) :
    rowAlive s (x :: K) ab =
      (rowAlive s K ab && !(decide ((x : Int) ∈ itemsOf s ab))) := by
  unfold rowAlive
  by_cases hx : (x : Int) ∈ itemsOf s ab
  · simp [hx]
  · by_cases hK : ∀ z ∈ K, (z : Int) ∉ itemsOf s ab
    · simp only [hx, decide_False, Bool.not_false]
      rw [decide_eq_true (by
        intro z hz
        rcases List.mem_cons.mp hz with rfl | hz'
        · exact hx
        · exact hK z hz'), decide_eq_true hK]
      rfl
    · have h1 : ¬(∀ z ∈ x :: K, (z : Int) ∉ itemsOf s ab) := by
        intro hco
        exact hK (fun z hz => hco z (List.mem_cons_of_mem x hz))
      simp [h1, hK]

theorem rowStatic_transfer (s t : DLState) (ab : Nat × Nat) (hst : rowStatic s ab)
    (hni : t.nitems = s.nitems) (hlen : t.nodes.length = s.nodes.length)
    (htops : ∀ r, s.nitems < r → t.top r = s.top r)
    (hsp : ∀ r, s.nitems < r → s.top r ≤ 0 →
      t.ulink r = s.ulink r ∧ t.dlink r = s.dlink r) :
    rowStatic t ab := by
  obtain ⟨hna, hab, hbl, htb, hub, hta, hdb, htc, hnd⟩ := hst
  refine ⟨by omega, hab, by omega, ?_, ?_, ?_, ?_, ?_, ?_⟩
  · rw [htops (ab.2 + 1) (by omega)]
    exact htb
  · rw [(hsp (ab.2 + 1) (by omega) htb).1]
    exact hub
  · rw [htops (ab.1 - 1) (by omega)]
    exact hta
  · rw [(hsp (ab.1 - 1) (by omega) hta).2]
    exact hdb
  · intro q hq
    rw [mem_rowCells] at hq
    rw [htops q (by omega), hni]
    exact htc q ((mem_rowCells _ _ q).mpr hq)
  · have hmape : (rowCells ab.1 ab.2).map t.top = (rowCells ab.1 ab.2).map s.top := by
      apply List.map_congr_left
      intro c hm
      rw [mem_rowCells] at hm
      exact htops c (by omega)
    rw [hmape]
    exact hnd

theorem rowFind_eq : ∀ (Rows : List (Nat × Nat)),
    Rows.Pairwise (fun ab ab' => ab.2 < ab'.1) →
    ∀ ab ∈ Rows, ∀ p : Nat, ab.1 ≤ p → p ≤ ab.2 → rowFind Rows p = ab
  | [], _, ab, hab, _, _, _ => absurd hab (List.not_mem_nil ab)
  | r :: Rows', hpw, ab, hab, p, h1, h2 => by
    unfold rowFind
    rcases List.mem_cons.mp hab with rfl | hab'
    · rw [List.find?_cons_of_pos]
      · rfl
      · simp only [decide_eq_true_eq]
        exact ⟨h1, h2⟩
    · rw [List.find?_cons_of_neg]
      · exact rowFind_eq Rows' (List.pairwise_cons.mp hpw).2 ab hab' p h1 h2
      · simp only [decide_eq_true_eq]
        intro hcon
        have hlt := (List.pairwise_cons.mp hpw).1 ab hab'
        omega

theorem rows_disjoint_eq (Rows : List (Nat × Nat))
    (hpw : Rows.Pairwise (fun ab ab' => ab.2 < ab'.1))
    (ab ab' : Nat × Nat) (hab : ab ∈ Rows) (hab' : ab' ∈ Rows) (c : Nat)
    (h1 : ab.1 ≤ c) (h2 : c ≤ ab.2) (h1' : ab'.1 ≤ c) (h2' : c ≤ ab'.2) : ab = ab' := by
  by_contra hne
  have hpw2 : Rows.Pairwise (fun u v => u.2 < v.1 ∨ v.2 < u.1) :=
    hpw.imp (fun h => Or.inl h)
  have hrel := List.Pairwise.forall (fun u v h => Or.symm h) hpw2 hab hab' hne
  rcases hrel with h | h <;> omega

theorem pairwise_of_forall_mem_ne : ∀ (l : List Nat) (R : Nat → Nat → Prop), l.Nodup →
    (∀ a ∈ l, ∀ b ∈ l, a ≠ b → R a b) → l.Pairwise R
  | [], _, _, _ => List.Pairwise.nil
  | a :: l', R, hnd, h => by
    refine List.Pairwise.cons ?_ (pairwise_of_forall_mem_ne l' R (List.nodup_cons.mp hnd).2 ?_)
    · intro b hb
      exact h a (List.mem_cons_self a l') b (List.mem_cons_of_mem a hb)
        (fun he => (List.nodup_cons.mp hnd).1 (he ▸ hb))
    · intro b hb c hc hne
      exact h b (List.mem_cons_of_mem a hb) c (List.mem_cons_of_mem a hc) hne

/-- `ColC` only reads the nodes array, so it survives header-link writes. -/
theorem ColC_headerset (t : DLState) (a b c d y : Nat) (L : List Nat)
    (h : ColC t y L) : ColC ((t.setRlink a b).setLlink c d) y L := by
  obtain ⟨h1, h2, h3, h4, h5, h6, h7, h8, h9⟩ := h
  have hnodes : ((t.setRlink a b).setLlink c d).nodes = t.nodes := rfl
  have hnit : ((t.setRlink a b).setLlink c d).nitems = t.nitems := by
    unfold DLState.nitems
    rw [setLlink_headers_length, setRlink_headers_length]
  have hlen : ((t.setRlink a b).setLlink c d).nodes.length = t.nodes.length := rfl
  refine ⟨h1, by rw [hnit]; exact h2, by rw [hlen]; exact h3, ?_, h5, h6, h7, ?_, ?_⟩
  · rw [vchain_transfer t ((t.setRlink a b).setLlink c d) y L
      (((t.setRlink a b).setLlink c d).dlink y) (fun p _ => rfl)]
    exact h4
  · intro m hm
    exact h8 m hm
  · intro m hm
    obtain ⟨htag, hdu, hud⟩ := h9 m hm
    exact ⟨cellTagOK_transfer t _ hlen hnit (fun r _ => rfl) m htag rfl rfl rfl, hdu, hud⟩

/-- The heart of the search invariant: covering an active item `x` yields
exactly `coverResult`, `x`'s own column chain survives untouched, and the
invariant is re-established with `x` covered and the hidden rows' cells
filtered out of every other column. -/
theorem coverInv (s : DLState) (n : Nat) (Rows : List (Nat × Nat)) (K : List Nat)
    (cols : Nat → List Nat) (x : Nat)
    (hinv : SearchInv s n Rows K cols) (hKwf : Kwf n K)
    (hx1 : 1 ≤ x) (hx2 : x ≤ n) (hxK : x ∉ K) :
    CoverOK s x (cols x) (fun p => (rowFind Rows p).1) (fun p => (rowFind Rows p).2) ∧
    SearchInv (coverResult (fun p => (rowFind Rows p).1) (fun p => (rowFind Rows p).2) x s
        (cols x)) n Rows (x :: K)
      (fun y => (cols y).filter (fun c' => !(hiddenBy (fun p => (rowFind Rows p).1)
        (fun p => (rowFind Rows p).2) (cols x) c'))) ∧
    Kwf n (x :: K) ∧
    (coverResult (fun p => (rowFind Rows p).1) (fun p => (rowFind Rows p).2) x s
      (cols x)).nodes.length = s.nodes.length ∧
    (coverResult (fun p => (rowFind Rows p).1) (fun p => (rowFind Rows p).2) x s
      (cols x)).headers.length = s.headers.length ∧
    (∀ r, s.nitems < r → (coverResult (fun p => (rowFind Rows p).1)
      (fun p => (rowFind Rows p).2) x s (cols x)).top r = s.top r) ∧
    (coverResult (fun p => (rowFind Rows p).1) (fun p => (rowFind Rows p).2) x s
      (cols x)).nrows = s.nrows ∧
    (coverResult (fun p => (rowFind Rows p).1) (fun p => (rowFind Rows p).2) x s
      (cols x)).ncount = s.ncount ∧
    vchain (coverResult (fun p => (rowFind Rows p).1) (fun p => (rowFind Rows p).2) x s
      (cols x)) x ((coverResult (fun p => (rowFind Rows p).1)
      (fun p => (rowFind Rows p).2) x s (cols x)).dlink x) (cols x) = true ∧
    (cols x).length ≤ s.nodes.length := by
  obtain ⟨hni, hh0, hstat, hpw, hhl, hact, hcellsOK⟩ := hinv
  obtain ⟨hxlen, hchx, hdux, hudx, hndx, htopsx, hmemx⟩ :=
    hact x hx1 hx2 hxK
  have hxnit : x ≤ s.nitems := by omega
  have h0A : (0 : Nat) ∉ activeList n K := by
    intro hm
    have := (mem_activeList n K 0).mp hm
    omega
  have hxmem : x ∈ activeList n K := (mem_activeList n K x).mpr ⟨hx1, hx2, hxK⟩
  have hndA : (activeList n K).Nodup := activeList_nodup n K
  have hrowOKof : ∀ ab ∈ Rows, rowAlive s K ab = true → rowOK s ab.1 ab.2 := by
    intro ab hab halive
    obtain ⟨r1, r2, r3, r4, r5, r6, r7, r8, r9⟩ := hstat ab hab
    exact ⟨r1, r2, r3, r4, r5, r6, r7, fun q hq => hcellsOK ab hab halive q hq, r9⟩
  have hrowof : ∀ p ∈ cols x, ∃ ab, ab ∈ Rows ∧ rowAlive s K ab = true ∧
      p ∈ rowCells ab.1 ab.2 ∧ s.top p = (x : Int) ∧ rowFind Rows p = ab := by
    intro p hp
    obtain ⟨ab, hab, halive, hcells, htop⟩ := (hmemx p).mp hp
    rw [mem_rowCells] at hcells
    exact ⟨ab, hab, halive, (mem_rowCells _ _ p).mpr hcells, htop,
      rowFind_eq Rows hpw ab hab p hcells.1 hcells.2⟩
  have hrowsP : ∀ p ∈ cols x, (rowFind Rows p).1 ≤ p ∧ p ≤ (rowFind Rows p).2 ∧
      rowOK s (rowFind Rows p).1 (rowFind Rows p).2 := by
    intro p hp
    obtain ⟨ab, hab, halive, hcells, htop, hfind⟩ := hrowof p hp
    rw [mem_rowCells] at hcells
    rw [hfind]
    exact ⟨hcells.1, hcells.2, hrowOKof ab hab halive⟩
  have hdisjP : (cols x).Pairwise (fun p p' => (rowFind Rows p).2 < (rowFind Rows p').1 ∨
      (rowFind Rows p').2 < (rowFind Rows p).1) := by
    apply pairwise_of_forall_mem_ne _ _ hndx
    intro p hp q hq hne
    obtain ⟨ab, hab, halive, hcells, htop, hfind⟩ := hrowof p hp
    obtain ⟨ab', hab', halive', hcells', htop', hfind'⟩ := hrowof q hq
    rw [hfind, hfind']
    by_cases habe : ab = ab'
    · exfalso
      subst habe
      obtain ⟨-, -, -, -, -, -, -, -, hnd9⟩ := hstat ab hab
      have hinj := List.inj_on_of_nodup_map hnd9
      exact hne (hinj hcells hcells' (htop.trans htop'.symm))
    · have hpw2 : Rows.Pairwise (fun u v => u.2 < v.1 ∨ v.2 < u.1) :=
        hpw.imp (fun h => Or.inl h)
      exact List.Pairwise.forall (fun u v h => Or.symm h) hpw2 hab hab' habe
  have hedges := hlinked_edges s (activeList n K) 0 hhl hndA h0A h0A x hxmem
  obtain ⟨A₁, A₂, hAsplit⟩ := List.append_of_mem hxmem
  obtain ⟨hllx, hrlx⟩ := hlinked_x_links s x A₂ A₁ 0 (hAsplit ▸ hhl)
  have hxA12 : x ∉ A₁ ∧ x ∉ A₂ := by
    have hnd2 := hAsplit ▸ hndA
    rw [List.nodup_append] at hnd2
    exact ⟨fun hm => hnd2.2.2 hm (List.mem_cons_self x A₂),
      (List.nodup_cons.mp hnd2.2.1).1⟩
  have hllb : s.llink x < s.headers.length := by
    rw [hllx]
    match A₁ with
    | [] => exact hh0
    | a :: A₁' =>
      refine hlinked_mem_lt s (activeList n K) 0 hhl _ ?_
      rw [hAsplit]
      refine List.mem_append_left _ ?_
      exact getLastD_mem (a :: A₁') 0 (by simp)
  have hrlb : s.rlink x < s.headers.length := by
    rw [hrlx]
    match A₂ with
    | [] => exact hh0
    | y :: A₂' =>
      refine hlinked_mem_lt s (activeList n K) 0 hhl _ ?_
      rw [hAsplit]
      exact List.mem_append_right _ (List.mem_cons_of_mem x (by simp [List.headI]))
  have hxhlen : x < s.headers.length := hlinked_mem_lt s (activeList n K) 0 hhl x hxmem
  have hCoverOK : CoverOK s x (cols x) (fun p => (rowFind Rows p).1)
      (fun p => (rowFind Rows p).2) :=
    ⟨hx1, hxnit, hxlen, hxhlen, hllb, hrlb, hedges.2.2.1, hedges.2.2.2, hedges.1,
      hedges.2.1, hdux, hudx, hchx, htopsx, hrowsP, hdisjP⟩
  refine ⟨hCoverOK, ?_⟩
  obtain ⟨covEq, th, tlen, trow, tcnt, titag, uncEq⟩ :=
    coverSeg x (fun p => (rowFind Rows p).1) (fun p => (rowFind Rows p).2) (cols x) s
      (s.dlink x) hchx htopsx hrowsP hdisjP hxnit
  obtain ⟨cf1, cf2, cf3, cf4, cf5⟩ :=
    coverFoldCols x (fun p => (rowFind Rows p).1) (fun p => (rowFind Rows p).2) (cols x) s
      htopsx hrowsP hdisjP hxnit
  set rA : Nat → Nat := fun p => (rowFind Rows p).1 with hrA
  set rB : Nat → Nat := fun p => (rowFind Rows p).2 with hrB
  set t := coverFold rA rB s (cols x) with htdef
  set s' := coverResult rA rB x s (cols x) with hsdef
  have hsnodes : s'.nodes = t.nodes := rfl
  have hshlen : s'.headers.length = s.headers.length := by
    rw [hsdef]
    unfold coverResult
    rw [setLlink_headers_length, setRlink_headers_length, th]
  have hsnit : s'.nitems = s.nitems := by
    unfold DLState.nitems
    rw [hshlen]
  have htnit : t.nitems = s.nitems := by
    unfold DLState.nitems
    rw [th]
  have hslen : s'.nodes.length = s.nodes.length := by
    rw [hsnodes, tlen]
  have hstops : ∀ r, s.nitems < r → s'.top r = s.top r := by
    intro r hr
    have : s'.top r = t.top r := rfl
    rw [this]
    exact cf2 r hr
  have hssp : ∀ r, s.nitems < r → s.top r ≤ 0 →
      s'.ulink r = s.ulink r ∧ s'.dlink r = s.dlink r := by
    intro r hr hsp
    have h1 : s'.ulink r = t.ulink r := rfl
    have h2 : s'.dlink r = t.dlink r := rfl
    rw [h1, h2]
    exact cf3 r hr hsp
  have hsnrows : s'.nrows = s.nrows := by
    have h1 : s'.nrows = t.nrows := rfl
    rw [h1, trow]
  have hsncount : s'.ncount = s.ncount := by
    have h1 : s'.ncount = t.ncount := rfl
    rw [h1, tcnt]
  have hxitems : ∀ ab, ab ∈ Rows → ((x : Int) ∈ itemsOf s ab ↔
      ∃ q, q ∈ rowCells ab.1 ab.2 ∧ s.top q = (x : Int)) := by
    intro ab hab
    unfold itemsOf
    rw [List.mem_map]
  have hhidden_iff : ∀ (ab : Nat × Nat), ab ∈ Rows → rowAlive s K ab = true →
      ∀ c ∈ rowCells ab.1 ab.2,
      (hiddenBy rA rB (cols x) c = true ↔ (x : Int) ∈ itemsOf s ab) := by
    intro ab hab halive c hc
    constructor
    · intro hb
      unfold hiddenBy at hb
      rw [List.any_eq_true] at hb
      obtain ⟨p, hp, hpc⟩ := hb
      simp only [Bool.and_eq_true, decide_eq_true_eq] at hpc
      obtain ⟨abp, habp, halivep, hcellsp, htopp, hfindp⟩ := hrowof p hp
      have habe : ab = abp := by
        refine rows_disjoint_eq Rows hpw ab abp hab habp c ?_ ?_ ?_ ?_
        · rw [mem_rowCells] at hc
          exact hc.1
        · rw [mem_rowCells] at hc
          exact hc.2
        · have h : (rowFind Rows p).1 ≤ c := hpc.1
          rw [hfindp] at h
          exact h
        · have h : c ≤ (rowFind Rows p).2 := hpc.2
          rw [hfindp] at h
          exact h
      rw [hxitems ab hab]
      exact ⟨p, habe ▸ hcellsp, htopp⟩
    · intro hx3
      rw [hxitems ab hab] at hx3
      obtain ⟨q, hq1, hq2⟩ := hx3
      have hqP : q ∈ cols x := (hmemx q).mpr ⟨ab, hab, halive, hq1, hq2⟩
      unfold hiddenBy
      rw [List.any_eq_true]
      refine ⟨q, hqP, ?_⟩
      have hfq : rowFind Rows q = ab := by
        rw [mem_rowCells] at hq1
        exact rowFind_eq Rows hpw ab hab q hq1.1 hq1.2
      simp only [Bool.and_eq_true, decide_eq_true_eq]
      rw [mem_rowCells] at hc
      constructor
      · show (rowFind Rows q).1 ≤ c
        rw [hfq]
        exact hc.1
      · show c ≤ (rowFind Rows q).2
        rw [hfq]
        exact hc.2
  have halive' : ∀ ab, ab ∈ Rows → (rowAlive s' (x :: K) ab =
      (rowAlive s K ab && !(decide ((x : Int) ∈ itemsOf s ab)))) := by
    intro ab hab
    have hna : s.nitems < ab.1 := by
      have := (hstat ab hab).1
      omega
    rw [rowAlive_transfer s s' ab hstops hna (x :: K), rowAlive_cons]
  refine ⟨?_, ?_, hslen, hshlen, hstops, hsnrows, hsncount, ?_, ?_⟩
  · -- SearchInv at s'
    refine ⟨by rw [hsnit]; exact hni, by rw [hshlen]; exact hh0, ?_, hpw, ?_, ?_, ?_⟩
    · intro ab hab
      exact rowStatic_transfer s s' ab (hstat ab hab) hsnit hslen hstops hssp
    · -- horizontal list
      have hAerase : activeList n (x :: K) = A₁ ++ A₂ := by
        rw [activeList_cons, hAsplit, filter_ne_split A₁ A₂ x hxA12.1 hxA12.2]
      rw [hAerase]
      have hth : ∀ j, t.llink j = s.llink j := by
        intro j
        unfold DLState.llink
        rw [th]
      have htr : ∀ j, t.rlink j = s.rlink j := by
        intro j
        unfold DLState.rlink
        rw [th]
      have hthlen : t.headers.length = s.headers.length := by rw [th]
      have hhlt : hlinked t 0 (A₁ ++ x :: A₂) = true := by
        rw [hlinked_transfer s t hthlen (A₁ ++ x :: A₂) 0 (fun m _ => htr m)
          (fun m _ => hth m)]
        exact hAsplit ▸ hhl
      have h0nt : (0 : Nat) ∉ A₁ ++ x :: A₂ := hAsplit ▸ h0A
      have hsple := hlinked_splice t x A₂ (by rw [hthlen]; exact hh0) A₁ 0 hhlt
        (hAsplit ▸ hndA) h0nt h0nt
      have hseq : s' = (t.setRlink (t.llink x) (t.rlink x)).setLlink (t.rlink x)
          (t.llink x) := by
        rw [hsdef]
        unfold coverResult
        rw [hth x, htr x]
      rw [hseq]
      exact hsple
    · -- per-active columns
      intro y hy1 hy2 hyK'
      have hyx : y ≠ x := fun he => hyK' (he ▸ List.mem_cons_self x K)
      have hyK : y ∉ K := fun hm => hyK' (List.mem_cons_of_mem x hm)
      obtain ⟨hylen, hchy, hduy, hudy, hndy, htopsy, hmemy⟩ := hact y hy1 hy2 hyK
      have hColCy : ColC s y (cols y) := by
        refine ⟨hy1, by omega, hylen, hchy, hduy, hudy, hndy, htopsy, ?_⟩
        intro c hc
        obtain ⟨ab, hab, halive, hcells, htop⟩ := (hmemy c).mp hc
        exact hcellsOK ab hab halive c hcells
      have hmemP : ∀ p ∈ cols x, ∀ c, rA p ≤ c → c ≤ rB p → s.top c = (y : Int) →
          c ∈ cols y := by
        intro p hp c hc1 hc2 htc
        obtain ⟨ab, hab, halive, hcells, htop, hfind⟩ := hrowof p hp
        refine (hmemy c).mpr ⟨ab, hab, halive, ?_, htc⟩
        rw [mem_rowCells]
        constructor
        · have h : (rowFind Rows p).1 ≤ c := hc1
          rw [hfind] at h
          exact h
        · have h : c ≤ (rowFind Rows p).2 := hc2
          rw [hfind] at h
          exact h
      have hcolt := cf5 y (cols y) hyx hColCy hmemP
      have hcols' : ColC s' y ((cols y).filter (fun c' => !(hiddenBy rA rB (cols x) c'))) := by
        rw [hsdef]
        unfold coverResult
        exact ColC_headerset _ _ _ _ _ y _ hcolt
      obtain ⟨k1, k2, k3, k4, k5, k6, k7, k8, k9⟩ := hcols'
      refine ⟨by rw [hslen]; exact hylen, k4, k5, k6, k7, k8, ?_⟩
      -- membership characterization
      intro c
      rw [List.mem_filter]
      constructor
      · rintro ⟨hcy, hcnb⟩
        obtain ⟨ab, hab, halive, hcells, htop⟩ := (hmemy c).mp hcy
        have hcgt : s.nitems < c := by
          have := (hstat ab hab).1
          rw [mem_rowCells] at hcells
          omega
        refine ⟨ab, hab, ?_, hcells, by rw [hstops c hcgt]; exact htop⟩
        rw [halive' ab hab]
        simp only [Bool.and_eq_true, Bool.not_eq_true', decide_eq_false_iff_not]
        refine ⟨halive, ?_⟩
        intro hxin
        have := (hhidden_iff ab hab halive c hcells).mpr hxin
        rw [this] at hcnb
        simp at hcnb
      · rintro ⟨ab, hab, halive2, hcells, htop⟩
        have hcgt : s.nitems < c := by
          have := (hstat ab hab).1
          rw [mem_rowCells] at hcells
          omega
        rw [halive' ab hab] at halive2
        simp only [Bool.and_eq_true, Bool.not_eq_true', decide_eq_false_iff_not] at halive2
        obtain ⟨halive, hnx⟩ := halive2
        refine ⟨(hmemy c).mpr ⟨ab, hab, halive, hcells, by rw [← hstops c hcgt]; exact htop⟩, ?_⟩
        simp only [Bool.not_eq_true']
        by_contra hcon
        have hbt : hiddenBy rA rB (cols x) c = true := by
          rcases Bool.eq_false_or_eq_true (hiddenBy rA rB (cols x) c) with h | h
          · exact h
          · exact absurd h hcon
        exact hnx ((hhidden_iff ab hab halive c hcells).mp hbt)
    · -- alive rows' cells stay linked
      intro ab hab halive2 c hcells
      rw [halive' ab hab] at halive2
      simp only [Bool.and_eq_true, Bool.not_eq_true', decide_eq_false_iff_not] at halive2
      obtain ⟨halive, hnx⟩ := halive2
      have hcOK : cellOK s c := hcellsOK ab hab halive c hcells
      have hout : ∀ p ∈ cols x, ¬(rA p ≤ c ∧ c ≤ rB p) := by
        intro p hp hcon
        refine hnx ((hhidden_iff ab hab halive c hcells).mp ?_)
        unfold hiddenBy
        rw [List.any_eq_true]
        refine ⟨p, hp, ?_⟩
        simp only [Bool.and_eq_true, decide_eq_true_eq]
        exact hcon
      have hct : cellOK t c := cf4 c hcOK hout
      have hse : s' = (t.setRlink (s.llink x) (s.rlink x)).setLlink (s.rlink x)
          (s.llink x) := rfl
      rw [hse]
      obtain ⟨htag, hdu2, hud2⟩ := hct
      refine ⟨cellTagOK_transfer t ((t.setRlink (s.llink x) (s.rlink x)).setLlink
        (s.rlink x) (s.llink x)) rfl ?_ (fun r _ => rfl) c htag rfl rfl rfl, hdu2, hud2⟩
      unfold DLState.nitems
      rw [setLlink_headers_length, setRlink_headers_length]
  · exact ⟨by
      rw [List.nodup_cons]
      exact ⟨hxK, hKwf.1⟩, by
      intro z hz
      rcases List.mem_cons.mp hz with rfl | hz'
      · exact ⟨hx1, hx2⟩
      · exact hKwf.2 z hz'⟩
  · -- x's own chain untouched
    show vchain s' x (s'.dlink x) (cols x) = true
    have hdlP : ∀ p ∈ cols x, s'.dlink p = s.dlink p := by
      intro p hp
      have h1 : s'.dlink p = t.dlink p := rfl
      rw [h1]
      obtain ⟨ab, hab, halive, hcells, htop, hfind⟩ := hrowof p hp
      exact (titag p (Or.inr ⟨by
        have := (hstat ab hab).1
        rw [mem_rowCells] at hcells
        omega, htop⟩)).2.2
    have hdx : s'.dlink x = s.dlink x := by
      have h1 : s'.dlink x = t.dlink x := rfl
      rw [h1]
      exact (titag x (Or.inl rfl)).2.2
    rw [hdx, vchain_transfer s s' x (cols x) (s.dlink x) hdlP]
    exact hchx
  · -- column size bound
    apply nodup_length_le _ _ hndx
    intro p hp
    obtain ⟨ab, hab, halive, hcells, htop, hfind⟩ := hrowof p hp
    have := hcellsOK ab hab halive p hcells
    exact this.1.2.1

theorem itemsOf_setNc (u : DLState) (c : Nat) (ab : Nat × Nat) :
    itemsOf (setNc u c) ab = itemsOf u ab := rfl

theorem setNc_self (u : DLState) : setNc u u.ncount = u := rfl

theorem setNc_setNc (u : DLState) (c d : Nat) : setNc (setNc u c) d = setNc u d := rfl

/-- The invariant only reads links, never the call counter. -/
theorem SearchInv_setNc (u : DLState) (c : Nat) (n : Nat) (Rows : List (Nat × Nat))
    (K : List Nat) (cols : Nat → List Nat) (h : SearchInv u n Rows K cols) :
    SearchInv (setNc u c) n Rows K cols := by
  obtain ⟨h1, h2, h3, h4, h5, h6, h7⟩ := h
  have halive : ∀ ab ∈ Rows, rowAlive (setNc u c) K ab = rowAlive u K ab := by
    intro ab hab
    refine rowAlive_transfer u (setNc u c) ab (fun r _ => rfl) ?_ K
    have := (h3 ab hab).1
    omega
  have hcellOK : ∀ c', cellOK u c' → cellOK (setNc u c) c' := by
    intro c' hc
    exact ⟨cellTagOK_transfer u (setNc u c) rfl rfl (fun r _ => rfl) c' hc.1 rfl rfl rfl,
      hc.2.1, hc.2.2⟩
  refine ⟨h1, h2, ?_, h4, ?_, ?_, ?_⟩
  · intro ab hab
    exact rowStatic_transfer u (setNc u c) ab (h3 ab hab) rfl rfl (fun r _ => rfl)
      (fun r _ _ => ⟨rfl, rfl⟩)
  · rw [hlinked_transfer u (setNc u c) rfl (activeList n K) 0 (fun m _ => rfl)
      (fun m _ => rfl)]
    exact h5
  · intro y hy1 hy2 hyK
    obtain ⟨g1, g2, g3, g4, g5, g6, g7⟩ := h6 y hy1 hy2 hyK
    refine ⟨g1, ?_, g3, g4, g5, g6, ?_⟩
    · rw [vchain_transfer u (setNc u c) y (cols y) ((setNc u c).dlink y)
        (fun p _ => rfl)]
      exact g2
    · intro c'
      rw [g7 c']
      constructor
      · rintro ⟨ab, hab, hal, hcells, htop⟩
        exact ⟨ab, hab, by rw [halive ab hab]; exact hal, hcells, htop⟩
      · rintro ⟨ab, hab, hal, hcells, htop⟩
        exact ⟨ab, hab, by rw [← halive ab hab]; exact hal, hcells, htop⟩
  · intro ab hab hal c' hc'
    refine hcellOK c' (h7 ab hab ?_ c' hc')
    rw [← halive ab hab]
    exact hal

/-- A solution fragment's goodness only reads row items, which are stable
across the search. -/
theorem ExtGood_transfer (s t : DLState) (n : Nat) (Rows : List (Nat × Nat))
    (K : List Nat) (ext : List Nat)
    (hitems : ∀ ab ∈ Rows, itemsOf t ab = itemsOf s ab)
    (hpw : Rows.Pairwise (fun ab ab' => ab.2 < ab'.1))
    (h : ExtGood t n Rows K ext) : ExtGood s n Rows K ext := by
  obtain ⟨h1, h2, h3⟩ := h
  have hfind : ∀ k ∈ ext, itemsOf t (rowFind Rows k) = itemsOf s (rowFind Rows k) := by
    intro k hk
    obtain ⟨ab, hab, hcells⟩ := h1 k hk
    rw [mem_rowCells] at hcells
    rw [rowFind_eq Rows hpw ab hab k hcells.1 hcells.2]
    exact hitems ab hab
  refine ⟨h1, ?_, ?_⟩
  · intro y hy1 hy2 hyK
    obtain ⟨k, ⟨hk1, hk2⟩, hk3⟩ := h2 y hy1 hy2 hyK
    refine ⟨k, ⟨hk1, by rw [← hfind k hk1]; exact hk2⟩, ?_⟩
    intro k' hk'
    exact hk3 k' ⟨hk'.1, by rw [hfind k' hk'.1]; exact hk'.2⟩
  · intro k hk z hz
    refine h3 k hk z ?_
    rw [hfind k hk]
    exact hz

/-- The cover/uncover round trip, with the cover result in explicit form:
`cover i` succeeds producing `coverResult` and `uncover i` maps it back to
the starting state. -/
theorem cover_uncover_aux (s : DLState) (i : Nat) (P : List Nat)
    (rA rB : Nat → Nat) (fuel : Nat)
    (hctx : CoverOK s i P rA rB)
    (hf1 : P.length + 1 ≤ fuel)
    (hf2 : ∀ p ∈ P, rB p - rA p + 2 + P.length + 1 ≤ fuel) :
    cover fuel i s = some (coverResult rA rB i s P) ∧
      uncover fuel i (coverResult rA rB i s P) = some s := by
  obtain ⟨hi1, hi2, hi3, hih, hlb, hrb, hlne, hrne, hrl, hlr, hdu, hud, hch, htops,
    hrows, hdisj⟩ := hctx
  obtain ⟨covEq, th, tlen, trow, tcnt, titag, uncEq⟩ :=
    coverSeg i rA rB P s (s.dlink i) hch htops hrows hdisj hi2
  set t := coverFold rA rB s P with htdef
  have hname : ∀ j, t.name j = s.name j := by
    intro j
    unfold DLState.name
    rw [th]
  have hll : ∀ j, t.llink j = s.llink j := by
    intro j
    unfold DLState.llink
    rw [th]
  have hrr : ∀ j, t.rlink j = s.rlink j := by
    intro j
    unfold DLState.rlink
    rw [th]
  have hhlen : t.headers.length = s.headers.length := by rw [th]
  have hloop : coverLoop i fuel (s.dlink i) s = some t := by
    have hsh : fuel = ((fuel - P.length - 1) + 1) + P.length := by omega
    rw [hsh, covEq ((fuel - P.length - 1) + 1) (fun p hm => by have := hf2 p hm; omega)]
    simp [coverLoop]
  have hcover : cover fuel i s =
      some ((t.setRlink (s.llink i) (s.rlink i)).setLlink (s.rlink i) (s.llink i)) := by
    unfold cover
    rw [hloop]
    show some ((t.setRlink (t.llink i) (t.rlink i)).setLlink (t.rlink i) (t.llink i)) = _
    rw [hll i, hrr i]
  have hsll : ∀ j, ((t.setRlink (s.llink i) (s.rlink i)).setLlink (s.rlink i)
      (s.llink i)).llink j = if s.rlink i = j then s.llink i else t.llink j := by
    intro j
    rw [llink_setLlink, llink_setRlink]
    by_cases hj : s.rlink i = j
    · rw [if_pos ⟨hj, by rw [setRlink_headers_length, hhlen]; exact hrb⟩, if_pos hj]
    · rw [if_neg (fun hc => hj hc.1), if_neg hj]
  have hsrl : ∀ j, ((t.setRlink (s.llink i) (s.rlink i)).setLlink (s.rlink i)
      (s.llink i)).rlink j = if s.llink i = j then s.rlink i else t.rlink j := by
    intro j
    rw [rlink_setLlink, rlink_setRlink]
    by_cases hj : s.llink i = j
    · rw [if_pos ⟨hj, by rw [hhlen]; exact hlb⟩, if_pos hj]
    · rw [if_neg (fun hc => hj hc.1), if_neg hj]
  have hl' : ((t.setRlink (s.llink i) (s.rlink i)).setLlink (s.rlink i)
      (s.llink i)).llink i = s.llink i := by
    rw [hsll i, if_neg hrne, hll i]
  have hr' : ((t.setRlink (s.llink i) (s.rlink i)).setLlink (s.rlink i)
      (s.llink i)).rlink i = s.rlink i := by
    rw [hsrl i, if_neg hlne, hrr i]
  set s' := (t.setRlink (s.llink i) (s.rlink i)).setLlink (s.rlink i) (s.llink i) with hsdef
  have hshlen : s'.headers.length = s.headers.length := by
    rw [hsdef, setLlink_headers_length, setRlink_headers_length, hhlen]
  have hS1 : (s'.setRlink (s'.llink i) i).setLlink (s'.rlink i) i = t := by
    rw [hl', hr']
    apply dlstate_ext_fields
    · rw [setLlink_headers_length, setRlink_headers_length, hshlen, hhlen]
    · rw [setLlink_nodes, setRlink_nodes, hsdef, setLlink_nodes, setRlink_nodes]
    · rfl
    · rfl
    · intro j
      rw [name_setLlink, name_setRlink, hsdef, name_setLlink, name_setRlink, hname j]
    · intro j
      rw [llink_setLlink, llink_setRlink]
      by_cases hj : s.rlink i = j
      · rw [if_pos ⟨hj, by rw [setRlink_headers_length, hshlen]; exact hrb⟩]
        rw [hll j, ← hj, hlr]
      · rw [if_neg (fun hc => hj hc.1), hsll j, if_neg hj]
    · intro j
      rw [rlink_setLlink, rlink_setRlink]
      by_cases hj : s.llink i = j
      · rw [if_pos ⟨hj, by rw [hshlen]; exact hlb⟩]
        rw [hrr j, ← hj, hrl]
      · rw [if_neg (fun hc => hj hc.1), hsrl j, if_neg hj]
    · intro j
      unfold DLState.top
      rw [setLlink_nodes, setRlink_nodes, hsdef, setLlink_nodes, setRlink_nodes]
    · intro j
      unfold DLState.ulink
      rw [setLlink_nodes, setRlink_nodes, hsdef, setLlink_nodes, setRlink_nodes]
    · intro j
      unfold DLState.dlink
      rw [setLlink_nodes, setRlink_nodes, hsdef, setLlink_nodes, setRlink_nodes]
  have huncover : uncover fuel i s' = uncoverLoop i fuel (t.ulink i) t := by
    have hdef : uncover fuel i s' =
        uncoverLoop i fuel (((s'.setRlink (s'.llink i) i).setLlink (s'.rlink i) i).ulink i)
          ((s'.setRlink (s'.llink i) i).setLlink (s'.rlink i) i) := rfl
    rw [hdef, hS1]
  have hulinki : t.ulink i = s.ulink i := (titag i (Or.inl rfl)).2.1
  have hres : coverResult rA rB i s P = s' := rfl
  rw [hres]
  refine ⟨hcover, ?_⟩
  rw [huncover, hulinki]
  match P, hch, htops, hrows, hf1, hf2, uncEq with
  | [], hch, _, _, hf1, _, uncEq =>
    have hdi : s.dlink i = i := by simpa [vchain] using hch
    have hui : s.ulink i = i := by
      rw [hdi] at hud
      exact hud
    have he := uncEq i fuel (by intro p hm; cases hm) (fun hne => absurd rfl hne)
    simp only [List.getLastD, List.length_nil, Nat.add_zero] at he
    rw [hui, he]
    have hsh : fuel = (fuel - 1) + 1 := by omega
    rw [hsh]
    simp [uncoverLoop]
  | p1 :: P'', hch, htops, hrows, hf1, hf2, uncEq =>
    have hp1 : s.dlink i = p1 := (vchain_head s i P'' (s.dlink i) p1 hch).1
    have hXi : s.ulink p1 = i := by
      rw [← hp1]
      exact hud
    have hlastd := vchain_getLast s i (p1 :: P'') (s.dlink i) hch (by simp) (s.ulink p1)
    have hlmem := getLastD_mem (p1 :: P'') (s.ulink p1) (by simp)
    have hlOK : cellOK s ((p1 :: P'').getLastD (s.ulink p1)) := by
      obtain ⟨hap, hpb, hrowl⟩ := hrows _ hlmem
      exact hrowl.2.2.2.2.2.2.2.1 _ ((mem_rowCells _ _ _).mpr ⟨hap, hpb⟩)
    have hui : s.ulink i = (p1 :: P'').getLastD (s.ulink p1) := by
      have := hlOK.2.2
      rw [hlastd] at this
      exact this
    have hbound : ∀ p ∈ p1 :: P'', rB p - rA p + 2 ≤ fuel - (p1 :: P'').length := by
      intro p hm
      have := hf2 p hm
      omega
    have he := uncEq (s.ulink ((p1 :: P'').headI)) (fuel - (p1 :: P'').length) hbound
      (fun _ => rfl)
    have hheadI : (p1 :: P'').headI = p1 := rfl
    rw [hheadI] at he
    have hfe : (fuel - (p1 :: P'').length) + (p1 :: P'').length = fuel := by
      have hlen : (p1 :: P'').length = P''.length + 1 := by simp
      omega
    rw [hfe] at he
    rw [hui, he, hXi]
    have hsh : fuel - (p1 :: P'').length = (fuel - (p1 :: P'').length - 1) + 1 := by
      have hlen : (p1 :: P'').length = P''.length + 1 := by simp
      omega
    rw [hsh]
    simp [uncoverLoop]


/-- Covering the items of a contiguous run of row cells `q … q+m-1`: the
forward loop advances past the run, the invariant accumulates the covered
items in reverse order, and the backward loop undoes the run exactly. -/
theorem coverRunSeg (n : Nat) (Rows : List (Nat × Nat)) (k : Nat) :
    ∀ (m : Nat) (q : Nat) (u : DLState) (K : List Nat) (cols : Nat → List Nat),
    SearchInv u n Rows K cols → Kwf n K →
    (∀ t, t < m → q + t ≠ k) →
    (∀ t, t < m → u.nitems < q + t ∧ 1 ≤ u.top (q + t) ∧ u.top (q + t) ≤ (n : Int) ∧
      (u.top (q + t)).toNat ∉ K) →
    ((List.range m).map (fun t => (u.top (q + t)).toNat)).Nodup →
    ∃ (u' : DLState) (cols' : Nat → List Nat),
      SearchInv u' n Rows
        (((List.range m).map (fun t => (u.top (q + t)).toNat)).reverse ++ K) cols' ∧
      Kwf n (((List.range m).map (fun t => (u.top (q + t)).toNat)).reverse ++ K) ∧
      u'.nodes.length = u.nodes.length ∧ u'.headers.length = u.headers.length ∧
      (∀ r, u.nitems < r → u'.top r = u.top r) ∧
      u'.nrows = u.nrows ∧ u'.ncount = u.ncount ∧
      (∀ fuel, 2 * u.nodes.length + 4 ≤ fuel →
        coverRowLoop k (fuel + m) q u = coverRowLoop k fuel (q + m) u') ∧
      (∀ fuel, 2 * u.nodes.length + 4 ≤ fuel →
        uncoverRowLoop k (fuel + m) (q + m - 1) u' = uncoverRowLoop k fuel (q - 1) u)
  | 0, q, u, K, cols, hinv, hKwf, _, _, _ =>
    ⟨u, cols, hinv, hKwf, rfl, rfl, fun r _ => rfl, rfl, rfl,
      fun fuel _ => rfl, fun fuel _ => rfl⟩
  | m + 1, q, u, K, cols, hinv, hKwf, hne, hcells, hnodup => by
    obtain ⟨hq1, hq2, hq3, hq4⟩ := hcells 0 (by omega)
    rw [Nat.add_zero] at hq1 hq2 hq3 hq4
    have hx1 : 1 ≤ (u.top q).toNat := by omega
    have hx2 : (u.top q).toNat ≤ n := by omega
    obtain ⟨hCOK, hinv1, hKwf1, hlen1, hhlen1, htops1, hnrows1, hncount1, hvch1, hcolslen⟩ :=
      coverInv u n Rows K cols (u.top q).toNat hinv hKwf hx1 hx2 hq4
    obtain ⟨c1, c2, c3, c4, c5, c6, c7, c8, c9, c10, c11, c12, c13, c14, c15, c16⟩ := hCOK
    have hnit1 : (coverResult (fun p => (rowFind Rows p).1) (fun p => (rowFind Rows p).2)
        (u.top q).toNat u (cols (u.top q).toNat)).nitems = u.nitems := by
      unfold DLState.nitems
      rw [hhlen1]
    have hauxAt : ∀ fuel0, 2 * u.nodes.length + 2 ≤ fuel0 →
        cover fuel0 (u.top q).toNat u = some (coverResult (fun p => (rowFind Rows p).1)
          (fun p => (rowFind Rows p).2) (u.top q).toNat u (cols (u.top q).toNat)) ∧
        uncover fuel0 (u.top q).toNat (coverResult (fun p => (rowFind Rows p).1)
          (fun p => (rowFind Rows p).2) (u.top q).toNat u (cols (u.top q).toNat)) =
          some u := by
      intro fuel0 hb
      refine cover_uncover_aux u (u.top q).toNat (cols (u.top q).toNat)
        (fun p => (rowFind Rows p).1) (fun p => (rowFind Rows p).2) fuel0 ⟨c1, c2, c3, c4,
          c5, c6, c7, c8, c9, c10, c11, c12, c13, c14, c15, c16⟩ ?_ ?_
      · omega
      · intro p hp
        have hblen : (rowFind Rows p).2 + 1 < u.nodes.length := (c15 p hp).2.2.2.2.1
        show (rowFind Rows p).2 - (rowFind Rows p).1 + 2 +
          (cols (u.top q).toNat).length + 1 ≤ fuel0
        omega
    set u₁ := coverResult (fun p => (rowFind Rows p).1) (fun p => (rowFind Rows p).2)
      (u.top q).toNat u (cols (u.top q).toNat) with hu₁def
    have htail : ((List.range m).map (fun t => (u₁.top (q + 1 + t)).toNat)) =
        ((List.range m).map (fun t => (u.top (q + (t + 1))).toNat)) := by
      apply List.map_congr_left
      intro t ht
      have h1 : u.nitems < q + (t + 1) := by
        rw [List.mem_range] at ht
        exact (hcells (t + 1) (by omega)).1
      have he : q + 1 + t = q + (t + 1) := by omega
      rw [he, htops1 (q + (t + 1)) h1]
    have hmapsplit : ((List.range (m + 1)).map (fun t => (u.top (q + t)).toNat)) =
        (u.top q).toNat :: ((List.range m).map (fun t => (u.top (q + (t + 1))).toNat)) := by
      rw [List.range_succ_eq_map, List.map_cons, List.map_map]
      rfl
    have hcells1 : ∀ t, t < m → u₁.nitems < q + 1 + t ∧ 1 ≤ u₁.top (q + 1 + t) ∧
        u₁.top (q + 1 + t) ≤ (n : Int) ∧
        (u₁.top (q + 1 + t)).toNat ∉ (u.top q).toNat :: K := by
      intro t ht
      obtain ⟨g1, g2, g3, g4⟩ := hcells (t + 1) (by omega)
      have he : q + 1 + t = q + (t + 1) := by omega
      have htop : u₁.top (q + 1 + t) = u.top (q + (t + 1)) := by
        rw [he]
        exact htops1 (q + (t + 1)) g1
      refine ⟨by rw [hnit1]; omega, by rw [htop]; exact g2, by rw [htop]; exact g3, ?_⟩
      rw [htop]
      intro hmem
      rcases List.mem_cons.mp hmem with he2 | hm2
      · rw [hmapsplit] at hnodup
        have := (List.nodup_cons.mp hnodup).1
        apply this
        rw [← he2]
        apply List.mem_map_of_mem
        rw [List.mem_range]
        exact ht
      · exact g4 hm2
    have hnodup1 : ((List.range m).map (fun t => (u₁.top (q + 1 + t)).toNat)).Nodup := by
      rw [htail]
      rw [hmapsplit] at hnodup
      exact (List.nodup_cons.mp hnodup).2
    obtain ⟨u₂, cols₂, ih1, ih2, ih3, ih4, ih5, ih6, ih7, ih8, ih9⟩ :=
      coverRunSeg n Rows k m (q + 1) u₁ ((u.top q).toNat :: K)
        (fun y => (cols y).filter (fun c' => !(hiddenBy (fun p => (rowFind Rows p).1)
          (fun p => (rowFind Rows p).2) (cols (u.top q).toNat) c')))
        hinv1 hKwf1
        (fun t ht => by
          have := hne (t + 1) (by omega)
          omega)
        hcells1 hnodup1
    have hKeq : ((List.range m).map (fun t => (u₁.top (q + 1 + t)).toNat)).reverse ++
        ((u.top q).toNat :: K) =
        ((List.range (m + 1)).map (fun t => (u.top (q + t)).toNat)).reverse ++ K := by
      rw [htail, hmapsplit, List.reverse_cons, List.append_assoc]
      rfl
    rw [hKeq] at ih1 ih2
    refine ⟨u₂, cols₂, ih1, ih2, by rw [ih3, hlen1], by rw [ih4, hhlen1], ?_, ?_, ?_, ?_, ?_⟩
    · intro r hr
      rw [ih5 r (by rw [hnit1]; exact hr), htops1 r hr]
    · rw [ih6]
      have : u₁.nrows = u.nrows := hnrows1
      rw [this]
    · rw [ih7]
      have : u₁.ncount = u.ncount := hncount1
      rw [this]
    · intro fuel hfb
      have hstep : coverRowLoop k (fuel + (m + 1)) q u =
          coverRowLoop k (fuel + m) (q + 1) u₁ := by
        have hsh : fuel + (m + 1) = (fuel + m) + 1 := by omega
        rw [hsh]
        simp only [coverRowLoop]
        rw [if_neg (by have := hne 0 (by omega); omega : ¬q = k)]
        rw [if_neg (by omega : ¬u.top q ≤ 0)]
        rw [(hauxAt (fuel + m) (by omega)).1]
        rfl
      rw [hstep, ih8 fuel (by rw [hlen1]; exact hfb)]
      have : q + 1 + m = q + (m + 1) := by omega
      rw [this]
    · intro fuel hfb
      have h1 : fuel + (m + 1) = (fuel + 1) + m := by omega
      have h2 : q + (m + 1) - 1 = (q + 1) + m - 1 := by omega
      rw [h1, h2, ih9 (fuel + 1) (by rw [hlen1]; omega)]
      have h3 : q + 1 - 1 = q := by omega
      rw [h3]
      simp only [uncoverRowLoop]
      rw [if_neg (by have := hne 0 (by omega); omega : ¬q = k)]
      have htq : u₁.top q = u.top q := htops1 q hq1
      rw [htq]
      rw [if_neg (by omega : ¬u.top q ≤ 0)]
      rw [(hauxAt fuel (by omega)).2]
      rfl
  termination_by m => m

/-- Covering the items of all cells of option `k`'s row other than `k`
itself: the inner `for` loop of `rdance` walks `k+1 … b`, jumps at the
spacer, walks `a … k-1`, and its backward twin undoes everything. -/
theorem rowCoverRun (n : Nat) (Rows : List (Nat × Nat)) (u : DLState) (K : List Nat)
    (cols : Nat → List Nat) (a b k : Nat)
    (hinv : SearchInv u n Rows K cols) (hKwf : Kwf n K)
    (hab : (a, b) ∈ Rows) (hak : a ≤ k) (hkb : k ≤ b)
    (hactive : ∀ c, a ≤ c → c ≤ b → c ≠ k → (u.top c).toNat ∉ K) :
    ∃ (u' : DLState) (cols' : Nat → List Nat),
      SearchInv u' n Rows
        (((wrapCells a b k).map (fun c => (u.top c).toNat)).reverse ++ K) cols' ∧
      Kwf n (((wrapCells a b k).map (fun c => (u.top c).toNat)).reverse ++ K) ∧
      u'.nodes.length = u.nodes.length ∧ u'.headers.length = u.headers.length ∧
      (∀ r, u.nitems < r → u'.top r = u.top r) ∧
      u'.nrows = u.nrows ∧ u'.ncount = u.ncount ∧
      (∀ fuel, 3 * u.nodes.length + 6 ≤ fuel →
        coverRowLoop k fuel (k + 1) u = some u') ∧
      (∀ fuel, 3 * u.nodes.length + 6 ≤ fuel →
        uncoverRowLoop k fuel (k - 1) u' = some u) := by
  obtain ⟨hni, hh0, hstat, hpw, hhl, hact2, hcOK2⟩ := hinv
  obtain ⟨r1, r2, r3, r4, r5, r6, r7, r8, r9⟩ := hstat (a, b) hab
  have hinj := List.inj_on_of_nodup_map r9
  have htopc : ∀ c, a ≤ c → c ≤ b → 1 ≤ u.top c ∧ u.top c ≤ (n : Int) := by
    intro c h1 h2
    have := r8 c ((mem_rowCells a b c).mpr ⟨h1, h2⟩)
    rw [hni] at this
    exact this
  have hrunnodup : ∀ (q m : Nat), a ≤ q → q + m ≤ b + 1 →
      ((List.range m).map (fun t => (u.top (q + t)).toNat)).Nodup := by
    intro q m hq hqm
    refine List.Nodup.map_on ?_ (List.nodup_range m)
    intro t ht t' ht' he
    rw [List.mem_range] at ht ht'
    have h1 : q + t ∈ rowCells a b := (mem_rowCells a b (q + t)).mpr (by omega)
    have h2 : q + t' ∈ rowCells a b := (mem_rowCells a b (q + t')).mpr (by omega)
    have ht1 := htopc (q + t) (by omega) (by omega)
    have ht2 := htopc (q + t') (by omega) (by omega)
    have hte : u.top (q + t) = u.top (q + t') := by omega
    have := hinj h1 h2 hte
    omega
  have hinvC : SearchInv u n Rows K cols := ⟨hni, hh0, hstat, hpw, hhl, hact2, hcOK2⟩
  obtain ⟨u₁, cols₁, ih1, ih2, ih3, ih4, ih5, ih6, ih7, ih8, ih9⟩ :=
    coverRunSeg n Rows k (b - k) (k + 1) u K cols hinvC hKwf
      (fun t ht => by omega)
      (fun t ht => by
        refine ⟨by omega, (htopc (k + 1 + t) (by omega) (by omega)).1,
          (htopc (k + 1 + t) (by omega) (by omega)).2, ?_⟩
        exact hactive (k + 1 + t) (by omega) (by omega) (by omega))
      (hrunnodup (k + 1) (b - k) (by omega) (by omega))
  have hnit1 : u₁.nitems = u.nitems := by
    unfold DLState.nitems
    rw [ih4]
  obtain ⟨s1r1, s1r2, s1r3, s1r4, s1r5, s1r6, s1r7, s1r8, s1r9⟩ := ih1.2.2.1 (a, b) hab
  -- lower-run hypotheses at u₁
  have hlowtop : ∀ t, t < k - a → u₁.top (a + t) = u.top (a + t) := by
    intro t ht
    exact ih5 (a + t) (by omega)
  have hlownotup : ∀ t, t < k - a →
      (u.top (a + t)).toNat ∉
        (List.range (b - k)).map (fun t' => (u.top (k + 1 + t')).toNat) := by
    intro t ht hmem
    rw [List.mem_map] at hmem
    obtain ⟨t', ht', he⟩ := hmem
    rw [List.mem_range] at ht'
    have h1 : a + t ∈ rowCells a b := (mem_rowCells a b (a + t)).mpr (by omega)
    have h2 : k + 1 + t' ∈ rowCells a b := (mem_rowCells a b (k + 1 + t')).mpr (by omega)
    have ht1 := htopc (a + t) (by omega) (by omega)
    have ht2 := htopc (k + 1 + t') (by omega) (by omega)
    have hte : u.top (a + t) = u.top (k + 1 + t') := by omega
    have := hinj h1 h2 hte
    omega
  obtain ⟨u₂, cols₂, jh1, jh2, jh3, jh4, jh5, jh6, jh7, jh8, jh9⟩ :=
    coverRunSeg n Rows k (k - a) a u₁
      (((List.range (b - k)).map (fun t => (u.top (k + 1 + t)).toNat)).reverse ++ K) cols₁
      ih1 ih2
      (fun t ht => by omega)
      (fun t ht => by
        rw [hlowtop t ht]
        refine ⟨by rw [hnit1]; omega, (htopc (a + t) (by omega) (by omega)).1,
          (htopc (a + t) (by omega) (by omega)).2, ?_⟩
        intro hmem
        rw [List.mem_append, List.mem_reverse] at hmem
        rcases hmem with hm | hm
        · exact hlownotup t ht hm
        · exact hactive (a + t) (by omega) (by omega) (by omega) hm)
      (by
        have he : ((List.range (k - a)).map (fun t => (u₁.top (a + t)).toNat)) =
            ((List.range (k - a)).map (fun t => (u.top (a + t)).toNat)) := by
          apply List.map_congr_left
          intro t ht
          rw [List.mem_range] at ht
          rw [hlowtop t ht]
        rw [he]
        exact hrunnodup a (k - a) (by omega) (by omega))
  have hlowmape : ((List.range (k - a)).map (fun t => (u₁.top (a + t)).toNat)) =
      ((List.range (k - a)).map (fun t => (u.top (a + t)).toNat)) := by
    apply List.map_congr_left
    intro t ht
    rw [List.mem_range] at ht
    rw [hlowtop t ht]
  have hwrapmap : (wrapCells a b k).map (fun c => (u.top c).toNat) =
      ((List.range (b - k)).map (fun t => (u.top (k + 1 + t)).toNat)) ++
      ((List.range (k - a)).map (fun t => (u.top (a + t)).toNat)) := by
    unfold wrapCells rowCells
    rw [List.map_append, List.map_map, List.map_map]
    have he1 : b + 1 - (k + 1) = b - k := by omega
    have he2 : k - 1 + 1 - a = k - a := by omega
    rw [he1, he2]
    rfl
  have hKfinal : ((List.range (k - a)).map (fun t => (u₁.top (a + t)).toNat)).reverse ++
      (((List.range (b - k)).map (fun t => (u.top (k + 1 + t)).toNat)).reverse ++ K) =
      ((wrapCells a b k).map (fun c => (u.top c).toNat)).reverse ++ K := by
    rw [hlowmape, hwrapmap, List.reverse_append, List.append_assoc]
  rw [hKfinal] at jh1 jh2
  refine ⟨u₂, cols₂, jh1, jh2, by rw [jh3, ih3], by rw [jh4, ih4], ?_, by rw [jh6, ih6],
    by rw [jh7, ih7], ?_, ?_⟩
  · intro r hr
    rw [jh5 r (by rw [hnit1]; exact hr), ih5 r hr]
  · -- forward
    intro fuel hfb
    have hbk : b - k ≤ u.nodes.length := by omega
    have hka : k - a ≤ u.nodes.length := by omega
    obtain ⟨F, hFeq, hFge⟩ : ∃ F, fuel = F + 1 + (k - a) + 1 + (b - k) ∧
        2 * u.nodes.length + 4 ≤ F := ⟨fuel - (b - k) - (k - a) - 2, by omega, by omega⟩
    subst hFeq
    rw [ih8 (F + 1 + (k - a) + 1) (by omega)]
    have hpos1 : k + 1 + (b - k) = b + 1 := by omega
    rw [hpos1]
    simp only [coverRowLoop]
    rw [if_neg (by omega : ¬b + 1 = k)]
    have hs4 : u₁.top (b + 1) ≤ 0 := s1r4
    have hs5 : u₁.ulink (b + 1) = a := s1r5
    rw [if_pos hs4, hs5]
    rw [jh8 (F + 1) (by rw [ih3]; omega)]
    have hpos2 : a + (k - a) = k := by omega
    rw [hpos2]
    simp [coverRowLoop]
  · -- backward
    intro fuel hfb
    have hbk : b - k ≤ u.nodes.length := by omega
    have hka : k - a ≤ u.nodes.length := by omega
    obtain ⟨F, hFeq, hFge⟩ : ∃ F, fuel = F + 1 + (b - k) + 1 + (k - a) ∧
        2 * u.nodes.length + 4 ≤ F := ⟨fuel - (b - k) - (k - a) - 2, by omega, by omega⟩
    subst hFeq
    have hpos1 : k - 1 = a + (k - a) - 1 := by omega
    rw [hpos1, jh9 (F + 1 + (b - k) + 1) (by rw [ih3]; omega)]
    simp only [uncoverRowLoop]
    rw [if_neg (by omega : ¬a - 1 = k)]
    have hs6 : u₁.top (a - 1) ≤ 0 := s1r6
    have hs7 : u₁.dlink (a - 1) = b := s1r7
    rw [if_pos hs6, hs7]
    have hgoal : uncoverRowLoop k (F + 1 + (b - k)) b u₁ =
        uncoverRowLoop k (F + 1 + (b - k)) (k + 1 + (b - k) - 1) u₁ := by
      rw [show k + 1 + (b - k) - 1 = b by omega]
    rw [hgoal, ih9 (F + 1) (by omega)]
    rw [show k + 1 - 1 = k by omega]
    simp [uncoverRowLoop]

/-- Choosing option `k` (row `(a,b)`, covering item `x` and the row's
other items) on top of a fragment that exactly covers the rest yields a
fragment exactly covering everything outside `K₀`. -/
theorem extGoodCons (u : DLState) (n : Nat) (Rows : List (Nat × Nat)) (K₀ : List Nat)
    (x a b k : Nat) (ext : List Nat)
    (hpw : Rows.Pairwise (fun ab ab' => ab.2 < ab'.1))
    (hst : rowStatic u (a, b)) (hni : u.nitems = n)
    (habR : (a, b) ∈ Rows) (hak : a ≤ k) (hkb : k ≤ b)
    (htopk : u.top k = (x : Int))
    (hother : ∀ c, a ≤ c → c ≤ b → c ≠ k → (u.top c).toNat ∉ x :: K₀)
    (hx1 : 1 ≤ x) (hx2 : x ≤ n) (hxK : x ∉ K₀)
    (hgood : ExtGood u n Rows
      (((wrapCells a b k).map (fun c => (u.top c).toNat)).reverse ++ (x :: K₀)) ext) :
    ExtGood u n Rows K₀ (k :: ext) := by
  obtain ⟨hg1, hg2, hg3⟩ := hgood
  obtain ⟨r1, r2, r3, r4, r5, r6, r7, r8, r9⟩ := hst
  have ha1 : 1 ≤ a := by omega
  have hfindk : rowFind Rows k = (a, b) := rowFind_eq Rows hpw (a, b) habR k hak hkb
  have hKmem : ∀ y : Nat, y ∈ ((wrapCells a b k).map (fun c => (u.top c).toNat)).reverse ++
      (x :: K₀) ↔ (y ∈ (wrapCells a b k).map (fun c => (u.top c).toNat) ∨ y = x ∨
        y ∈ K₀) := by
    intro y
    rw [List.mem_append, List.mem_reverse, List.mem_cons]
  have hitems_iff : ∀ y : Nat, ((y : Int) ∈ itemsOf u (a, b) ↔
      (y = x ∨ y ∈ (wrapCells a b k).map (fun c => (u.top c).toNat))) := by
    intro y
    unfold itemsOf
    rw [List.mem_map]
    constructor
    · rintro ⟨c, hc, htc⟩
      rw [mem_rowCells] at hc
      by_cases hck : c = k
      · subst hck
        rw [htopk] at htc
        left
        omega
      · right
        rw [List.mem_map]
        refine ⟨c, (mem_wrapCells a b k c ha1 hak hkb).mpr ⟨hc.1, hc.2, hck⟩, ?_⟩
        rw [htc]
        omega
    · rintro (rfl | hm)
      · exact ⟨k, (mem_rowCells a b k).mpr ⟨hak, hkb⟩, htopk⟩
      · rw [List.mem_map] at hm
        obtain ⟨c, hcw, htc⟩ := hm
        have hcr := (wrapCells_sub a b k ha1 hak hkb c hcw).1
        have hb := r8 c hcr
        refine ⟨c, hcr, ?_⟩
        omega
  refine ⟨?_, ?_, ?_⟩
  · intro k' hk'
    rcases List.mem_cons.mp hk' with rfl | hk'2
    · exact ⟨(a, b), habR, (mem_rowCells a b k').mpr ⟨hak, hkb⟩⟩
    · exact hg1 k' hk'2
  · intro y hy1 hy2 hyK
    by_cases hyrow : (y : Int) ∈ itemsOf u (a, b)
    · refine ⟨k, ⟨List.mem_cons_self k ext, by rw [hfindk]; exact hyrow⟩, ?_⟩
      rintro k'' ⟨hk''m, hk''c⟩
      rcases List.mem_cons.mp hk''m with rfl | hk''2
      · rfl
      · exfalso
        obtain ⟨y₂, hy₂e, hy₂1, hy₂2, hy₂K⟩ := hg3 k'' hk''2 (y : Int) hk''c
        have hyy : y₂ = y := by omega
        subst hyy
        apply hy₂K
        rw [hKmem]
        rcases (hitems_iff y₂).mp hyrow with he | hm
        · exact Or.inr (Or.inl he)
        · exact Or.inl hm
    · have hyK' : y ∉ ((wrapCells a b k).map (fun c => (u.top c).toNat)).reverse ++
          (x :: K₀) := by
        rw [hKmem]
        rintro (hm | rfl | hm)
        · exact hyrow ((hitems_iff y).mpr (Or.inr hm))
        · exact hyrow ((hitems_iff y).mpr (Or.inl rfl))
        · exact hyK hm
      obtain ⟨k'', ⟨hk''m, hk''c⟩, huniq⟩ := hg2 y hy1 hy2 hyK'
      refine ⟨k'', ⟨List.mem_cons_of_mem k hk''m, hk''c⟩, ?_⟩
      rintro k₃ ⟨hk₃m, hk₃c⟩
      rcases List.mem_cons.mp hk₃m with rfl | hk₃2
      · exfalso
        rw [hfindk] at hk₃c
        exact hyrow hk₃c
      · exact huniq k₃ ⟨hk₃2, hk₃c⟩
  · intro k' hk' z hz
    rcases List.mem_cons.mp hk' with rfl | hk'2
    · rw [hfindk] at hz
      unfold itemsOf at hz
      rw [List.mem_map] at hz
      obtain ⟨c, hc, htc⟩ := hz
      have hb := r8 c hc
      rw [mem_rowCells] at hc
      refine ⟨z.toNat, by omega, by omega, by omega, ?_⟩
      by_cases hck : c = k'
      · subst hck
        rw [htopk] at htc
        have : z.toNat = x := by omega
        rw [this]
        exact hxK
      · have := hother c hc.1 hc.2 hck
        rw [htc] at this
        intro hm
        exact this (List.mem_cons_of_mem x hm)
    · obtain ⟨y, hy1, hy2, hy3, hy4⟩ := hg3 k' hk'2 z hz
      refine ⟨y, hy1, hy2, hy3, ?_⟩
      intro hm
      apply hy4
      rw [hKmem]
      exact Or.inr (Or.inr hm)

/-- Two solution fragments choose the same set of option rows. -/
abbrev sameRows (Rows : List (Nat × Nat)) (E2 E : List Nat) : Prop :=
  ∀ ab : Nat × Nat, ab ∈ E2.map (rowFind Rows) ↔ ab ∈ E.map (rowFind Rows)

/-- When every item is already covered, only the empty fragment is a
valid solution fragment. -/
theorem ExtGood_nil (u : DLState) (n : Nat) (Rows : List (Nat × Nat)) (K : List Nat)
    (E : List Nat) (hg : ExtGood u n Rows K E)
    (hstat : ∀ ab ∈ Rows, rowStatic u ab)
    (hpw : Rows.Pairwise (fun ab ab2 => ab.2 < ab2.1))
    (hall : ∀ y, 1 ≤ y → y ≤ n → y ∈ K) : E = [] := by
  cases E with
  | nil => rfl
  | cons k E2 =>
    exfalso
    obtain ⟨ab, habR, hcells⟩ := hg.1 k (List.mem_cons_self k E2)
    have hkb := (mem_rowCells _ _ k).mp hcells
    have hfind : rowFind Rows k = ab := rowFind_eq Rows hpw ab habR k hkb.1 hkb.2
    have hab2 := (hstat ab habR).2.1
    have hz : u.top ab.1 ∈ itemsOf u (rowFind Rows k) := by
      rw [hfind]
      unfold itemsOf
      exact List.mem_map_of_mem u.top ((mem_rowCells _ _ ab.1).mpr ⟨le_refl _, hab2⟩)
    obtain ⟨y, hzy, hy1, hy2, hyK⟩ := hg.2.2 k (List.mem_cons_self k E2) _ hz
    exact hyK (hall y hy1 hy2)

/-- Deduplicating a solution fragment keeps it valid, duplicate-free, and
row-equivalent. -/
theorem ExtGood_dedup (u : DLState) (n : Nat) (Rows : List (Nat × Nat)) (K : List Nat)
    (E : List Nat) (hg : ExtGood u n Rows K E) :
    ExtGood u n Rows K E.dedup ∧ E.dedup.Nodup ∧ sameRows Rows E.dedup E := by
  obtain ⟨hg1, hg2, hg3⟩ := hg
  refine ⟨⟨fun k hk => hg1 k (List.mem_dedup.mp hk), ?_, ?_⟩, List.nodup_dedup E, ?_⟩
  · intro y hy1 hy2 hyK
    obtain ⟨k, ⟨hkE, hky⟩, huq⟩ := hg2 y hy1 hy2 hyK
    exact ⟨k, ⟨List.mem_dedup.mpr hkE, hky⟩, fun k2 hk2 =>
      huq k2 ⟨List.mem_dedup.mp hk2.1, hk2.2⟩⟩
  · exact fun k hk => hg3 k (List.mem_dedup.mp hk)
  · intro ab
    constructor
    · intro hm
      rw [List.mem_map] at hm ⊢
      obtain ⟨k, hk, hke⟩ := hm
      exact ⟨k, List.mem_dedup.mp hk, hke⟩
    · intro hm
      rw [List.mem_map] at hm ⊢
      obtain ⟨k, hk, hke⟩ := hm
      exact ⟨k, List.mem_dedup.mpr hk, hke⟩

/-- Removing the chosen option from a duplicate-free solution fragment
leaves a valid fragment for the enlarged covered set (the chosen row's
items). -/
theorem ExtGood_erase (u : DLState) (n : Nat) (Rows : List (Nat × Nat)) (K₀ K2 : List Nat)
    (E : List Nat) (hg : ExtGood u n Rows K₀ E) (hnd : E.Nodup)
    (k₀ : Nat) (hk₀ : k₀ ∈ E)
    (hK2 : ∀ y : Nat, y ∈ K2 ↔ (y ∈ K₀ ∨ (y : Int) ∈ itemsOf u (rowFind Rows k₀))) :
    ExtGood u n Rows K2 (E.erase k₀) := by
  obtain ⟨hg1, hg2, hg3⟩ := hg
  have hsubE : ∀ k, k ∈ E.erase k₀ → k ∈ E := fun k hk => List.mem_of_mem_erase hk
  have hne₀ : ∀ k, k ∈ E.erase k₀ → k ≠ k₀ := by
    intro k hk he
    rw [he] at hk
    exact (List.Nodup.not_mem_erase hnd) hk
  refine ⟨fun k hk => hg1 k (hsubE k hk), ?_, ?_⟩
  · intro y hy1 hy2 hyK2
    have hyK₀ : y ∉ K₀ := fun h => hyK2 ((hK2 y).mpr (Or.inl h))
    have hynr : (y : Int) ∉ itemsOf u (rowFind Rows k₀) :=
      fun h => hyK2 ((hK2 y).mpr (Or.inr h))
    obtain ⟨k, ⟨hkE, hky⟩, huq⟩ := hg2 y hy1 hy2 hyK₀
    have hkk₀ : k ≠ k₀ := by
      intro he
      rw [he] at hky
      exact hynr hky
    refine ⟨k, ⟨(List.mem_erase_of_ne hkk₀).mpr hkE, hky⟩, ?_⟩
    rintro k2 ⟨hk2, hky2⟩
    exact huq k2 ⟨hsubE k2 hk2, hky2⟩
  · intro k hk z hz
    obtain ⟨y, hzy, hy1, hy2, hyK₀⟩ := hg3 k (hsubE k hk) z hz
    refine ⟨y, hzy, hy1, hy2, ?_⟩
    intro hyK2
    rcases (hK2 y).mp hyK2 with h | h
    · exact hyK₀ h
    · obtain ⟨kc, -, huqq⟩ := hg2 y hy1 hy2 hyK₀
      have h1 : k = kc := huqq k ⟨hsubE k hk, by rw [← hzy]; exact hz⟩
      have h2 : k₀ = kc := huqq k₀ ⟨hk₀, h⟩
      exact (hne₀ k hk) (h1.trans h2.symm)


/-- The option loop of `rdance` on covered item `x`: walking `x`'s column
list, each option's row is covered, the recursive search (abstracted as
`rec`) explores it and restores the links, the row is uncovered, and the
walk continues; the state returns intact and every reported solution
extends the stack with a fragment exactly covering the uncovered items. -/
theorem rdanceOptsSeg (n : Nat) (Rows : List (Nat × Nat)) (x : Nat) (K₀ : List Nat)
    (rec : DLState → List Nat → Option (DLState × List (List Nat)))
    (hx1 : 1 ≤ x) (hx2 : x ≤ n) (hxK : x ∉ K₀) :
    ∀ (Q : List Nat) (fuel : Nat) (u : DLState) (cnt : Nat) (j : Nat)
      (cols : Nat → List Nat) (stack : List Nat),
    SearchInv u n Rows (x :: K₀) cols → Kwf n (x :: K₀) →
    vchain u x j Q = true →
    (∀ k ∈ Q, ∃ a b, (a, b) ∈ Rows ∧ a ≤ k ∧ k ≤ b ∧ u.top k = (x : Int) ∧
      (∀ c, a ≤ c → c ≤ b → c ≠ k → (u.top c).toNat ∉ x :: K₀)) →
    (∀ (u' : DLState) (K' : List Nat) (cols' : Nat → List Nat) (stack' : List Nat),
      SearchInv u' n Rows K' cols' → Kwf n K' → K₀.length < K'.length →
      u'.nodes.length = u.nodes.length →
      ∃ cnt' sols, rec u' stack' = some (setNc u' cnt', sols) ∧
        (∀ sol ∈ sols, ∃ ext, sol = stack' ++ ext ∧ ExtGood u' n Rows K' ext) ∧
        (∀ E2, ExtGood u' n Rows K' E2 → E2.Nodup →
          ∃ sol ∈ sols, ∃ E3, sol = stack' ++ E3 ∧ sameRows Rows E3 E2)) →
    3 * u.nodes.length + 8 + Q.length ≤ fuel →
    ∃ cnt' sols, rdanceOpts rec fuel x j (setNc u cnt) stack = some (setNc u cnt', sols) ∧
      (∀ sol ∈ sols, ∃ k ext, k ∈ Q ∧ sol = stack ++ (k :: ext) ∧
        ExtGood u n Rows K₀ (k :: ext)) ∧
      (∀ (E : List Nat) (k₀ c₀ : Nat), ExtGood u n Rows K₀ E → E.Nodup →
        k₀ ∈ E → c₀ ∈ Q → c₀ ∈ rowCells (rowFind Rows k₀).1 (rowFind Rows k₀).2 →
        ∃ sol ∈ sols, ∃ E2, sol = stack ++ E2 ∧ sameRows Rows E2 E)
  | [], fuel, u, cnt, j, cols, stack => fun hinv hKwf hch hopts hrec hfuel => by
    have hj : j = x := by simpa [vchain] using hch
    subst hj
    match fuel, hfuel with
    | 0, hfuel => exact absurd hfuel (by omega)
    | fuel + 1, _ =>
      refine ⟨cnt, [], ?_, ?_, ?_⟩
      · simp [rdanceOpts]
      · intro sol hsol
        cases hsol
      · intro E k₀ c₀ _ _ _ hc₀ _
        cases hc₀
  | k :: Q', fuel, u, cnt, j, cols, stack => fun hinv hKwf hch hopts hrec hfuel => by
    obtain ⟨hj, hch'⟩ := vchain_head u x Q' j k hch
    rw [hj]
    obtain ⟨a, b, habR, hak, hkb, htopk, hother⟩ := hopts k (List.mem_cons_self k Q')
    have hcopy := hinv
    obtain ⟨hni, hh0, hstat, hpw, hhl, hact2, hcOK2⟩ := hcopy
    obtain ⟨r1, r2, r3, r4, r5, r6, r7, r8, r9⟩ := hstat (a, b) habR
    have hkx : ¬k = x := by omega
    obtain ⟨u', cols', w1, w2, w3, w4, w5, w6, w7, w8, w9⟩ :=
      rowCoverRun n Rows u (x :: K₀) cols a b k hinv hKwf habR hak hkb hother
    match fuel, hfuel with
    | 0, hfuel => exact absurd hfuel (by omega)
    | fuel + 1, hfuel =>
      have hNf : 3 * u.nodes.length + 6 ≤ fuel := by
        simp only [List.length_cons] at hfuel
        omega
      have hfwd := w8 fuel hNf
      have hbwd := w9 fuel hNf
      have hKlen : K₀.length <
          (((wrapCells a b k).map (fun c => (u.top c).toNat)).reverse ++
            (x :: K₀)).length := by
        simp only [List.length_append, List.length_reverse, List.length_cons]
        omega
      obtain ⟨cnt₂, sols1, hrecEq, hgood1, hcomp1⟩ := hrec (setNc u' cnt)
        (((wrapCells a b k).map (fun c => (u.top c).toNat)).reverse ++ (x :: K₀))
        cols' (stack ++ [k])
        (SearchInv_setNc u' cnt n Rows _ cols' w1) w2 hKlen w3
      have hfuel' : 3 * u.nodes.length + 8 + Q'.length ≤ fuel := by
        simp only [List.length_cons] at hfuel
        omega
      obtain ⟨cnt₃, sols2, hIHeq, hgood2, hcomp2⟩ :=
        rdanceOptsSeg n Rows x K₀ rec hx1 hx2 hxK Q' fuel u cnt₂ (u.dlink k) cols stack
          hinv hKwf hch' (fun k' hk' => hopts k' (List.mem_cons_of_mem k hk')) hrec hfuel'
      refine ⟨cnt₃, sols1 ++ sols2, ?_, ?_, ?_⟩
      · simp only [rdanceOpts]
        rw [if_neg hkx]
        have hcond : (setNc u cnt).top k = (x : Int) := htopk
        rw [if_pos hcond]
        rw [coverRowLoop_setNc k fuel (k + 1) u cnt, hfwd]
        show (do
          let (s2, sols1') ← rec (setNc u' cnt) (stack ++ [k])
          let s3 ← uncoverRowLoop k fuel (k - 1) s2
          let (s4, sols2') ← rdanceOpts rec fuel x (s3.dlink k) s3 stack
          some (s4, sols1' ++ sols2')) = some (setNc u cnt₃, sols1 ++ sols2)
        rw [hrecEq]
        show (do
          let s3 ← uncoverRowLoop k fuel (k - 1) (setNc u' cnt₂)
          let (s4, sols2') ← rdanceOpts rec fuel x (s3.dlink k) s3 stack
          some (s4, sols1 ++ sols2')) = some (setNc u cnt₃, sols1 ++ sols2)
        rw [uncoverRowLoop_setNc k fuel (k - 1) u' cnt₂, hbwd]
        show (do
          let (s4, sols2') ← rdanceOpts rec fuel x ((setNc u cnt₂).dlink k)
            (setNc u cnt₂) stack
          some (s4, sols1 ++ sols2')) = some (setNc u cnt₃, sols1 ++ sols2)
        have hdl : (setNc u cnt₂).dlink k = u.dlink k := rfl
        rw [hdl, hIHeq]
        rfl
      · intro sol hsol
        rw [List.mem_append] at hsol
        rcases hsol with hs1 | hs2
        · obtain ⟨ext, hsoleq, hgext⟩ := hgood1 sol hs1
          refine ⟨k, ext, List.mem_cons_self k Q', ?_, ?_⟩
          · rw [hsoleq, List.append_assoc]
            rfl
          · have hgu' : ExtGood u' n Rows
                (((wrapCells a b k).map (fun c => (u.top c).toNat)).reverse ++
                  (x :: K₀)) ext :=
              ExtGood_transfer u' (setNc u' cnt) n Rows _ ext
                (fun ab _ => itemsOf_setNc u' cnt ab) hpw hgext
            have hitemsEq : ∀ ab ∈ Rows, itemsOf u' ab = itemsOf u ab := by
              intro ab hab
              refine itemsOf_transfer u u' ab w5 ?_
              have := (hstat ab hab).1
              omega
            have hgu : ExtGood u n Rows
                (((wrapCells a b k).map (fun c => (u.top c).toNat)).reverse ++
                  (x :: K₀)) ext :=
              ExtGood_transfer u u' n Rows _ ext hitemsEq hpw hgu'
            exact extGoodCons u n Rows K₀ x a b k ext hpw (hstat (a, b) habR) hni habR
              hak hkb htopk hother hx1 hx2 hxK hgu
        · obtain ⟨k₀, ext, hk₀, hsoleq, hgext⟩ := hgood2 sol hs2
          exact ⟨k₀, ext, List.mem_cons_of_mem k hk₀, hsoleq, hgext⟩
      · intro E k₀ c₀ hgE hndE hk₀E hc₀Q hc₀row
        rcases List.mem_cons.mp hc₀Q with hc₀k | hc₀Q2
        · rw [hc₀k] at hc₀row
          obtain ⟨ab₀, hab₀R, hk₀cells⟩ := hgE.1 k₀ hk₀E
          have hk₀b := (mem_rowCells _ _ k₀).mp hk₀cells
          have hfind₀ : rowFind Rows k₀ = ab₀ :=
            rowFind_eq Rows hpw ab₀ hab₀R k₀ hk₀b.1 hk₀b.2
          rw [hfind₀] at hc₀row
          have hkrow := (mem_rowCells _ _ k).mp hc₀row
          have habeq : ab₀ = (a, b) :=
            rows_disjoint_eq Rows hpw ab₀ (a, b) hab₀R habR k hkrow.1 hkrow.2 hak hkb
          have hfk : rowFind Rows k = (a, b) :=
            rowFind_eq Rows hpw (a, b) habR k hak hkb
          have ha1 : 1 ≤ a := by omega
          have hK2 : ∀ y : Nat,
              y ∈ ((wrapCells a b k).map (fun c => (u.top c).toNat)).reverse ++
                (x :: K₀) ↔
              (y ∈ K₀ ∨ (y : Int) ∈ itemsOf u (rowFind Rows k₀)) := by
            intro y
            rw [hfind₀, habeq]
            constructor
            · intro hy
              rcases List.mem_append.mp hy with hy | hy
              · rw [List.mem_reverse, List.mem_map] at hy
                obtain ⟨c, hcw, hce⟩ := hy
                have hcb := (mem_wrapCells a b k c ha1 hak hkb).mp hcw
                refine Or.inr ?_
                unfold itemsOf
                rw [List.mem_map]
                refine ⟨c, (mem_rowCells a b c).mpr ⟨hcb.1, hcb.2.1⟩, ?_⟩
                have := (r8 c ((mem_rowCells a b c).mpr ⟨hcb.1, hcb.2.1⟩)).1
                omega
              · rcases List.mem_cons.mp hy with hyx | hy
                · refine Or.inr ?_
                  unfold itemsOf
                  rw [List.mem_map]
                  refine ⟨k, (mem_rowCells a b k).mpr ⟨hak, hkb⟩, ?_⟩
                  rw [htopk, hyx]
                · exact Or.inl hy
            · intro hy
              rcases hy with hy | hy
              · exact List.mem_append_right _ (List.mem_cons_of_mem x hy)
              · unfold itemsOf at hy
                rw [List.mem_map] at hy
                obtain ⟨c, hcr, hce⟩ := hy
                have hcb := (mem_rowCells a b c).mp hcr
                by_cases hck : c = k
                · rw [hck, htopk] at hce
                  have hyx : y = x := by exact_mod_cast hce.symm
                  rw [hyx]
                  exact List.mem_append_right _ (List.mem_cons_self x K₀)
                · refine List.mem_append_left _ ?_
                  rw [List.mem_reverse, List.mem_map]
                  refine ⟨c, (mem_wrapCells a b k c ha1 hak hkb).mpr
                    ⟨hcb.1, hcb.2, hck⟩, ?_⟩
                  rw [hce]
                  simp
          have hgE2 : ExtGood u n Rows
              (((wrapCells a b k).map (fun c => (u.top c).toNat)).reverse ++ (x :: K₀))
              (E.erase k₀) :=
            ExtGood_erase u n Rows K₀ _ E hgE hndE k₀ hk₀E hK2
          have hitemsEq2 : ∀ ab2 ∈ Rows, itemsOf u ab2 = itemsOf (setNc u' cnt) ab2 := by
            intro ab2 hab2
            have h1 : itemsOf (setNc u' cnt) ab2 = itemsOf u' ab2 := itemsOf_setNc u' cnt ab2
            have h2 : itemsOf u' ab2 = itemsOf u ab2 := by
              refine itemsOf_transfer u u' ab2 w5 ?_
              have := (hstat ab2 hab2).1
              omega
            rw [h1, h2]
          have hgE2' : ExtGood (setNc u' cnt) n Rows
              (((wrapCells a b k).map (fun c => (u.top c).toNat)).reverse ++ (x :: K₀))
              (E.erase k₀) :=
            ExtGood_transfer (setNc u' cnt) u n Rows _ _ hitemsEq2 hpw hgE2
          obtain ⟨sol, hsolmem, E3, hsoleq, hsr⟩ :=
            hcomp1 (E.erase k₀) hgE2' (List.Nodup.erase k₀ hndE)
          refine ⟨sol, List.mem_append_left _ hsolmem, k :: E3, ?_, ?_⟩
          · rw [hsoleq, List.append_assoc]
            rfl
          · intro ab2
            rw [List.map_cons]
            constructor
            · intro hm
              rcases List.mem_cons.mp hm with he | hm2
              · rw [List.mem_map]
                refine ⟨k₀, hk₀E, ?_⟩
                rw [hfind₀, habeq, ← hfk]
                exact he.symm
              · have hm3 := (hsr ab2).mp hm2
                rw [List.mem_map] at hm3 ⊢
                obtain ⟨k2, hk2, hke⟩ := hm3
                exact ⟨k2, List.mem_of_mem_erase hk2, hke⟩
            · intro hm
              rw [List.mem_map] at hm
              obtain ⟨k2, hk2E, hke⟩ := hm
              by_cases he2 : k2 = k₀
              · refine List.mem_cons.mpr (Or.inl ?_)
                rw [← hke, he2, hfind₀, habeq, hfk]
              · refine List.mem_cons.mpr (Or.inr ((hsr ab2).mpr ?_))
                rw [List.mem_map]
                exact ⟨k2, (List.mem_erase_of_ne he2).mpr hk2E, hke⟩
        · obtain ⟨sol, hsolmem, E2, hsoleq, hsr⟩ :=
            hcomp2 E k₀ c₀ hgE hndE hk₀E hc₀Q2 hc₀row
          exact ⟨sol, List.mem_append_right _ hsolmem, E2, hsoleq, hsr⟩

/-- The master induction for `rdance`: from any state satisfying the
search invariant, the search returns with all links restored (only the
call counter moves) and every reported solution extends the entry stack
by a fragment exactly covering the still-uncovered items. -/
theorem rdance_master (n : Nat) (Rows : List (Nat × Nat)) :
    ∀ (fuel : Nat) (u : DLState) (K : List Nat) (cols : Nat → List Nat)
      (stack : List Nat),
    SearchInv u n Rows K cols → Kwf n K →
    (n + 1 - K.length) + 4 * u.nodes.length + n + 12 ≤ fuel →
    ∃ cnt sols, rdance fuel u stack = some (setNc u cnt, sols) ∧
      (∀ sol ∈ sols, ∃ ext, sol = stack ++ ext ∧ ExtGood u n Rows K ext) ∧
      (∀ E, ExtGood u n Rows K E →
        ∃ sol ∈ sols, ∃ E2, sol = stack ++ E2 ∧ sameRows Rows E2 E)
  | 0, u, K, cols, stack => fun _ _ hfuel => absurd hfuel (by omega)
  | fuel + 1, u, K, cols, stack => fun hinv hKwf hfuel => by
    have hcopy := hinv
    obtain ⟨hni, hh0, hstat, hpw, hhl, hact2, hcOK2⟩ := hcopy
    have h0A : (0 : Nat) ∉ activeList n K := by
      intro hm
      have := (mem_activeList n K 0).mp hm
      omega
    have hunfold : rdance (fuel + 1) u stack =
        (if (setNc u (u.ncount + 1)).rlink 0 = 0 then
          some (setNc u (u.ncount + 1), [stack])
        else do
          let i ← chooseitem fuel (setNc u (u.ncount + 1))
          let s1 ← cover fuel i (setNc u (u.ncount + 1))
          let (s2, sols) ← rdanceOpts (rdance fuel) fuel i (s1.dlink i) s1 stack
          let s3 ← uncover fuel i s2
          some (s3, sols)) := rfl
    by_cases h0 : (setNc u (u.ncount + 1)).rlink 0 = 0
    · have hAnil : activeList n K = [] := by
        have hu0 : u.rlink 0 = 0 := h0
        exact (hlinked_rlink0_iff u (activeList n K) hhl h0A).mp hu0
      refine ⟨u.ncount + 1, [stack], ?_, ?_, ?_⟩
      · rw [hunfold, if_pos h0]
      · intro sol hsol
        rcases List.mem_singleton.mp hsol with rfl
        refine ⟨[], (List.append_nil sol).symm, ?_, ?_, ?_⟩
        · intro k hk
          cases hk
        · intro y hy1 hy2 hyK
          exact absurd (activeList_eq_nil n K hAnil y hy1 hy2) hyK
        · intro k hk
          cases hk
      · intro E hgE
        have hE : E = [] := ExtGood_nil u n Rows K E hgE hstat hpw
          (fun y hy1 hy2 => activeList_eq_nil n K hAnil y hy1 hy2)
        refine ⟨stack, List.mem_singleton_self stack, [],
          (List.append_nil stack).symm, ?_⟩
        rw [hE]
        exact fun ab => Iff.rfl
    · have hinvS := SearchInv_setNc u (u.ncount + 1) n Rows K cols hinv
      obtain ⟨hniS, hh0S, hstatS, hpwS, hhlS, hact2S, hcOK2S⟩ := hinvS
      have hinvS' : SearchInv (setNc u (u.ncount + 1)) n Rows K cols :=
        ⟨hniS, hh0S, hstatS, hpwS, hhlS, hact2S, hcOK2S⟩
      have hchS : hchain (setNc u (u.ncount + 1))
          ((setNc u (u.ncount + 1)).rlink 0) (activeList n K) = true :=
        hlinked_hchain (setNc u (u.ncount + 1)) (activeList n K) 0 hhlS h0A
      have hAwf : Kwf n (activeList n K) := by
        refine ⟨activeList_nodup n K, ?_⟩
        intro y hy
        have := (mem_activeList n K y).mp hy
        exact ⟨this.1, this.2.1⟩
      have hAlen : (activeList n K).length ≤ n := Kwf_length n _ hAwf
      have hchoose : chooseitem fuel (setNc u (u.ncount + 1)) =
          some (chooseAcc (setNc u (u.ncount + 1)) ((setNc u (u.ncount + 1)).rlink 0)
            ((setNc u (u.ncount + 1)).len ((setNc u (u.ncount + 1)).rlink 0))
            (activeList n K)) :=
        chooseLoop_spec (setNc u (u.ncount + 1)) (activeList n K) fuel _ _ _ hchS
          (by omega)
      have hAne : activeList n K ≠ [] := by
        intro hA
        exact h0 ((hlinked_rlink0_iff u (activeList n K) hhl h0A).mpr hA)
      have hiA : chooseAcc (setNc u (u.ncount + 1)) ((setNc u (u.ncount + 1)).rlink 0)
          ((setNc u (u.ncount + 1)).len ((setNc u (u.ncount + 1)).rlink 0))
          (activeList n K) ∈ activeList n K := by
        rcases chooseAcc_mem (setNc u (u.ncount + 1)) (activeList n K)
          ((setNc u (u.ncount + 1)).rlink 0)
          ((setNc u (u.ncount + 1)).len ((setNc u (u.ncount + 1)).rlink 0)) with he | hm
        · rw [he]
          match hA : activeList n K, hAne with
          | a :: A', _ =>
            have hhl2 : hlinked (setNc u (u.ncount + 1)) 0 (a :: A') = true := by
              rw [← hA]
              exact hhlS
            simp only [hlinked, Bool.and_eq_true, decide_eq_true_eq] at hhl2
            have : (setNc u (u.ncount + 1)).rlink 0 = a := hhl2.1.1.1
            rw [this]
            exact List.mem_cons_self a A'
        · exact hm
      set iC := chooseAcc (setNc u (u.ncount + 1)) ((setNc u (u.ncount + 1)).rlink 0)
        ((setNc u (u.ncount + 1)).len ((setNc u (u.ncount + 1)).rlink 0))
        (activeList n K) with hiCdef
      obtain ⟨hi1, hi2, hiK⟩ := (mem_activeList n K iC).mp hiA
      obtain ⟨hCOK, hinv1, hKwf1, hlen1, hhlen1, htops1, hnrows1, hncount1, hvch1,
        hcolslen⟩ := coverInv (setNc u (u.ncount + 1)) n Rows K cols iC hinvS' hKwf
          hi1 hi2 hiK
      obtain ⟨c1, c2, c3, c4, c5, c6, c7, c8, c9, c10, c11, c12, c13, c14, c15, c16⟩ :=
        hCOK
      have hauxAt : ∀ fuel0, 2 * u.nodes.length + 2 ≤ fuel0 →
          cover fuel0 iC (setNc u (u.ncount + 1)) =
            some (coverResult (fun p => (rowFind Rows p).1) (fun p => (rowFind Rows p).2)
              iC (setNc u (u.ncount + 1)) (cols iC)) ∧
          uncover fuel0 iC (coverResult (fun p => (rowFind Rows p).1)
            (fun p => (rowFind Rows p).2) iC (setNc u (u.ncount + 1)) (cols iC)) =
            some (setNc u (u.ncount + 1)) := by
        intro fuel0 hb
        refine cover_uncover_aux (setNc u (u.ncount + 1)) iC (cols iC)
          (fun p => (rowFind Rows p).1) (fun p => (rowFind Rows p).2) fuel0
          ⟨c1, c2, c3, c4, c5, c6, c7, c8, c9, c10, c11, c12, c13, c14, c15, c16⟩ ?_ ?_
        · have : (setNc u (u.ncount + 1)).nodes.length = u.nodes.length := rfl
          rw [this] at hcolslen
          omega
        · intro p hp
          have hblen : (rowFind Rows p).2 + 1 < (setNc u (u.ncount + 1)).nodes.length :=
            (c15 p hp).2.2.2.2.1
          have hl : (setNc u (u.ncount + 1)).nodes.length = u.nodes.length := rfl
          rw [hl] at hblen
          have hcl : (cols iC).length ≤ u.nodes.length := by
            have : (setNc u (u.ncount + 1)).nodes.length = u.nodes.length := rfl
            rw [this] at hcolslen
            exact hcolslen
          show (rowFind Rows p).2 - (rowFind Rows p).1 + 2 + (cols iC).length + 1 ≤ fuel0
          omega
      set s1 := coverResult (fun p => (rowFind Rows p).1) (fun p => (rowFind Rows p).2)
        iC (setNc u (u.ncount + 1)) (cols iC) with hs1def
      have hs1len : s1.nodes.length = u.nodes.length := hlen1
      have hnitS : (setNc u (u.ncount + 1)).nitems = n := hniS
      have hoptdata : ∀ k ∈ cols iC, ∃ a b, (a, b) ∈ Rows ∧ a ≤ k ∧ k ≤ b ∧
          s1.top k = (iC : Int) ∧
          (∀ c, a ≤ c → c ≤ b → c ≠ k → (s1.top c).toNat ∉ iC :: K) := by
        intro k hk
        obtain ⟨hklen, hchk, hduk, hudk, hndk, htopsk, hmemk⟩ := hact2S iC hi1 hi2 hiK
        obtain ⟨ab, habR, halive, hcells, htopk⟩ := (hmemk k).mp hk
        obtain ⟨r1, r2, r3, r4, r5, r6, r7, r8, r9⟩ := hstatS ab habR
        have hinj := List.inj_on_of_nodup_map r9
        rw [mem_rowCells] at hcells
        refine ⟨ab.1, ab.2, by rw [Prod.mk.eta]; exact habR, hcells.1, hcells.2, ?_, ?_⟩
        · rw [htops1 k (by omega)]
          exact htopk
        · intro c hc1 hc2 hck
          rw [htops1 c (by omega)]
          intro hmem
          have hbc := r8 c ((mem_rowCells ab.1 ab.2 c).mpr ⟨hc1, hc2⟩)
          rcases List.mem_cons.mp hmem with he | hmK
          · have htc : (setNc u (u.ncount + 1)).top c = (iC : Int) := by omega
            exact hck (hinj ((mem_rowCells ab.1 ab.2 c).mpr ⟨hc1, hc2⟩)
              ((mem_rowCells ab.1 ab.2 k).mpr hcells) (htc.trans htopk.symm))
          · unfold rowAlive at halive
            rw [decide_eq_true_eq] at halive
            refine halive ((setNc u (u.ncount + 1)).top c).toNat hmK ?_
            unfold itemsOf
            rw [List.mem_map]
            refine ⟨c, (mem_rowCells ab.1 ab.2 c).mpr ⟨hc1, hc2⟩, ?_⟩
            omega
      have hrec : ∀ (u' : DLState) (K' : List Nat) (cols' : Nat → List Nat)
          (stack' : List Nat),
          SearchInv u' n Rows K' cols' → Kwf n K' → K.length < K'.length →
          u'.nodes.length = s1.nodes.length →
          ∃ cnt' sols, rdance fuel u' stack' = some (setNc u' cnt', sols) ∧
            (∀ sol ∈ sols, ∃ ext, sol = stack' ++ ext ∧ ExtGood u' n Rows K' ext) ∧
            (∀ E2, ExtGood u' n Rows K' E2 → E2.Nodup →
              ∃ sol ∈ sols, ∃ E3, sol = stack' ++ E3 ∧ sameRows Rows E3 E2) := by
        intro u' K' cols' stack' hinv' hKwf' hKlt hlen'
        obtain ⟨cnt', sols', heq', hsound', hcomp'⟩ :=
          rdance_master n Rows fuel u' K' cols' stack' hinv' hKwf' (by
            rw [hlen', hs1len]
            have hKlen := Kwf_length n K hKwf
            omega)
        exact ⟨cnt', sols', heq', hsound', fun E2 hg2 _ => hcomp' E2 hg2⟩
      have hfuelOpts : 3 * s1.nodes.length + 8 + (cols iC).length ≤ fuel := by
        rw [hs1len]
        have hcl : (cols iC).length ≤ u.nodes.length := by
          have : (setNc u (u.ncount + 1)).nodes.length = u.nodes.length := rfl
          rw [this] at hcolslen
          exact hcolslen
        omega
      obtain ⟨cnt₄, solsAll, heqO, hgoodO, hcompO⟩ :=
        rdanceOptsSeg n Rows iC K (rdance fuel) hi1 hi2 hiK (cols iC) fuel s1 s1.ncount
          (s1.dlink iC) (fun y => (cols y).filter (fun c' =>
            !(hiddenBy (fun p => (rowFind Rows p).1) (fun p => (rowFind Rows p).2)
              (cols iC) c'))) stack hinv1 hKwf1 hvch1 hoptdata hrec hfuelOpts
      rw [setNc_self] at heqO
      have huncS : uncover fuel iC (setNc s1 cnt₄) = some (setNc u cnt₄) := by
        rw [uncover_setNc, (hauxAt fuel (by omega)).2]
        rfl
      refine ⟨cnt₄, solsAll, ?_, ?_, ?_⟩
      · rw [hunfold, if_neg h0, hchoose]
        show (do
          let s1' ← cover fuel iC (setNc u (u.ncount + 1))
          let (s2, sols) ← rdanceOpts (rdance fuel) fuel iC (s1'.dlink iC) s1' stack
          let s3 ← uncover fuel iC s2
          some (s3, sols)) = some (setNc u cnt₄, solsAll)
        rw [(hauxAt fuel (by omega)).1]
        show (do
          let (s2, sols) ← rdanceOpts (rdance fuel) fuel iC (s1.dlink iC) s1 stack
          let s3 ← uncover fuel iC s2
          some (s3, sols)) = some (setNc u cnt₄, solsAll)
        rw [heqO]
        show (do
          let s3 ← uncover fuel iC (setNc s1 cnt₄)
          some (s3, solsAll)) = some (setNc u cnt₄, solsAll)
        rw [huncS]
        rfl
      · intro sol hsol
        obtain ⟨k, ext, hkQ, hsoleq, hgext⟩ := hgoodO sol hsol
        refine ⟨k :: ext, hsoleq, ?_⟩
        have hitemsEq : ∀ ab ∈ Rows, itemsOf s1 ab = itemsOf u ab := by
          intro ab hab
          have h1 : itemsOf s1 ab = itemsOf (setNc u (u.ncount + 1)) ab := by
            refine itemsOf_transfer (setNc u (u.ncount + 1)) s1 ab htops1 ?_
            have := (hstatS ab hab).1
            omega
          rw [h1]
          rfl
        exact ExtGood_transfer u s1 n Rows K (k :: ext) hitemsEq hpw hgext
      · intro E hgE
        obtain ⟨hgD, hndD, hsrD⟩ := ExtGood_dedup u n Rows K E hgE
        obtain ⟨k₀, hk₀pair, -⟩ := hgD.2.1 iC hi1 hi2 hiK
        obtain ⟨hk₀D, hk₀x⟩ := hk₀pair
        obtain ⟨ab₀, hab₀R, hk₀cells⟩ := hgD.1 k₀ hk₀D
        have hk₀b := (mem_rowCells _ _ k₀).mp hk₀cells
        have hfind₀ : rowFind Rows k₀ = ab₀ :=
          rowFind_eq Rows hpw ab₀ hab₀R k₀ hk₀b.1 hk₀b.2
        rw [hfind₀] at hk₀x
        have hx0 : (iC : Int) ∈ itemsOf u ab₀ := hk₀x
        unfold itemsOf at hx0
        rw [List.mem_map] at hx0
        obtain ⟨c₀, hc₀cells, hc₀top⟩ := hx0
        obtain ⟨hklen0, hchk0, hduk0, hudk0, hndk0, htopsk0, hmemk0⟩ :=
          hact2S iC hi1 hi2 hiK
        have halive₀ : rowAlive (setNc u (u.ncount + 1)) K ab₀ = true := by
          unfold rowAlive
          rw [decide_eq_true_eq]
          intro z hzK hz
          have hz2 : (z : Int) ∈ itemsOf u ab₀ := hz
          obtain ⟨y, hzy, hy1, hy2, hyK⟩ := hgD.2.2 k₀ hk₀D (z : Int)
            (by rw [hfind₀]; exact hz2)
          have hzy2 : z = y := by exact_mod_cast hzy
          rw [hzy2] at hzK
          exact hyK hzK
        have hc₀Q : c₀ ∈ cols iC :=
          (hmemk0 c₀).mpr ⟨ab₀, hab₀R, halive₀, hc₀cells, hc₀top⟩
        have hitemsRev : ∀ ab2 ∈ Rows, itemsOf u ab2 = itemsOf s1 ab2 := by
          intro ab2 hab2
          have h1 : itemsOf s1 ab2 = itemsOf (setNc u (u.ncount + 1)) ab2 := by
            refine itemsOf_transfer (setNc u (u.ncount + 1)) s1 ab2 htops1 ?_
            have := (hstatS ab2 hab2).1
            omega
          rw [h1]
          rfl
        have hgDs1 : ExtGood s1 n Rows K E.dedup :=
          ExtGood_transfer s1 u n Rows K E.dedup hitemsRev hpw hgD
        obtain ⟨sol, hsolmem, E2, hsoleq, hsr2⟩ := hcompO E.dedup k₀ c₀ hgDs1 hndD hk₀D
          hc₀Q (by rw [hfind₀]; exact hc₀cells)
        refine ⟨sol, hsolmem, E2, hsoleq, ?_⟩
        intro ab2
        rw [hsr2 ab2]
        exact hsrD ab2


/-- The master induction for the first-active-choice variant `rdanceF`:
the same restoration, soundness and completeness facts hold when the item
is always the first active one. -/
theorem rdanceF_master (n : Nat) (Rows : List (Nat × Nat)) :
    ∀ (fuel : Nat) (u : DLState) (K : List Nat) (cols : Nat → List Nat)
      (stack : List Nat),
    SearchInv u n Rows K cols → Kwf n K →
    (n + 1 - K.length) + 4 * u.nodes.length + n + 12 ≤ fuel →
    ∃ cnt sols, rdanceF fuel u stack = some (setNc u cnt, sols) ∧
      (∀ sol ∈ sols, ∃ ext, sol = stack ++ ext ∧ ExtGood u n Rows K ext) ∧
      (∀ E, ExtGood u n Rows K E →
        ∃ sol ∈ sols, ∃ E2, sol = stack ++ E2 ∧ sameRows Rows E2 E)
  | 0, u, K, cols, stack => fun _ _ hfuel => absurd hfuel (by omega)
  | fuel + 1, u, K, cols, stack => fun hinv hKwf hfuel => by
    have hcopy := hinv
    obtain ⟨hni, hh0, hstat, hpw, hhl, hact2, hcOK2⟩ := hcopy
    have h0A : (0 : Nat) ∉ activeList n K := by
      intro hm
      have := (mem_activeList n K 0).mp hm
      omega
    have hunfold : rdanceF (fuel + 1) u stack =
        (if (setNc u (u.ncount + 1)).rlink 0 = 0 then
          some (setNc u (u.ncount + 1), [stack])
        else do
          let s1 ← cover fuel ((setNc u (u.ncount + 1)).rlink 0) (setNc u (u.ncount + 1))
          let (s2, sols) ← rdanceOpts (rdanceF fuel) fuel
            ((setNc u (u.ncount + 1)).rlink 0)
            (s1.dlink ((setNc u (u.ncount + 1)).rlink 0)) s1 stack
          let s3 ← uncover fuel ((setNc u (u.ncount + 1)).rlink 0) s2
          some (s3, sols)) := rfl
    by_cases h0 : (setNc u (u.ncount + 1)).rlink 0 = 0
    · have hAnil : activeList n K = [] := by
        have hu0 : u.rlink 0 = 0 := h0
        exact (hlinked_rlink0_iff u (activeList n K) hhl h0A).mp hu0
      refine ⟨u.ncount + 1, [stack], ?_, ?_, ?_⟩
      · rw [hunfold, if_pos h0]
      · intro sol hsol
        rcases List.mem_singleton.mp hsol with rfl
        refine ⟨[], (List.append_nil sol).symm, ?_, ?_, ?_⟩
        · intro k hk
          cases hk
        · intro y hy1 hy2 hyK
          exact absurd (activeList_eq_nil n K hAnil y hy1 hy2) hyK
        · intro k hk
          cases hk
      · intro E hgE
        have hE : E = [] := ExtGood_nil u n Rows K E hgE hstat hpw
          (fun y hy1 hy2 => activeList_eq_nil n K hAnil y hy1 hy2)
        refine ⟨stack, List.mem_singleton_self stack, [],
          (List.append_nil stack).symm, ?_⟩
        rw [hE]
        exact fun ab => Iff.rfl
    · have hinvS := SearchInv_setNc u (u.ncount + 1) n Rows K cols hinv
      obtain ⟨hniS, hh0S, hstatS, hpwS, hhlS, hact2S, hcOK2S⟩ := hinvS
      have hinvS' : SearchInv (setNc u (u.ncount + 1)) n Rows K cols :=
        ⟨hniS, hh0S, hstatS, hpwS, hhlS, hact2S, hcOK2S⟩
      have hchS : hchain (setNc u (u.ncount + 1))
          ((setNc u (u.ncount + 1)).rlink 0) (activeList n K) = true :=
        hlinked_hchain (setNc u (u.ncount + 1)) (activeList n K) 0 hhlS h0A
      have hAwf : Kwf n (activeList n K) := by
        refine ⟨activeList_nodup n K, ?_⟩
        intro y hy
        have := (mem_activeList n K y).mp hy
        exact ⟨this.1, this.2.1⟩
      have hAlen : (activeList n K).length ≤ n := Kwf_length n _ hAwf
      have hAne : activeList n K ≠ [] := by
        intro hA
        exact h0 ((hlinked_rlink0_iff u (activeList n K) hhl h0A).mpr hA)
      have hiA : (setNc u (u.ncount + 1)).rlink 0 ∈ activeList n K := by
        match hA : activeList n K, hAne with
        | a :: A', _ =>
          have hhl2 : hlinked (setNc u (u.ncount + 1)) 0 (a :: A') = true := by
            rw [← hA]
            exact hhlS
          simp only [hlinked, Bool.and_eq_true, decide_eq_true_eq] at hhl2
          have hra : (setNc u (u.ncount + 1)).rlink 0 = a := hhl2.1.1.1
          rw [hra]
          exact List.mem_cons_self a A'
      set iC := (setNc u (u.ncount + 1)).rlink 0 with hiCdef
      obtain ⟨hi1, hi2, hiK⟩ := (mem_activeList n K iC).mp hiA
      obtain ⟨hCOK, hinv1, hKwf1, hlen1, hhlen1, htops1, hnrows1, hncount1, hvch1,
        hcolslen⟩ := coverInv (setNc u (u.ncount + 1)) n Rows K cols iC hinvS' hKwf
          hi1 hi2 hiK
      obtain ⟨c1, c2, c3, c4, c5, c6, c7, c8, c9, c10, c11, c12, c13, c14, c15, c16⟩ :=
        hCOK
      have hauxAt : ∀ fuel0, 2 * u.nodes.length + 2 ≤ fuel0 →
          cover fuel0 iC (setNc u (u.ncount + 1)) =
            some (coverResult (fun p => (rowFind Rows p).1) (fun p => (rowFind Rows p).2)
              iC (setNc u (u.ncount + 1)) (cols iC)) ∧
          uncover fuel0 iC (coverResult (fun p => (rowFind Rows p).1)
            (fun p => (rowFind Rows p).2) iC (setNc u (u.ncount + 1)) (cols iC)) =
            some (setNc u (u.ncount + 1)) := by
        intro fuel0 hb
        refine cover_uncover_aux (setNc u (u.ncount + 1)) iC (cols iC)
          (fun p => (rowFind Rows p).1) (fun p => (rowFind Rows p).2) fuel0
          ⟨c1, c2, c3, c4, c5, c6, c7, c8, c9, c10, c11, c12, c13, c14, c15, c16⟩ ?_ ?_
        · have : (setNc u (u.ncount + 1)).nodes.length = u.nodes.length := rfl
          rw [this] at hcolslen
          omega
        · intro p hp
          have hblen : (rowFind Rows p).2 + 1 < (setNc u (u.ncount + 1)).nodes.length :=
            (c15 p hp).2.2.2.2.1
          have hl : (setNc u (u.ncount + 1)).nodes.length = u.nodes.length := rfl
          rw [hl] at hblen
          have hcl : (cols iC).length ≤ u.nodes.length := by
            have : (setNc u (u.ncount + 1)).nodes.length = u.nodes.length := rfl
            rw [this] at hcolslen
            exact hcolslen
          show (rowFind Rows p).2 - (rowFind Rows p).1 + 2 + (cols iC).length + 1 ≤ fuel0
          omega
      set s1 := coverResult (fun p => (rowFind Rows p).1) (fun p => (rowFind Rows p).2)
        iC (setNc u (u.ncount + 1)) (cols iC) with hs1def
      have hs1len : s1.nodes.length = u.nodes.length := hlen1
      have hnitS : (setNc u (u.ncount + 1)).nitems = n := hniS
      have hoptdata : ∀ k ∈ cols iC, ∃ a b, (a, b) ∈ Rows ∧ a ≤ k ∧ k ≤ b ∧
          s1.top k = (iC : Int) ∧
          (∀ c, a ≤ c → c ≤ b → c ≠ k → (s1.top c).toNat ∉ iC :: K) := by
        intro k hk
        obtain ⟨hklen, hchk, hduk, hudk, hndk, htopsk, hmemk⟩ := hact2S iC hi1 hi2 hiK
        obtain ⟨ab, habR, halive, hcells, htopk⟩ := (hmemk k).mp hk
        obtain ⟨r1, r2, r3, r4, r5, r6, r7, r8, r9⟩ := hstatS ab habR
        have hinj := List.inj_on_of_nodup_map r9
        rw [mem_rowCells] at hcells
        refine ⟨ab.1, ab.2, by rw [Prod.mk.eta]; exact habR, hcells.1, hcells.2, ?_, ?_⟩
        · rw [htops1 k (by omega)]
          exact htopk
        · intro c hc1 hc2 hck
          rw [htops1 c (by omega)]
          intro hmem
          have hbc := r8 c ((mem_rowCells ab.1 ab.2 c).mpr ⟨hc1, hc2⟩)
          rcases List.mem_cons.mp hmem with he | hmK
          · have htc : (setNc u (u.ncount + 1)).top c = (iC : Int) := by omega
            exact hck (hinj ((mem_rowCells ab.1 ab.2 c).mpr ⟨hc1, hc2⟩)
              ((mem_rowCells ab.1 ab.2 k).mpr hcells) (htc.trans htopk.symm))
          · unfold rowAlive at halive
            rw [decide_eq_true_eq] at halive
            refine halive ((setNc u (u.ncount + 1)).top c).toNat hmK ?_
            unfold itemsOf
            rw [List.mem_map]
            refine ⟨c, (mem_rowCells ab.1 ab.2 c).mpr ⟨hc1, hc2⟩, ?_⟩
            omega
      have hrec : ∀ (u' : DLState) (K' : List Nat) (cols' : Nat → List Nat)
          (stack' : List Nat),
          SearchInv u' n Rows K' cols' → Kwf n K' → K.length < K'.length →
          u'.nodes.length = s1.nodes.length →
          ∃ cnt' sols, rdanceF fuel u' stack' = some (setNc u' cnt', sols) ∧
            (∀ sol ∈ sols, ∃ ext, sol = stack' ++ ext ∧ ExtGood u' n Rows K' ext) ∧
            (∀ E2, ExtGood u' n Rows K' E2 → E2.Nodup →
              ∃ sol ∈ sols, ∃ E3, sol = stack' ++ E3 ∧ sameRows Rows E3 E2) := by
        intro u' K' cols' stack' hinv' hKwf' hKlt hlen'
        obtain ⟨cnt', sols', heq', hsound', hcomp'⟩ :=
          rdanceF_master n Rows fuel u' K' cols' stack' hinv' hKwf' (by
            rw [hlen', hs1len]
            have hKlen := Kwf_length n K hKwf
            omega)
        exact ⟨cnt', sols', heq', hsound', fun E2 hg2 _ => hcomp' E2 hg2⟩
      have hfuelOpts : 3 * s1.nodes.length + 8 + (cols iC).length ≤ fuel := by
        rw [hs1len]
        have hcl : (cols iC).length ≤ u.nodes.length := by
          have : (setNc u (u.ncount + 1)).nodes.length = u.nodes.length := rfl
          rw [this] at hcolslen
          exact hcolslen
        omega
      obtain ⟨cnt₄, solsAll, heqO, hgoodO, hcompO⟩ :=
        rdanceOptsSeg n Rows iC K (rdanceF fuel) hi1 hi2 hiK (cols iC) fuel s1 s1.ncount
          (s1.dlink iC) (fun y => (cols y).filter (fun c' =>
            !(hiddenBy (fun p => (rowFind Rows p).1) (fun p => (rowFind Rows p).2)
              (cols iC) c'))) stack hinv1 hKwf1 hvch1 hoptdata hrec hfuelOpts
      rw [setNc_self] at heqO
      have huncS : uncover fuel iC (setNc s1 cnt₄) = some (setNc u cnt₄) := by
        rw [uncover_setNc, (hauxAt fuel (by omega)).2]
        rfl
      refine ⟨cnt₄, solsAll, ?_, ?_, ?_⟩
      · rw [hunfold, if_neg h0]
        show (do
          let s1' ← cover fuel iC (setNc u (u.ncount + 1))
          let (s2, sols) ← rdanceOpts (rdanceF fuel) fuel iC (s1'.dlink iC) s1' stack
          let s3 ← uncover fuel iC s2
          some (s3, sols)) = some (setNc u cnt₄, solsAll)
        rw [(hauxAt fuel (by omega)).1]
        show (do
          let (s2, sols) ← rdanceOpts (rdanceF fuel) fuel iC (s1.dlink iC) s1 stack
          let s3 ← uncover fuel iC s2
          some (s3, sols)) = some (setNc u cnt₄, solsAll)
        rw [heqO]
        show (do
          let s3 ← uncover fuel iC (setNc s1 cnt₄)
          some (s3, solsAll)) = some (setNc u cnt₄, solsAll)
        rw [huncS]
        rfl
      · intro sol hsol
        obtain ⟨k, ext, hkQ, hsoleq, hgext⟩ := hgoodO sol hsol
        refine ⟨k :: ext, hsoleq, ?_⟩
        have hitemsEq : ∀ ab ∈ Rows, itemsOf s1 ab = itemsOf u ab := by
          intro ab hab
          have h1 : itemsOf s1 ab = itemsOf (setNc u (u.ncount + 1)) ab := by
            refine itemsOf_transfer (setNc u (u.ncount + 1)) s1 ab htops1 ?_
            have := (hstatS ab hab).1
            omega
          rw [h1]
          rfl
        exact ExtGood_transfer u s1 n Rows K (k :: ext) hitemsEq hpw hgext
      · intro E hgE
        obtain ⟨hgD, hndD, hsrD⟩ := ExtGood_dedup u n Rows K E hgE
        obtain ⟨k₀, hk₀pair, -⟩ := hgD.2.1 iC hi1 hi2 hiK
        obtain ⟨hk₀D, hk₀x⟩ := hk₀pair
        obtain ⟨ab₀, hab₀R, hk₀cells⟩ := hgD.1 k₀ hk₀D
        have hk₀b := (mem_rowCells _ _ k₀).mp hk₀cells
        have hfind₀ : rowFind Rows k₀ = ab₀ :=
          rowFind_eq Rows hpw ab₀ hab₀R k₀ hk₀b.1 hk₀b.2
        rw [hfind₀] at hk₀x
        have hx0 : (iC : Int) ∈ itemsOf u ab₀ := hk₀x
        unfold itemsOf at hx0
        rw [List.mem_map] at hx0
        obtain ⟨c₀, hc₀cells, hc₀top⟩ := hx0
        obtain ⟨hklen0, hchk0, hduk0, hudk0, hndk0, htopsk0, hmemk0⟩ :=
          hact2S iC hi1 hi2 hiK
        have halive₀ : rowAlive (setNc u (u.ncount + 1)) K ab₀ = true := by
          unfold rowAlive
          rw [decide_eq_true_eq]
          intro z hzK hz
          have hz2 : (z : Int) ∈ itemsOf u ab₀ := hz
          obtain ⟨y, hzy, hy1, hy2, hyK⟩ := hgD.2.2 k₀ hk₀D (z : Int)
            (by rw [hfind₀]; exact hz2)
          have hzy2 : z = y := by exact_mod_cast hzy
          rw [hzy2] at hzK
          exact hyK hzK
        have hc₀Q : c₀ ∈ cols iC :=
          (hmemk0 c₀).mpr ⟨ab₀, hab₀R, halive₀, hc₀cells, hc₀top⟩
        have hitemsRev : ∀ ab2 ∈ Rows, itemsOf u ab2 = itemsOf s1 ab2 := by
          intro ab2 hab2
          have h1 : itemsOf s1 ab2 = itemsOf (setNc u (u.ncount + 1)) ab2 := by
            refine itemsOf_transfer (setNc u (u.ncount + 1)) s1 ab2 htops1 ?_
            have := (hstatS ab2 hab2).1
            omega
          rw [h1]
          rfl
        have hgDs1 : ExtGood s1 n Rows K E.dedup :=
          ExtGood_transfer s1 u n Rows K E.dedup hitemsRev hpw hgD
        obtain ⟨sol, hsolmem, E2, hsoleq, hsr2⟩ := hcompO E.dedup k₀ c₀ hgDs1 hndD hk₀D
          hc₀Q (by rw [hfind₀]; exact hc₀cells)
        refine ⟨sol, hsolmem, E2, hsoleq, ?_⟩
        intro ab2
        rw [hsr2 ab2]
        exact hsrD ab2


theorem getD_concat (l : List DNode) (v : DNode) (j : Nat) :
    (l ++ [v]).getD j default = if j = l.length then v else l.getD j default := by
  simp only [List.getD, List.get?_eq_getElem?, List.getElem?_append]
  by_cases hlt : j < l.length
  · rw [if_pos hlt, if_neg (by omega : ¬ j = l.length)]
  · rw [if_neg hlt]
    by_cases hj : j = l.length
    · subst hj
      simp
    · rw [if_neg hj]
      have h2 : l.length ≤ j := by omega
      have h3 : (([v] : List DNode))[j - l.length]? = none :=
        List.getElem?_eq_none (by
          have hlen1 : ([v] : List DNode).length = 1 := rfl
          omega)
      rw [h3, List.getElem?_eq_none h2]

theorem top_push (s : DLState) (v : DNode) (j : Nat) :
    ({ s with nodes := s.nodes ++ [v] } : DLState).top j =
      if j = s.nodes.length then v.data else s.top j := by
  unfold DLState.top
  simp only []
  rw [getD_concat]
  by_cases hj : j = s.nodes.length
  · rw [if_pos hj, if_pos hj]
  · rw [if_neg hj, if_neg hj]

theorem ulink_push (s : DLState) (v : DNode) (j : Nat) :
    ({ s with nodes := s.nodes ++ [v] } : DLState).ulink j =
      if j = s.nodes.length then v.prev else s.ulink j := by
  unfold DLState.ulink
  simp only []
  rw [getD_concat]
  by_cases hj : j = s.nodes.length
  · rw [if_pos hj, if_pos hj]
  · rw [if_neg hj, if_neg hj]

theorem dlink_push (s : DLState) (v : DNode) (j : Nat) :
    ({ s with nodes := s.nodes ++ [v] } : DLState).dlink j =
      if j = s.nodes.length then v.next else s.dlink j := by
  unfold DLState.dlink
  simp only []
  rw [getD_concat]
  by_cases hj : j = s.nodes.length
  · rw [if_pos hj, if_pos hj]
  · rw [if_neg hj, if_neg hj]

theorem headers_push (s : DLState) (v : DNode) :
    ({ s with nodes := s.nodes ++ [v] } : DLState).headers = s.headers := rfl

theorem length_push (s : DLState) (v : DNode) :
    ({ s with nodes := s.nodes ++ [v] } : DLState).nodes.length = s.nodes.length + 1 := by
  simp

/-- Splicing a well-tagged cell `q` in between two nodes that currently
link to each other keeps every other linked cell linked. -/
theorem cellOK_spliceIn_ins (t : DLState) (q c : Nat) (hq : cellTagOK t q)
    (hadj1 : t.dlink (t.ulink q) = t.dlink q) (hadj2 : t.ulink (t.dlink q) = t.ulink q)
    (hqu : t.ulink q ≠ q) (hqd : t.dlink q ≠ q)
    (hc : cellOK t c) (hne : c ≠ q) : cellOK (spliceIn t q) c := by
  obtain ⟨hct, hcdu, hcud⟩ := hc
  have hc2 : c < t.nodes.length := hct.2.1
  obtain ⟨hq1, hq2, hqe1, hqe2, hqx, ⟨hqub, hqucol⟩, ⟨hqdb, hqdcol⟩⟩ := hq
  have hulc : (spliceIn t q).ulink c =
      if t.dlink q = c then q else t.ulink c := by
    rw [ulink_spliceIn]
    by_cases he : t.dlink q = c
    · rw [if_pos ⟨he, hqdb⟩, if_pos he]
    · rw [if_neg (fun hcon => he hcon.1), if_neg he]
  have hdlc : (spliceIn t q).dlink c =
      if t.ulink q = c then q else t.dlink c := by
    rw [dlink_spliceIn]
    by_cases he : t.ulink q = c
    · rw [if_pos ⟨he, hqub⟩, if_pos he]
    · rw [if_neg (fun hcon => he hcon.1), if_neg he]
  refine ⟨cellTagOK_spliceIn t q c
    ⟨hq1, hq2, hqe1, hqe2, hqx, ⟨hqub, hqucol⟩, ⟨hqdb, hqdcol⟩⟩ hct, ?_, ?_⟩
  · rw [hulc]
    by_cases he : t.dlink q = c
    · rw [if_pos he, dlink_spliceIn, if_neg (fun hcon => hqu hcon.1)]
      exact he
    · rw [if_neg he, dlink_spliceIn]
      rw [if_neg]
      · exact hcdu
      · rintro ⟨hw, -⟩
        apply he
        rw [← hadj1, hw]
        exact hcdu
  · rw [hdlc]
    by_cases he : t.ulink q = c
    · rw [if_pos he, ulink_spliceIn, if_neg (fun hcon => hqd hcon.1)]
      exact he
    · rw [if_neg he, ulink_spliceIn]
      rw [if_neg]
      · exact hcud
      · rintro ⟨hw, -⟩
        apply he
        rw [← hadj2, hw]
        exact hcud

/-- After splicing `q` in, `q` itself is a linked cell. -/
theorem cellOK_spliceIn_self (t : DLState) (q : Nat) (hq : cellTagOK t q)
    (hqu : t.ulink q ≠ q) (hqd : t.dlink q ≠ q) : cellOK (spliceIn t q) q := by
  obtain ⟨hq1, hq2, hqe1, hqe2, hqx, ⟨hqub, hqucol⟩, ⟨hqdb, hqdcol⟩⟩ := hq
  refine ⟨cellTagOK_spliceIn t q q
    ⟨hq1, hq2, hqe1, hqe2, hqx, ⟨hqub, hqucol⟩, ⟨hqdb, hqdcol⟩⟩
    ⟨hq1, hq2, hqe1, hqe2, hqx, ⟨hqub, hqucol⟩, ⟨hqdb, hqdcol⟩⟩, ?_, ?_⟩
  · have h1 : (spliceIn t q).ulink q = t.ulink q := by
      rw [ulink_spliceIn, if_neg (fun hcon => hqd hcon.1)]
    rw [h1, dlink_spliceIn, if_pos ⟨rfl, hqub⟩]
  · have h1 : (spliceIn t q).dlink q = t.dlink q := by
      rw [dlink_spliceIn, if_neg (fun hcon => hqu hcon.1)]
    rw [h1, ulink_spliceIn, if_pos ⟨rfl, hqdb⟩]

/-- Splicing in a cell of a foreign column, between two nodes that link to
each other, leaves a column's live chain untouched. -/
theorem ColC_frame_spliceIn (s : DLState) (y : Nat) (L : List Nat) (hcol : ColC s y L)
    (q : Nat) (hq : cellTagOK s q) (hne : (s.top q).toNat ≠ y)
    (hadj1 : s.dlink (s.ulink q) = s.dlink q) (hadj2 : s.ulink (s.dlink q) = s.ulink q)
    (hqu : s.ulink q ≠ q) (hqd : s.dlink q ≠ q) :
    ColC (spliceIn s q) y L := by
  obtain ⟨hy1, hy2, hy3, hch, hdu, hud, hnd, htops, hOKs⟩ := hcol
  have hytag : (y = y ∧ y ≤ s.nitems) ∨ (s.nitems < y ∧ s.top y = (y : Int)) :=
    Or.inl ⟨rfl, hy2⟩
  have hyfr0 := ytag_not_target s q hq y y hytag (Ne.symm hne)
  obtain ⟨hf1, hf2, hf3⟩ := spliceIn_frame s q y hyfr0.1 hyfr0.2.1 hyfr0.2.2
  have hmfr : ∀ m ∈ L, (spliceIn s q).top m = s.top m ∧
      (spliceIn s q).ulink m = s.ulink m ∧ (spliceIn s q).dlink m = s.dlink m := by
    intro m hm
    have hmtag : (m = y ∧ y ≤ s.nitems) ∨ (s.nitems < m ∧ s.top m = (y : Int)) :=
      Or.inr ⟨(hOKs m hm).1.1, htops m hm⟩
    have h := ytag_not_target s q hq y m hmtag (Ne.symm hne)
    exact spliceIn_frame s q m h.1 h.2.1 h.2.2
  have hUtag : (s.ulink y = y ∧ y ≤ s.nitems) ∨
      (s.nitems < s.ulink y ∧ s.top (s.ulink y) = (y : Int)) := by
    match L, hch, hnd, htops, hOKs with
    | [], hch, _, _, _ =>
      have hdy : s.dlink y = y := by simpa [vchain] using hch
      rw [hdy] at hud
      exact Or.inl ⟨hud, hy2⟩
    | l0 :: L0, hch, hnd, htops, hOKs =>
      have hlast := vchain_getLast s y (l0 :: L0) (s.dlink y) hch (by simp) l0
      have hlmem := getLastD_mem (l0 :: L0) l0 (by simp)
      have hlOK := hOKs _ hlmem
      have huy : s.ulink y = (l0 :: L0).getLastD l0 := by
        have h2 := hlOK.2.2
        rw [hlast] at h2
        exact h2
      rw [huy]
      exact Or.inr ⟨hlOK.1.1, htops _ hlmem⟩
  have hDtag : (s.dlink y = y ∧ y ≤ s.nitems) ∨
      (s.nitems < s.dlink y ∧ s.top (s.dlink y) = (y : Int)) := by
    match L, hch, htops, hOKs with
    | [], hch, _, _ =>
      have hdy : s.dlink y = y := by simpa [vchain] using hch
      exact Or.inl ⟨hdy, hy2⟩
    | l0 :: L0, hch, htops, hOKs =>
      have hdy : s.dlink y = l0 := (vchain_head s y L0 (s.dlink y) l0 hch).1
      rw [hdy]
      exact Or.inr ⟨(hOKs l0 (List.mem_cons_self l0 L0)).1.1,
        htops l0 (List.mem_cons_self l0 L0)⟩
  have hUfr0 := ytag_not_target s q hq y (s.ulink y) hUtag (Ne.symm hne)
  obtain ⟨-, -, hUfr⟩ := spliceIn_frame s q (s.ulink y) hUfr0.1 hUfr0.2.1 hUfr0.2.2
  have hDfr0 := ytag_not_target s q hq y (s.dlink y) hDtag (Ne.symm hne)
  obtain ⟨-, hDfr, -⟩ := spliceIn_frame s q (s.dlink y) hDfr0.1 hDfr0.2.1 hDfr0.2.2
  refine ⟨hy1, by rw [nitems_spliceIn]; exact hy2,
    by rw [nodes_length_spliceIn]; exact hy3, ?_, ?_, ?_, hnd, ?_, ?_⟩
  · rw [hf3, vchain_transfer s (spliceIn s q) y L (s.dlink y) (fun p hp => (hmfr p hp).2.2)]
    exact hch
  · rw [hf2, hUfr]
    exact hdu
  · rw [hf3, hDfr]
    exact hud
  · intro m hm
    rw [(hmfr m hm).1]
    exact htops m hm
  · intro m hm
    have hmq : m ≠ q := by
      intro he
      apply hne
      have := htops m hm
      rw [← he, this]
      simp
    exact cellOK_spliceIn_ins s q m hq hadj1 hadj2 hqu hqd (hOKs m hm) hmq

/-- The header's upward neighbor in a live column is the chain's last cell
(or the header itself when the column is empty): either way it carries the
column's tag. -/
theorem ColC_ulink_tag (s : DLState) (y : Nat) (L : List Nat) (hcol : ColC s y L) :
    (s.ulink y = y ∧ y ≤ s.nitems) ∨
      (s.nitems < s.ulink y ∧ s.top (s.ulink y) = (y : Int)) := by
  obtain ⟨hy1, hy2, hy3, hch, hdu, hud, hnd, htops, hOKs⟩ := hcol
  match L, hch, hnd, htops, hOKs with
  | [], hch, _, _, _ =>
    have hdy : s.dlink y = y := by simpa [vchain] using hch
    rw [hdy] at hud
    exact Or.inl ⟨hud, hy2⟩
  | l0 :: L0, hch, hnd, htops, hOKs =>
    have hlast := vchain_getLast s y (l0 :: L0) (s.dlink y) hch (by simp) l0
    have hlmem := getLastD_mem (l0 :: L0) l0 (by simp)
    have hlOK := hOKs _ hlmem
    have huy : s.ulink y = (l0 :: L0).getLastD l0 := by
      have h2 := hlOK.2.2
      rw [hlast] at h2
      exact h2
    rw [huy]
    exact Or.inr ⟨hlOK.1.1, htops _ hlmem⟩

/-- The header's downward neighbor in a live column is the chain's first
cell (or the header itself): either way it carries the column's tag. -/
theorem ColC_dlink_tag (s : DLState) (y : Nat) (L : List Nat) (hcol : ColC s y L) :
    (s.dlink y = y ∧ y ≤ s.nitems) ∨
      (s.nitems < s.dlink y ∧ s.top (s.dlink y) = (y : Int)) := by
  obtain ⟨hy1, hy2, hy3, hch, hdu, hud, hnd, htops, hOKs⟩ := hcol
  match L, hch, htops, hOKs with
  | [], hch, _, _ =>
    have hdy : s.dlink y = y := by simpa [vchain] using hch
    exact Or.inl ⟨hdy, hy2⟩
  | l0 :: L0, hch, htops, hOKs =>
    have hdy : s.dlink y = l0 := (vchain_head s y L0 (s.dlink y) l0 hch).1
    rw [hdy]
    exact Or.inr ⟨(hOKs l0 (List.mem_cons_self l0 L0)).1.1,
      htops l0 (List.mem_cons_self l0 L0)⟩

/-- Reading a node past the end of the array yields the default node. -/
theorem top_oob (s : DLState) (j : Nat) (h : s.nodes.length ≤ j) : s.top j = 0 := by
  rw [DLState.top, List.getD_eq_default _ _ h]
  rfl

/-- A linked cell stays linked in a larger state that agrees on it and on
its two vertical neighbors. -/
theorem cellOK_grow (s t : DLState) (hlen : s.nodes.length ≤ t.nodes.length)
    (hni : t.nitems = s.nitems)
    (htops : ∀ r, s.nitems < r → r < s.nodes.length → t.top r = s.top r)
    (c : Nat) (hc : cellOK s c)
    (hu : t.ulink c = s.ulink c) (hd : t.dlink c = s.dlink c)
    (hud2 : t.dlink (s.ulink c) = s.dlink (s.ulink c))
    (hdu2 : t.ulink (s.dlink c) = s.ulink (s.dlink c)) :
    cellOK t c := by
  obtain ⟨⟨h1, h2, h3, h4, h5, ⟨hub, hcu⟩, ⟨hdb, hcd⟩⟩, hcdu, hcud⟩ := hc
  have htc : t.top c = s.top c := htops c h1 h2
  refine ⟨⟨by omega, by omega, by rw [htc]; exact h3, by rw [htc, hni]; exact h4,
    by rw [htc]; omega, ?_, ?_⟩, ?_, ?_⟩
  · rw [htc, hu]
    refine ⟨by omega, ?_⟩
    rcases hcu with hcu | ⟨hcu1, hcu2⟩
    · exact Or.inl hcu
    · exact Or.inr ⟨by omega, by rw [htops _ hcu1 hub]; exact hcu2⟩
  · rw [htc, hd]
    refine ⟨by omega, ?_⟩
    rcases hcd with hcd | ⟨hcd1, hcd2⟩
    · exact Or.inl hcd
    · exact Or.inr ⟨by omega, by rw [htops _ hcd1 hdb]; exact hcd2⟩
  · rw [hu, hud2]
    exact hcdu
  · rw [hd, hdu2]
    exact hcud

/-- A live column transfers to a larger state that agrees on cell tops and
on the links of the header and of every positively tagged node. -/
theorem ColC_grow (s t : DLState) (y : Nat) (L : List Nat) (hcol : ColC s y L)
    (hlen : s.nodes.length ≤ t.nodes.length) (hni : t.nitems = s.nitems)
    (htops : ∀ r, s.nitems < r → r < s.nodes.length → t.top r = s.top r)
    (hfr : ∀ r, r < s.nodes.length → (r = y ∨ (s.nitems < r ∧ s.top r = (y : Int))) →
      t.ulink r = s.ulink r ∧ t.dlink r = s.dlink r) :
    ColC t y L := by
  have hUtag := ColC_ulink_tag s y L hcol
  have hDtag := ColC_dlink_tag s y L hcol
  obtain ⟨hy1, hy2, hy3, hch, hdu, hud, hnd, htops0, hOKs⟩ := hcol
  have hmemfr : ∀ m ∈ L, t.ulink m = s.ulink m ∧ t.dlink m = s.dlink m := by
    intro m hm
    have hOK := hOKs m hm
    exact hfr m hOK.1.2.1 (Or.inr ⟨hOK.1.1, htops0 m hm⟩)
  have hyfr := hfr y hy3 (Or.inl rfl)
  have hUfr : t.ulink (s.ulink y) = s.ulink (s.ulink y) ∧
      t.dlink (s.ulink y) = s.dlink (s.ulink y) := by
    rcases hUtag with ⟨he, -⟩ | ⟨hgt, htg⟩
    · rw [he]
      exact hyfr
    · refine hfr (s.ulink y) ?_ (Or.inr ⟨hgt, htg⟩)
      by_contra hge
      have hoob : s.top (s.ulink y) = 0 := top_oob s (s.ulink y) (by omega)
      rw [hoob] at htg
      omega
  have hDfr : t.ulink (s.dlink y) = s.ulink (s.dlink y) ∧
      t.dlink (s.dlink y) = s.dlink (s.dlink y) := by
    rcases hDtag with ⟨he, -⟩ | ⟨hgt, htg⟩
    · rw [he]
      exact hyfr
    · refine hfr (s.dlink y) ?_ (Or.inr ⟨hgt, htg⟩)
      by_contra hge
      have hoob : s.top (s.dlink y) = 0 := top_oob s (s.dlink y) (by omega)
      rw [hoob] at htg
      omega
  refine ⟨hy1, by omega, by omega, ?_, ?_, ?_, hnd, ?_, ?_⟩
  · rw [hyfr.2, vchain_transfer s t y L (s.dlink y) (fun p hp => (hmemfr p hp).2)]
    exact hch
  · rw [hyfr.1, hUfr.2]
    exact hdu
  · rw [hyfr.2, hDfr.1]
    exact hud
  · intro m hm
    have hOK := hOKs m hm
    rw [htops m hOK.1.1 hOK.1.2.1]
    exact htops0 m hm
  · intro m hm
    have hOK := hOKs m hm
    have hmu : t.dlink (s.ulink m) = s.dlink (s.ulink m) := by
      rcases hOK.1.2.2.2.2.2.1.2 with he | ⟨hgt, htg⟩
      · rw [he]
        have hx : (s.top m).toNat = y := by rw [htops0 m hm]; simp
        rw [hx]
        exact hyfr.2
      · exact (hfr (s.ulink m) hOK.1.2.2.2.2.2.1.1 (Or.inr ⟨hgt, by
          rw [htg]
          have hx : (s.top m).toNat = y := by rw [htops0 m hm]; simp
          rw [hx]⟩)).2
    have hmd : t.ulink (s.dlink m) = s.ulink (s.dlink m) := by
      rcases hOK.1.2.2.2.2.2.2.2 with he | ⟨hgt, htg⟩
      · rw [he]
        have hx : (s.top m).toNat = y := by rw [htops0 m hm]; simp
        rw [hx]
        exact hyfr.1
      · exact (hfr (s.dlink m) hOK.1.2.2.2.2.2.2.1 (Or.inr ⟨hgt, by
          rw [htg]
          have hx : (s.top m).toNat = y := by rw [htops0 m hm]; simp
          rw [hx]⟩)).1
    exact cellOK_grow s t hlen hni htops m hOK (hmemfr m hm).1 (hmemfr m hm).2 hmu hmd


theorem lastindex_push (s : DLState) (v : DNode) :
    ({ s with nodes := s.nodes ++ [v] } : DLState).lastindex = s.nodes.length := by
  show (s.nodes ++ [v]).length - 1 = s.nodes.length
  simp

theorem addrowStep_top2 (s : DLState) (i : Nat)
    (hx_lt : i + 1 < s.nodes.length) (hub_lt : s.ulink (i + 1) < s.nodes.length) (j : Nat) :
    (addrowStep s i '1').top j =
      if i + 1 = j then s.top (i + 1) + 1
      else if j = s.nodes.length then ((i + 1 : Nat) : Int) else s.top j := by
  simp only [addrowStep, reduceIte, lastindex_push, ulink_push, dlink_push, top_push,
    length_push, setDlink_nodes_length, setUlink_nodes_length, setLen_nodes_length,
    top_setLen, top_setUlink, top_setDlink, dlink_setDlink, ulink_setDlink,
    dlink_setUlink, ulink_setUlink, ulink_setLen, dlink_setLen, DLState.len,
    List.length_append, List.length_singleton,
    (by omega : ¬ i + 1 = s.nodes.length),
    (by omega : ¬ s.ulink (i + 1) = s.nodes.length)]
  split_ifs <;> first | rfl | omega

theorem addrowStep_ulink2 (s : DLState) (i : Nat)
    (hx_lt : i + 1 < s.nodes.length) (hub_lt : s.ulink (i + 1) < s.nodes.length) (j : Nat) :
    (addrowStep s i '1').ulink j =
      if i + 1 = j then s.nodes.length
      else if j = s.nodes.length then s.ulink (i + 1) else s.ulink j := by
  simp only [addrowStep, reduceIte, lastindex_push, ulink_push, dlink_push, top_push,
    length_push, setDlink_nodes_length, setUlink_nodes_length, setLen_nodes_length,
    top_setLen, top_setUlink, top_setDlink, dlink_setDlink, ulink_setDlink,
    dlink_setUlink, ulink_setUlink, ulink_setLen, dlink_setLen, DLState.len,
    List.length_append, List.length_singleton,
    (by omega : ¬ i + 1 = s.nodes.length),
    (by omega : ¬ s.ulink (i + 1) = s.nodes.length)]
  split_ifs <;> first | rfl | omega

theorem addrowStep_dlink2 (s : DLState) (i : Nat)
    (hx_lt : i + 1 < s.nodes.length) (hub_lt : s.ulink (i + 1) < s.nodes.length) (j : Nat) :
    (addrowStep s i '1').dlink j =
      if s.ulink (i + 1) = j then s.nodes.length
      else if j = s.nodes.length then i + 1 else s.dlink j := by
  simp only [addrowStep, reduceIte, lastindex_push, ulink_push, dlink_push, top_push,
    length_push, setDlink_nodes_length, setUlink_nodes_length, setLen_nodes_length,
    top_setLen, top_setUlink, top_setDlink, dlink_setDlink, ulink_setDlink,
    dlink_setUlink, ulink_setUlink, ulink_setLen, dlink_setLen, DLState.len,
    List.length_append, List.length_singleton,
    (by omega : ¬ i + 1 = s.nodes.length),
    (by omega : ¬ s.ulink (i + 1) = s.nodes.length)]
  split_ifs <;> first | rfl | omega

theorem addrowStep_len2 (s : DLState) (i : Nat) :
    (addrowStep s i '1').nodes.length = s.nodes.length + 1 := by
  simp [addrowStep, setDlink_nodes_length, setUlink_nodes_length, setLen_nodes_length]

theorem addrowStep_headers2 (s : DLState) (i : Nat) (c : Char) :
    (addrowStep s i c).headers = s.headers := by
  by_cases h : c = '1' <;>
    simp [addrowStep, h, DLState.setLen, DLState.setUlink, DLState.setDlink]

theorem addrowStep_nrows2 (s : DLState) (i : Nat) (c : Char) :
    (addrowStep s i c).nrows = s.nrows ∧ (addrowStep s i c).ncount = s.ncount := by
  by_cases h : c = '1' <;> constructor <;>
    simp [addrowStep, h, DLState.setLen, DLState.setUlink, DLState.setDlink]

/-- Appending a new last cell to a column chain: if the state `t` agrees
with `s` on the chain except that the old last cell (the header's upward
neighbor) now points down at `q`, and `q` points down at the header, the
chain gains `q` at the end. -/
theorem vchain_snoc (s t : DLState) (y q : Nat)
    (hub : s.dlink (s.ulink y) = y)
    (hdq : t.dlink q = y) (hdub : t.dlink (s.ulink y) = q) :
    ∀ (P : List Nat) (j : Nat), vchain s y j P = true →
      (∀ p ∈ P, cellOK s p) → (∀ p ∈ P, s.nitems < p) → y ≤ s.nitems →
      (∀ p ∈ P, p ≠ s.ulink y → t.dlink p = s.dlink p) →
      P ≠ [] →
      vchain t y j (P ++ [q]) = true
  | [], _, _, _, _, _, _, hne => absurd rfl hne
  | p :: P', j, hP, hOKs, hgt, hy2, hfr, _ => by
    obtain ⟨hj, hch'⟩ := vchain_head s y P' j p hP
    by_cases hp : p = s.ulink y
    · have hP' : P' = [] := by
        match P', hch', hgt with
        | [], _, _ => rfl
        | p' :: P'', hch', hgt =>
          have hh : s.dlink p = p' := (vchain_head s y P'' (s.dlink p) p' hch').1
          rw [hp, hub] at hh
          have := hgt p' (List.mem_cons_of_mem p (List.mem_cons_self p' P''))
          omega
      subst hP'
      have h1 : t.dlink p = q := by rw [hp]; exact hdub
      simp [vchain, hj, h1, hdq]
    · have h1 : t.dlink p = s.dlink p :=
        hfr p (List.mem_cons_self p P') hp
      have hP'ne : P' ≠ [] := by
        intro he
        rw [he] at hch'
        have h2 : s.dlink p = y := by simpa [vchain] using hch'
        have h3 := (hOKs p (List.mem_cons_self p P')).2.2
        rw [h2] at h3
        exact hp h3.symm
      have hrec := vchain_snoc s t y q hub hdq hdub P' (s.dlink p) hch'
        (fun m hm => hOKs m (List.mem_cons_of_mem p hm))
        (fun m hm => hgt m (List.mem_cons_of_mem p hm)) hy2
        (fun m hm => hfr m (List.mem_cons_of_mem p hm)) hP'ne
      rw [List.cons_append]
      show (decide (j = p) && vchain t y (t.dlink p) (P' ++ [q])) = true
      rw [h1]
      simp [hj, hrec]

/-- One `'1'` step of the `addrow` loop: the new cell is appended at the
bottom of its item's column; every other column, and every linked cell, is
untouched. -/
theorem addrowStep_one (s : DLState) (i : Nat) (Lx : List Nat)
    (hx2 : i + 1 ≤ s.nitems) (hnit : s.nitems + 1 < s.nodes.length)
    (hcol : ColC s (i + 1) Lx) :
    ColC (addrowStep s i '1') (i + 1) (Lx ++ [s.nodes.length]) ∧
    (∀ y Ly, 1 ≤ y → y ≤ s.nitems → y ≠ i + 1 → ColC s y Ly →
      ColC (addrowStep s i '1') y Ly) ∧
    (∀ c, cellOK s c → cellOK (addrowStep s i '1') c) ∧
    (∀ r, s.nitems < r → r < s.nodes.length → (addrowStep s i '1').top r = s.top r) ∧
    (addrowStep s i '1').top s.nodes.length = ((i + 1 : Nat) : Int) ∧
    (∀ r, s.nitems < r → r < s.nodes.length → s.top r ≤ 0 →
      (addrowStep s i '1').ulink r = s.ulink r ∧
      (addrowStep s i '1').dlink r = s.dlink r) := by
  have hUtag := ColC_ulink_tag s (i + 1) Lx hcol
  have hDtag := ColC_dlink_tag s (i + 1) Lx hcol
  obtain ⟨hy1, hy2, hy3, hch, hdu, hud, hnd, htops0, hOKs⟩ := hcol
  have hub_lt : s.ulink (i + 1) < s.nodes.length := by
    rcases hUtag with ⟨he, -⟩ | ⟨hgt, htg⟩
    · omega
    · by_contra hge
      rw [top_oob s (s.ulink (i + 1)) (by omega)] at htg
      omega
  have hx_lt : i + 1 < s.nodes.length := by omega
  have htopf := addrowStep_top2 s i hx_lt hub_lt
  have hulf := addrowStep_ulink2 s i hx_lt hub_lt
  have hdlf := addrowStep_dlink2 s i hx_lt hub_lt
  have hlenf := addrowStep_len2 s i
  have hnif : (addrowStep s i '1').nitems = s.nitems := by
    show (addrowStep s i '1').headers.length - 1 = s.nitems
    rw [addrowStep_headers2]
    rfl
  have hLgt : s.nitems < s.nodes.length := by omega
  have htopL : (addrowStep s i '1').top s.nodes.length = ((i + 1 : Nat) : Int) := by
    rw [htopf, if_neg (by omega), if_pos rfl]
  have htop_old : ∀ r, s.nitems < r → r < s.nodes.length →
      (addrowStep s i '1').top r = s.top r := by
    intro r h1 h2
    rw [htopf, if_neg (by omega), if_neg (by omega)]
  have hmem_lt : ∀ m ∈ Lx, s.nitems < m ∧ m < s.nodes.length := by
    intro m hm
    exact ⟨(hOKs m hm).1.1, (hOKs m hm).1.2.1⟩
  have hcellOK : ∀ c, cellOK s c → cellOK (addrowStep s i '1') c := by
    intro c hc
    obtain ⟨⟨hc1, hc2, hce1, hce2, hcx, ⟨hcub, hcu⟩, ⟨hcdb, hcd⟩⟩, hcdu, hcud⟩ := hc
    have htc : (addrowStep s i '1').top c = s.top c := htop_old c hc1 hc2
    have huc : (addrowStep s i '1').ulink c = s.ulink c := by
      rw [hulf, if_neg (by omega), if_neg (by omega)]
    have hdc : (addrowStep s i '1').dlink c =
        if s.ulink (i + 1) = c then s.nodes.length else s.dlink c := by
      rw [hdlf]
      by_cases he : s.ulink (i + 1) = c
      · rw [if_pos he, if_pos he]
      · rw [if_neg he, if_neg (by omega), if_neg he]
    have hdusame : s.ulink (i + 1) = c → (s.top c).toNat = i + 1 := by
      intro he
      rcases hUtag with ⟨hq, -⟩ | ⟨-, htg⟩
      · omega
      · rw [he] at htg
        rw [htg]
        simp
    refine ⟨⟨by omega, by rw [hlenf]; omega, by rw [htc]; exact hce1,
      by rw [htc, hnif]; exact hce2, by rw [htc, hlenf]; omega, ?_, ?_⟩, ?_, ?_⟩
    · rw [htc, huc]
      refine ⟨by rw [hlenf]; omega, ?_⟩
      rcases hcu with hcu | ⟨hcu1, hcu2⟩
      · exact Or.inl hcu
      · refine Or.inr ⟨by rw [hnif]; omega, ?_⟩
        rw [htop_old _ hcu1 hcub]
        exact hcu2
    · rw [htc, hdc]
      by_cases he : s.ulink (i + 1) = c
      · rw [if_pos he]
        refine ⟨by rw [hlenf]; omega, Or.inr ⟨by rw [hnif]; omega, ?_⟩⟩
        rw [htopL, hdusame he]
      · rw [if_neg he]
        refine ⟨by rw [hlenf]; omega, ?_⟩
        rcases hcd with hcd | ⟨hcd1, hcd2⟩
        · exact Or.inl hcd
        · refine Or.inr ⟨by rw [hnif]; omega, ?_⟩
          rw [htop_old _ hcd1 hcdb]
          exact hcd2
    · rw [huc, hdlf]
      rw [if_neg, if_neg (by omega)]
      · exact hcdu
      · intro he
        rw [he] at hdu
        rw [hcdu] at hdu
        omega
    · rw [hdc]
      by_cases he : s.ulink (i + 1) = c
      · rw [if_pos he, hulf, if_neg (by omega), if_pos rfl, he]
      · rw [if_neg he, hulf, if_neg, if_neg (by omega)]
        · exact hcud
        · intro he2
          rw [← he2] at hcud
          exact he hcud
  have hspacer : ∀ r, s.nitems < r → r < s.nodes.length → s.top r ≤ 0 →
      (addrowStep s i '1').ulink r = s.ulink r ∧
      (addrowStep s i '1').dlink r = s.dlink r := by
    intro r h1 h2 h3
    constructor
    · rw [hulf, if_neg (by omega), if_neg (by omega)]
    · rw [hdlf, if_neg ?_, if_neg (by omega)]
      intro he
      rcases hUtag with ⟨hq, -⟩ | ⟨-, htg⟩
      · omega
      · rw [he] at htg
        omega
  refine ⟨?_, ?_, hcellOK, htop_old, htopL, hspacer⟩
  · have hdLq : (addrowStep s i '1').dlink s.nodes.length = i + 1 := by
      rw [hdlf, if_neg (by omega), if_pos rfl]
    have hdub : (addrowStep s i '1').dlink (s.ulink (i + 1)) = s.nodes.length := by
      rw [hdlf, if_pos rfl]
    have hulL : (addrowStep s i '1').ulink s.nodes.length = s.ulink (i + 1) := by
      rw [hulf, if_neg (by omega), if_pos rfl]
    have hulx : (addrowStep s i '1').ulink (i + 1) = s.nodes.length := by
      rw [hulf, if_pos rfl]
    refine ⟨hy1, by rw [hnif]; exact hy2, by rw [hlenf]; omega, ?_, ?_, ?_, ?_, ?_, ?_⟩
    · -- the chain
      match Lx, hch, hud, hnd, htops0, hOKs with
      | [], hch, hud, _, _, _ =>
        have hdy : s.dlink (i + 1) = i + 1 := by simpa [vchain] using hch
        have huy : s.ulink (i + 1) = i + 1 := by rw [hdy] at hud; exact hud
        have hdx : (addrowStep s i '1').dlink (i + 1) = s.nodes.length := by
          rw [hdlf, if_pos huy]
        simp [vchain, hdx, hdLq]
      | l0 :: L0, hch, hud, hnd, htops0, hOKs =>
        have hne : s.ulink (i + 1) ≠ i + 1 := by
          intro he
          rw [he] at hdu
          have h3 : s.dlink (i + 1) = l0 :=
            (vchain_head s (i + 1) L0 (s.dlink (i + 1)) l0 hch).1
          have := ((hOKs l0 (List.mem_cons_self l0 L0)).1.1 : s.nitems < l0)
          omega
        have hdx : (addrowStep s i '1').dlink (i + 1) = s.dlink (i + 1) := by
          rw [hdlf, if_neg hne, if_neg (by omega)]
        rw [hdx]
        exact vchain_snoc s (addrowStep s i '1') (i + 1) s.nodes.length hdu hdLq hdub
          (l0 :: L0) (s.dlink (i + 1)) hch hOKs
          (fun m hm => (hOKs m hm).1.1) hy2
          (fun m hm hmne => by
            have hb1 := (hOKs m hm).1.1
            have hb2 := (hOKs m hm).1.2.1
            rw [hdlf, if_neg (fun he => hmne he.symm), if_neg (by omega)])
          (by simp)
    · rw [hulx, hdLq]
    · match Lx, hch, hud, hnd, htops0, hOKs with
      | [], hch, hud, _, _, _ =>
        have hdy : s.dlink (i + 1) = i + 1 := by simpa [vchain] using hch
        have huy : s.ulink (i + 1) = i + 1 := by rw [hdy] at hud; exact hud
        have hdx : (addrowStep s i '1').dlink (i + 1) = s.nodes.length := by
          rw [hdlf, if_pos huy]
        rw [hdx, hulL, huy]
      | l0 :: L0, hch, hud, hnd, htops0, hOKs =>
        have hl0a : s.nitems < l0 := (hOKs l0 (List.mem_cons_self l0 L0)).1.1
        have hl0b : l0 < s.nodes.length := (hOKs l0 (List.mem_cons_self l0 L0)).1.2.1
        have h3 : s.dlink (i + 1) = l0 :=
          (vchain_head s (i + 1) L0 (s.dlink (i + 1)) l0 hch).1
        have hne : s.ulink (i + 1) ≠ i + 1 := by
          intro he
          rw [he] at hdu
          omega
        have hdx : (addrowStep s i '1').dlink (i + 1) = l0 := by
          rw [hdlf, if_neg hne, if_neg (by omega)]
          exact h3
        rw [hdx, hulf, if_neg (by omega), if_neg (by omega)]
        rw [← h3]
        exact hud
    · rw [List.nodup_append]
      refine ⟨hnd, List.nodup_singleton _, ?_⟩
      intro m hm hm1
      have := hmem_lt m hm
      simp only [List.mem_singleton] at hm1
      omega
    · intro m hm
      rcases List.mem_append.mp hm with hm | hm
      · have hb := hmem_lt m hm
        rw [htop_old m hb.1 hb.2]
        exact htops0 m hm
      · simp only [List.mem_singleton] at hm
        subst hm
        exact htopL
    · intro m hm
      rcases List.mem_append.mp hm with hm | hm
      · exact hcellOK m (hOKs m hm)
      · simp only [List.mem_singleton] at hm
        subst hm
        refine ⟨⟨by omega, by rw [hlenf]; omega, by rw [htopL]; omega,
          by rw [htopL, hnif]; exact_mod_cast hx2, ?_, ?_, ?_⟩, ?_, ?_⟩
        · rw [htopL, hlenf]
          simp only [Int.toNat_natCast]
          omega
        · rw [htopL, hulL]
          simp only [Int.toNat_natCast]
          refine ⟨by rw [hlenf]; omega, ?_⟩
          rcases hUtag with ⟨he, -⟩ | ⟨hgt, htg⟩
          · exact Or.inl he
          · refine Or.inr ⟨by rw [hnif]; omega, ?_⟩
            rw [htop_old _ hgt hub_lt]
            exact htg
        · rw [htopL, hdLq]
          simp only [Int.toNat_natCast]
          exact ⟨by rw [hlenf]; omega, Or.inl rfl⟩
        · rw [hulL, hdub]
        · rw [hdLq, hulx]
  · intro y Ly hy1' hy2' hyne hcoly
    refine ColC_grow s (addrowStep s i '1') y Ly hcoly (by omega) hnif htop_old ?_
    intro r hr hrtag
    have hrne_x : r ≠ i + 1 := by
      rcases hrtag with rfl | ⟨hgt, -⟩
      · exact hyne
      · omega
    have hrne_ub : s.ulink (i + 1) ≠ r := by
      intro he
      rcases hUtag with ⟨hq, -⟩ | ⟨hgt2, htg2⟩
      · rcases hrtag with rfl | ⟨hgt, -⟩
        · rw [hq] at he
          exact hyne he.symm
        · omega
      · rcases hrtag with rfl | ⟨hgt, htg⟩
        · omega
        · rw [he, htg] at htg2
          have : y = i + 1 := by exact_mod_cast htg2
          exact hyne this
    constructor
    · rw [hulf, if_neg (fun he => hrne_x he.symm), if_neg (by omega)]
    · rw [hdlf, if_neg hrne_ub, if_neg (by omega)]


theorem addrowStep_skip (s : DLState) (i : Nat) (c : Char) (hc : c ≠ '1') :
    addrowStep s i c = s := by
  simp [addrowStep, hc]

/-- The character fold of `addrow`: headers, counters, old cell tops,
old spacer links and all linked cells survive; the nodes pushed past the
old end carry exactly the items of the `'1'` positions in order; and each
item's column gains exactly its new cells, at the bottom. -/
theorem addrowFoldInv (n : Nat) (l : List (Nat × Char)) :
    ∀ (s t : DLState) (cols : Nat → List Nat),
    t = l.foldl (fun u p => addrowStep u p.1 p.2) s →
    s.nitems = n → n + 1 < s.nodes.length →
    (∀ p ∈ l, p.1 + 1 ≤ n) →
    (∀ y, 1 ≤ y → y ≤ n → ColC s y (cols y)) →
    ∃ cols2 : Nat → List Nat,
      t.headers = s.headers ∧ t.nrows = s.nrows ∧ t.ncount = s.ncount ∧
      s.nodes.length ≤ t.nodes.length ∧
      (∀ j, n < j → j < s.nodes.length → t.top j = s.top j) ∧
      (∀ j, n < j → j < s.nodes.length → s.top j ≤ 0 →
        t.ulink j = s.ulink j ∧ t.dlink j = s.dlink j) ∧
      (∀ c, cellOK s c → cellOK t c) ∧
      ((rowCells s.nodes.length (t.nodes.length - 1)).map t.top =
        (l.filter (fun p => p.2 = '1')).map (fun p => ((p.1 + 1 : Nat) : Int))) ∧
      (∀ y, 1 ≤ y → y ≤ n → ColC t y (cols2 y) ∧
        cols2 y = cols y ++ (rowCells s.nodes.length (t.nodes.length - 1)).filter
          (fun c => decide (t.top c = (y : Int)))) ∧
      (∀ c ∈ rowCells s.nodes.length (t.nodes.length - 1), cellOK t c) := by
  induction l with
  | nil =>
    intro s t cols ht hni hlen hbnd hcols
    subst ht
    have hempty : rowCells t.nodes.length (t.nodes.length - 1) = [] :=
      rowCells_empty _ _ (by omega)
    refine ⟨cols, rfl, rfl, rfl, le_refl _, fun j h1 h2 => rfl,
      fun j h1 h2 h3 => ⟨rfl, rfl⟩, fun c hc => hc, by simp [hempty], ?_, by simp [hempty]⟩
    intro y hy1 hy2
    refine ⟨hcols y hy1 hy2, ?_⟩
    rw [hempty]
    simp
  | cons p l ih =>
    intro s t cols ht hni hlen hbnd hcols
    obtain ⟨i, c⟩ := p
    rw [List.foldl_cons] at ht
    by_cases hc : c = '1'
    · subst hc
      have hx2 : i + 1 ≤ s.nitems := by
        rw [hni]
        exact hbnd ⟨i, '1'⟩ (List.mem_cons_self _ _)
      have hnit : s.nitems + 1 < s.nodes.length := by rw [hni]; omega
      have hcolx : ColC s (i + 1) (cols (i + 1)) :=
        hcols (i + 1) (by omega) (by omega)
      obtain ⟨hColNew, hColOther, hOKpres, hTopOld, hTopL, hSpacer⟩ :=
        addrowStep_one s i (cols (i + 1)) hx2 hnit hcolx
      have hlen1 : (addrowStep s i '1').nodes.length = s.nodes.length + 1 :=
        addrowStep_len2 s i
      have hhd1 : (addrowStep s i '1').headers = s.headers := addrowStep_headers2 s i '1'
      have hni1 : (addrowStep s i '1').nitems = n := by
        show (addrowStep s i '1').headers.length - 1 = n
        rw [hhd1]
        exact hni
      obtain ⟨cols2, ih1, ih2, ih3, ih4, ih5, ih6, ih7, ih8, ih9, ih10⟩ :=
        ih (addrowStep s i '1') t
          (fun y => if y = i + 1 then cols y ++ [s.nodes.length] else cols y) ht hni1
          (by rw [hlen1]; omega)
          (fun q hq => hbnd q (List.mem_cons_of_mem _ hq))
          (by
            intro y hy1 hy2
            show ColC (addrowStep s i '1') y
              (if y = i + 1 then cols y ++ [s.nodes.length] else cols y)
            by_cases hy : y = i + 1
            · subst hy
              rw [if_pos rfl]
              exact hColNew
            · rw [if_neg hy]
              exact hColOther y (cols y) hy1 (by omega) hy (hcols y hy1 hy2))
      have hrows2 := addrowStep_nrows2 s i '1'
      have hle : s.nodes.length ≤ t.nodes.length - 1 := by omega
      have hhead : t.top s.nodes.length = ((i + 1 : Nat) : Int) := by
        rw [ih5 s.nodes.length (by omega) (by omega)]
        exact hTopL
      refine ⟨cols2, ih1.trans hhd1, ih2.trans hrows2.1, ih3.trans hrows2.2,
        by omega, ?_, ?_, ?_, ?_, ?_, ?_⟩
      · intro j h1 h2
        exact (ih5 j h1 (by omega)).trans (hTopOld j (by omega) h2)
      · intro j h1 h2 h3
        have hs := hSpacer j (by omega) h2 h3
        have ht6 := ih6 j h1 (by omega) (by rw [hTopOld j (by omega) h2]; exact h3)
        exact ⟨ht6.1.trans hs.1, ht6.2.trans hs.2⟩
      · exact fun c hcOK => ih7 c (hOKpres c hcOK)
      · rw [rowCells_cons _ _ hle, List.map_cons, hhead]
        have htail : (rowCells (s.nodes.length + 1) (t.nodes.length - 1)).map t.top =
            (l.filter (fun p => p.2 = '1')).map (fun p => ((p.1 + 1 : Nat) : Int)) := by
          rw [← hlen1]
          exact ih8
        rw [htail]
        simp [List.filter_cons]
      · intro y hy1 hy2
        obtain ⟨hColt, hformula⟩ := ih9 y hy1 hy2
        refine ⟨hColt, ?_⟩
        by_cases hy : y = i + 1
        · rw [hformula, if_pos hy, rowCells_cons _ _ hle, List.filter_cons]
          have hcond : (decide (t.top s.nodes.length = (y : Int))) = true := by
            rw [hhead, hy]
            simp
          rw [hcond]
          simp only [reduceIte]
          rw [← hlen1, List.append_assoc]
          subst hy
          rfl
        · rw [hformula, if_neg hy, rowCells_cons _ _ hle, List.filter_cons]
          have hcond : (decide (t.top s.nodes.length = (y : Int))) = false := by
            rw [hhead]
            simp
            omega
          rw [hcond]
          simp only [Bool.false_eq_true, reduceIte]
          rw [← hlen1]
      · intro cc hcc
        rw [mem_rowCells] at hcc
        by_cases he : cc = s.nodes.length
        · subst he
          refine ih7 _ ?_
          have hOKs9 := hColNew.2.2.2.2.2.2.2.2
          exact hOKs9 s.nodes.length (List.mem_append_right _ (List.mem_singleton_self _))
        · refine ih10 cc ?_
          rw [mem_rowCells, hlen1]
          omega
    · rw [addrowStep_skip s i c hc] at ht
      obtain ⟨cols2, ih1, ih2, ih3, ih4, ih5, ih6, ih7, ih8, ih9, ih10⟩ :=
        ih s t cols ht hni hlen (fun q hq => hbnd q (List.mem_cons_of_mem _ hq)) hcols
      refine ⟨cols2, ih1, ih2, ih3, ih4, ih5, ih6, ih7, ?_, ih9, ih10⟩
      rw [List.filter_cons_of_neg]
      · exact ih8
      · simp [hc]


theorem rowAlive_nil (s : DLState) (ab : Nat × Nat) : rowAlive s [] ab = true := by
  unfold rowAlive
  simp

theorem activeList_nil_eq (n : Nat) : activeList n [] = List.range' 1 n := by
  unfold activeList
  rw [List.filter_eq_self.mpr]
  intro a _
  simp

/-- The freshly initialized matrix is a valid empty search state. -/
theorem dlinitInv (n : Nat) :
    SearchInv (dlinit n) n [] [] (fun _ => []) ∧ n + 1 < (dlinit n).nodes.length := by
  have hlen : (dlinit n).nodes.length = n + 2 := by
    simp [dlinit]
  have hhlen : (dlinit n).headers.length = n + 1 := by
    simp [dlinit]
  have hni : (dlinit n).nitems = n := by
    show (dlinit n).headers.length - 1 = n
    rw [hhlen]
    omega
  have hrl : ∀ j, j ≤ n → (dlinit n).rlink j = (j + 1) % (n + 1) := by
    intro j hj
    unfold DLState.rlink
    rw [dlinit_headers_getD n j (by omega)]
  have hll : ∀ j, j ≤ n → (dlinit n).llink j = (j + n) % (n + 1) := by
    intro j hj
    unfold DLState.llink
    rw [dlinit_headers_getD n j (by omega)]
  have hself : ∀ x, x ≤ n → (dlinit n).dlink x = x ∧ (dlinit n).ulink x = x := by
    intro x hx
    constructor
    · unfold DLState.dlink
      rw [dlinit_nodes_getD n x (by omega)]
    · unfold DLState.ulink
      rw [dlinit_nodes_getD n x (by omega)]
  have hchain : ∀ (m j : Nat), j + m = n → hlinked (dlinit n) j (List.range' (j + 1) m) = true := by
    intro m
    induction m with
    | zero =>
      intro j hj
      have hj' : j = n := by omega
      show (decide ((dlinit n).rlink j = 0) && decide ((dlinit n).llink 0 = j) &&
        decide (j < (dlinit n).headers.length)) = true
      rw [hj', hrl n (le_refl n), hll 0 (by omega), hhlen]
      simp [Nat.mod_self, Nat.mod_eq_of_lt (by omega : n < n + 1)]
    | succ m ihm =>
      intro j hj
      have hrange : List.range' (j + 1) (m + 1) = (j + 1) :: List.range' (j + 2) m := by
        rw [List.range'_succ]
      rw [hrange]
      show (decide ((dlinit n).rlink j = j + 1) && decide ((dlinit n).llink (j + 1) = j) &&
        decide (j < (dlinit n).headers.length) &&
        hlinked (dlinit n) (j + 1) (List.range' (j + 2) m)) = true
      have h1 : (dlinit n).rlink j = j + 1 := by
        rw [hrl j (by omega)]
        exact Nat.mod_eq_of_lt (by omega)
      have h2 : (dlinit n).llink (j + 1) = j := by
        rw [hll (j + 1) (by omega)]
        have : j + 1 + n = j + (n + 1) := by omega
        rw [this, Nat.add_mod_right, Nat.mod_eq_of_lt (by omega)]
      have h3 := ihm (j + 1) (by omega)
      have hrange2 : j + 1 + 1 = j + 2 := by omega
      rw [h1, h2, hhlen]
      rw [hrange2] at h3
      simp [h3]
      omega
  refine ⟨⟨hni, by omega, ?_, List.Pairwise.nil, ?_, ?_, ?_⟩, by omega⟩
  · intro ab hab
    exact absurd hab (List.not_mem_nil ab)
  · rw [activeList_nil_eq]
    have h0 : (0 : Nat) + n = n := by omega
    have := hchain n 0 h0
    simpa using this
  · intro x hx1 hx2 hx3
    obtain ⟨hdx, hux⟩ := hself x (by omega)
    refine ⟨by omega, ?_, ?_, ?_, List.nodup_nil, ?_, ?_⟩
    · rw [hdx]
      show decide (x = x) = true
      simp
    · rw [hux, hdx]
    · rw [hdx, hux]
    · intro c hc
      exact absurd hc (List.not_mem_nil c)
    · intro c
      simp
  · intro ab hab
    exact absurd hab (List.not_mem_nil ab)


theorem mem_enumFrom_fst :
    ∀ (l : List Char) (k : Nat) (p : Nat × Char), p ∈ List.enumFrom k l →
      k ≤ p.1 ∧ p.1 < k + l.length
  | [], _, _, hp => absurd hp (List.not_mem_nil _)
  | c :: l, k, p, hp => by
    rcases List.mem_cons.mp hp with rfl | hp2
    · simp
    · have := mem_enumFrom_fst l (k + 1) p hp2
      constructor
      · omega
      · simp only [List.length_cons]
        omega

theorem enum_fst_nodup (l : List Char) : (l.enum.map Prod.fst).Nodup := by
  rw [List.enum_map_fst]
  exact List.nodup_range _

theorem map_cast_nodup (l : List (Nat × Char)) (hnd : (l.map Prod.fst).Nodup) :
    ((l.filter (fun p => p.2 = '1')).map (fun p => ((p.1 + 1 : Nat) : Int))).Nodup := by
  induction l with
  | nil => simp
  | cons a l ihl =>
    simp only [List.map_cons, List.nodup_cons] at hnd
    obtain ⟨ha, hl⟩ := hnd
    rw [List.filter_cons]
    by_cases hc : a.2 = '1'
    · rw [if_pos (by simp [hc])]
      rw [List.map_cons, List.nodup_cons]
      refine ⟨?_, ihl hl⟩
      intro hmem
      rw [List.mem_map] at hmem
      obtain ⟨q, hq, heq⟩ := hmem
      have hq2 : q ∈ l := List.mem_of_mem_filter hq
      have hfst : q.1 = a.1 := by
        have : q.1 + 1 = a.1 + 1 := by exact_mod_cast heq
        omega
      exact ha (by rw [← hfst]; exact List.mem_map_of_mem Prod.fst hq2)
    · rw [if_neg (by simp [hc])]
      exact ihl hl

/-- A static row survives into a larger state agreeing on old cell tops and
on old spacer links (the `dlink` of one designated high spacer may move). -/
theorem rowStatic_grow (s t : DLState) (ab : Nat × Nat) (excl : Nat) (hst : rowStatic s ab)
    (hni : t.nitems = s.nitems) (hge : s.nodes.length ≤ t.nodes.length)
    (htops : ∀ r, s.nitems < r → r < s.nodes.length → t.top r = s.top r)
    (hul : ∀ r, s.nitems < r → r < s.nodes.length → s.top r ≤ 0 → t.ulink r = s.ulink r)
    (hdl : ∀ r, s.nitems < r → r < s.nodes.length → s.top r ≤ 0 → r ≠ excl →
      t.dlink r = s.dlink r)
    (hexcl : s.nodes.length - 1 ≤ excl) :
    rowStatic t ab := by
  obtain ⟨hna, hab, hbl, htb, hub, hta, hdb, htc, hnd⟩ := hst
  refine ⟨by omega, hab, by omega, ?_, ?_, ?_, ?_, ?_, ?_⟩
  · rw [htops (ab.2 + 1) (by omega) (by omega)]
    exact htb
  · rw [hul (ab.2 + 1) (by omega) (by omega) htb]
    exact hub
  · rw [htops (ab.1 - 1) (by omega) (by omega)]
    exact hta
  · rw [hdl (ab.1 - 1) (by omega) (by omega) hta (by omega)]
    exact hdb
  · intro q hq
    rw [mem_rowCells] at hq
    rw [htops q (by omega) (by omega), hni]
    exact htc q ((mem_rowCells _ _ q).mpr hq)
  · have hmape : (rowCells ab.1 ab.2).map t.top = (rowCells ab.1 ab.2).map s.top := by
      apply List.map_congr_left
      intro c hm
      rw [mem_rowCells] at hm
      exact htops c (by omega) (by omega)
    rw [hmape]
    exact hnd

/-- `addrow` preserves the empty-cover search invariant, recording the new
row, whose cells occupy the fresh block between the two spacers. -/
theorem addrowInv (n : Nat) (s sp : DLState) (row : List Char) (Rows : List (Nat × Nat))
    (cols : Nat → List Nat)
    (hinv : SearchInv s n Rows [] cols) (hgrow : n + 1 < s.nodes.length)
    (hadd : addrow s row = some sp) :
    ∃ cols2, SearchInv sp n (Rows ++ [(s.nodes.length, sp.nodes.length - 2)]) [] cols2 ∧
      n + 1 < sp.nodes.length := by
  obtain ⟨hni, hh0, hRowsStatic, hPw, hHl, hActive, hCellsOK⟩ := hinv
  simp only [addrow] at hadd
  split_ifs at hadd with h1 h2 h3
  set s1 := List.foldl (fun t p => addrowStep t p.1 p.2) s row.enum with hs1def
  have hsp := Option.some.inj hadd
  have hColsS : ∀ y, 1 ≤ y → y ≤ n → ColC s y (cols y) := by
    intro y h1y h2y
    obtain ⟨hxlen, hvch, hduy, hudy, hndy, htopsy, hmemy⟩ := hActive y h1y h2y (List.not_mem_nil y)
    refine ⟨h1y, by omega, hxlen, hvch, hduy, hudy, hndy, htopsy, ?_⟩
    intro c hc
    obtain ⟨ab, habR, habAl, hcc, hct⟩ := (hmemy c).mp hc
    exact hCellsOK ab habR habAl c hcc
  have hbnd : ∀ p ∈ row.enum, p.1 + 1 ≤ n := by
    intro p hp
    have hlt := (mem_enumFrom_fst row 0 p hp).2
    rw [hni] at h1
    simp only [Nat.zero_add] at hlt
    omega
  obtain ⟨cols2, f1, f2, f3, f4, f5, f6, f7, f8, f9, f10⟩ :=
    addrowFoldInv n row.enum s s1 cols hs1def hni hgrow hbnd hColsS
  clear hadd
  -- reads of the final state
  have hXtop : ∀ j, sp.top j =
      if j = s1.nodes.length then s1.len s.lastindex - 1 else s1.top j := by
    intro j
    rw [← hsp]
    show (({ s1 with nodes :=
        s1.nodes ++ [⟨s1.len s.lastindex - 1, s.lastindex + 1, 0⟩] } : DLState).setDlink
      s.lastindex s1.lastindex).top j = _
    rw [top_setDlink, top_push]
  have hXul : ∀ j, sp.ulink j =
      if j = s1.nodes.length then s.lastindex + 1 else s1.ulink j := by
    intro j
    rw [← hsp]
    show (({ s1 with nodes :=
        s1.nodes ++ [⟨s1.len s.lastindex - 1, s.lastindex + 1, 0⟩] } : DLState).setDlink
      s.lastindex s1.lastindex).ulink j = _
    rw [ulink_setDlink, ulink_push]
  have hlastlt : s.lastindex < s.nodes.length := by
    unfold DLState.lastindex
    omega
  have hXdl : ∀ j, sp.dlink j =
      if s.lastindex = j then s1.lastindex
      else if j = s1.nodes.length then 0 else s1.dlink j := by
    intro j
    rw [← hsp]
    show (({ s1 with nodes :=
        s1.nodes ++ [⟨s1.len s.lastindex - 1, s.lastindex + 1, 0⟩] } : DLState).setDlink
      s.lastindex s1.lastindex).dlink j = _
    rw [dlink_setDlink, length_push, dlink_push]
    by_cases he : s.lastindex = j
    · rw [if_pos ⟨he, by omega⟩, if_pos he]
    · rw [if_neg (fun hc => he hc.1), if_neg he]
  have hXhead : sp.headers = s1.headers := by rw [← hsp]; rfl
  have hXlen : sp.nodes.length = s1.nodes.length + 1 := by
    rw [← hsp]
    show (({ s1 with nodes :=
        s1.nodes ++ [⟨s1.len s.lastindex - 1, s.lastindex + 1, 0⟩] } : DLState).setDlink
      s.lastindex s1.lastindex).nodes.length = _
    rw [setDlink_nodes_length, length_push]
  have hs1nit : s1.nitems = s.nitems := by
    show s1.headers.length - 1 = s.headers.length - 1
    rw [f1]
  have hspnit : sp.nitems = n := by
    show sp.headers.length - 1 = n
    rw [hXhead, f1]
    exact hni
  have h3a : s.nodes.length ≤ s1.nodes.length - 1 := by
    unfold DLState.lastindex at h3
    omega
  have hs1gt : s.nodes.length < s1.nodes.length := by omega
  have htopsp : s.top (s.nodes.length - 1) ≤ 0 := by
    have hh := h2
    unfold DLState.isspacer DLState.lastindex at hh
    simpa using hh
  have htopsp1 : s1.top (s.nodes.length - 1) ≤ 0 := by
    rw [f5 (s.nodes.length - 1) (by omega) (by omega)]
    exact htopsp
  have hlasteq : s.lastindex = s.nodes.length - 1 := rfl
  have hs1last : s1.lastindex = s1.nodes.length - 1 := rfl
  -- old-region transfer s1 → sp
  have htops1 : ∀ r, s1.nitems < r → r < s1.nodes.length → sp.top r = s1.top r := by
    intro r h1r h2r
    rw [hXtop, if_neg (by omega)]
  have hspnit1 : sp.nitems = s1.nitems := by rw [hspnit, hs1nit, hni]
  have hnotsp : ∀ r, (r ≤ s1.nitems ∨ (s1.nitems < r ∧ r < s1.nodes.length ∧
      (1 : Int) ≤ s1.top r)) →
      sp.ulink r = s1.ulink r ∧ sp.dlink r = s1.dlink r := by
    intro r hr
    have hrlen : r ≠ s1.nodes.length := by
      rcases hr with h | ⟨h1, h2, h3⟩
      · omega
      · omega
    have hrsp : s.lastindex ≠ r := by
      rw [hlasteq]
      rcases hr with h | ⟨h1, h2, h3⟩
      · omega
      · intro he
        rw [← he] at h3
        omega
    exact ⟨by rw [hXul, if_neg hrlen], by rw [hXdl, if_neg hrsp, if_neg hrlen]⟩
  have hOKgrow : ∀ c, cellOK s1 c → cellOK sp c := by
    intro c hc
    have hc1 := hc.1.1
    have hc2 := hc.1.2.1
    have hce1 := hc.1.2.2.1
    have hce2 := hc.1.2.2.2.1
    have hbu := hc.1.2.2.2.2.2.1
    have hbd := hc.1.2.2.2.2.2.2
    have htn1 : 1 ≤ (s1.top c).toNat := by omega
    have htn2 : (s1.top c).toNat ≤ s1.nitems := by omega
    have hwu : sp.ulink c = s1.ulink c ∧ sp.dlink c = s1.dlink c :=
      hnotsp c (Or.inr ⟨hc1, hc2, hce1⟩)
    have hwn1 : sp.dlink (s1.ulink c) = s1.dlink (s1.ulink c) := by
      rcases hbu.2 with he | ⟨hg1, hg2⟩
      · rw [he]
        exact (hnotsp (s1.top c).toNat (Or.inl htn2)).2
      · exact (hnotsp (s1.ulink c) (Or.inr ⟨hg1, hbu.1, by
          rw [hg2]; exact_mod_cast htn1⟩)).2
    have hwn2 : sp.ulink (s1.dlink c) = s1.ulink (s1.dlink c) := by
      rcases hbd.2 with he | ⟨hg1, hg2⟩
      · rw [he]
        exact (hnotsp (s1.top c).toNat (Or.inl htn2)).1
      · exact (hnotsp (s1.dlink c) (Or.inr ⟨hg1, hbd.1, by
          rw [hg2]; exact_mod_cast htn1⟩)).1
    exact cellOK_grow s1 sp (by omega) hspnit1 htops1 c hc hwu.1 hwu.2 hwn1 hwn2
  have hpairb : sp.nodes.length - 2 = s1.nodes.length - 1 := by
    rw [hXlen]
    omega
  rw [hpairb]
  have hstatic1 : ∀ ab ∈ Rows, rowStatic sp ab := by
    intro ab hab
    refine rowStatic_grow s sp ab s.lastindex (hRowsStatic ab hab)
      (by rw [hspnit, hni]) (by omega) ?_ ?_ ?_ (by rw [hlasteq])
    · intro r h1r h2r
      rw [hXtop, if_neg (by omega)]
      exact f5 r (by omega) h2r
    · intro r h1r h2r h3r
      rw [hXul, if_neg (by omega)]
      exact (f6 r (by omega) h2r h3r).1
    · intro r h1r h2r h3r hrne
      rw [hXdl, if_neg (fun hc => hrne hc.symm), if_neg (by omega)]
      exact (f6 r (by omega) h2r h3r).2
  have hcellsRow : ∀ q ∈ rowCells s.nodes.length (s1.nodes.length - 1),
      (1 ≤ s1.top q ∧ s1.top q ≤ (n : Int)) ∧ sp.top q = s1.top q := by
    intro q hq
    have hqb := (mem_rowCells _ _ q).mp hq
    have hmem : s1.top q ∈ (rowCells s.nodes.length (s1.nodes.length - 1)).map s1.top :=
      List.mem_map_of_mem s1.top hq
    rw [f8] at hmem
    rw [List.mem_map] at hmem
    obtain ⟨p, hp, hpe⟩ := hmem
    have hpb := hbnd p (List.mem_of_mem_filter hp)
    constructor
    · constructor
      · rw [← hpe]
        exact_mod_cast Nat.succ_le_succ (Nat.zero_le p.1)
      · rw [← hpe]
        exact_mod_cast hpb
    · exact htops1 q (by omega) (by omega)
  have hstaticNew : rowStatic sp (s.nodes.length, s1.nodes.length - 1) := by
    have hE1 : s1.nodes.length - 1 + 1 = s1.nodes.length := by omega
    refine ⟨by rw [hspnit]; omega, by omega, by rw [hXlen]; omega, ?_, ?_, ?_, ?_, ?_, ?_⟩
    · show sp.top (s1.nodes.length - 1 + 1) ≤ 0
      rw [hE1, hXtop, if_pos rfl]
      show s1.top s.lastindex - 1 ≤ 0
      rw [hlasteq]
      omega
    · show sp.ulink (s1.nodes.length - 1 + 1) = s.nodes.length
      rw [hE1, hXul, if_pos rfl, hlasteq]
      omega
    · show sp.top (s.nodes.length - 1) ≤ 0
      rw [hXtop, if_neg (by omega)]
      exact htopsp1
    · show sp.dlink (s.nodes.length - 1) = s1.nodes.length - 1
      rw [hXdl, if_pos hlasteq]
      rfl
    · intro q hq
      have h := (hcellsRow q hq).1
      have h2 := (hcellsRow q hq).2
      rw [h2, hspnit]
      exact h
    · have hmape : (rowCells s.nodes.length (s1.nodes.length - 1)).map sp.top =
          (rowCells s.nodes.length (s1.nodes.length - 1)).map s1.top := by
        apply List.map_congr_left
        intro q hq
        exact (hcellsRow q hq).2
      rw [hmape, f8]
      exact map_cast_nodup row.enum (enum_fst_nodup row)
  refine ⟨cols2, ⟨hspnit, by rw [hXhead, f1]; exact hh0, ?_, ?_, ?_, ?_, ?_⟩,
    by rw [hXlen]; omega⟩
  · intro ab hab
    rcases List.mem_append.mp hab with hab | hab
    · exact hstatic1 ab hab
    · rw [List.mem_singleton] at hab
      rw [hab]
      exact hstaticNew
  · rw [List.pairwise_append]
    refine ⟨hPw, List.pairwise_singleton _ _, ?_⟩
    intro ab hab cd hcd
    rw [List.mem_singleton] at hcd
    subst hcd
    have := (hRowsStatic ab hab).2.2.1
    show ab.2 < s.nodes.length
    omega
  · have hrleq : ∀ m, sp.rlink m = s.rlink m := by
      intro m
      unfold DLState.rlink
      rw [hXhead, f1]
    have hlleq : ∀ m, sp.llink m = s.llink m := by
      intro m
      unfold DLState.llink
      rw [hXhead, f1]
    rw [hlinked_transfer s sp (by rw [hXhead, f1]) (activeList n []) 0
      (fun m _ => hrleq m) (fun m _ => hlleq m)]
    exact hHl
  · intro x hx1 hx2 hxK
    obtain ⟨hColt1, hform⟩ := f9 x hx1 hx2
    have hColsp : ColC sp x (cols2 x) := by
      refine ColC_grow s1 sp x (cols2 x) hColt1 (by omega) hspnit1 htops1 ?_
      intro r hrl hrtag
      refine hnotsp r ?_
      rcases hrtag with rfl | ⟨h1r, h2r⟩
      · exact Or.inl (by omega)
      · exact Or.inr ⟨h1r, hrl, by rw [h2r]; exact_mod_cast hx1⟩
    obtain ⟨-, -, hxlt, hvch, hduy, hudy, hndy, htopsy, hOKsy⟩ := hColsp
    refine ⟨by omega, hvch, hduy, hudy, hndy, htopsy, ?_⟩
    intro c
    constructor
    · intro hc
      rw [hform] at hc
      rcases List.mem_append.mp hc with hc | hc
      · obtain ⟨hxlen0, hvch0, hdu0, hud0, hnd0, htops00, hmem0⟩ :=
          hActive x hx1 hx2 (List.not_mem_nil x)
        obtain ⟨ab, habR, -, hcc, hct⟩ := (hmem0 c).mp hc
        refine ⟨ab, List.mem_append_left _ habR, rowAlive_nil sp ab, hcc, ?_⟩
        have hbnds := hRowsStatic ab habR
        have hcb := (mem_rowCells _ _ c).mp hcc
        rw [hXtop, if_neg (by omega)]
        rw [f5 c (by omega) (by omega)]
        exact hct
      · have hc1 := List.mem_of_mem_filter hc
        have hc2 := List.of_mem_filter hc
        rw [decide_eq_true_eq] at hc2
        refine ⟨(s.nodes.length, s1.nodes.length - 1),
          List.mem_append_right _ (List.mem_singleton_self _), rowAlive_nil sp _, hc1, ?_⟩
        rw [(hcellsRow c hc1).2]
        exact hc2
    · rintro ⟨ab, habm, -, hcc, hct⟩
      rw [hform]
      rcases List.mem_append.mp habm with hab | hab
      · refine List.mem_append_left _ ?_
        obtain ⟨hxlen0, hvch0, hdu0, hud0, hnd0, htops00, hmem0⟩ :=
          hActive x hx1 hx2 (List.not_mem_nil x)
        refine (hmem0 c).mpr ⟨ab, hab, rowAlive_nil s ab, hcc, ?_⟩
        have hbnds := hRowsStatic ab hab
        have hcb := (mem_rowCells _ _ c).mp hcc
        rw [hXtop, if_neg (by omega)] at hct
        rw [f5 c (by omega) (by omega)] at hct
        exact hct
      · rw [List.mem_singleton] at hab
        subst hab
        refine List.mem_append_right _ (List.mem_filter.mpr ⟨hcc, ?_⟩)
        rw [decide_eq_true_eq]
        rw [(hcellsRow c hcc).2] at hct
        exact hct
  · intro ab hab halive c hc
    rcases List.mem_append.mp hab with hab | hab
    · exact hOKgrow c (f7 c (hCellsOK ab hab (rowAlive_nil s ab) c hc))
    · rw [List.mem_singleton] at hab
      subst hab
      exact hOKgrow c (f10 c hc)


/-- Any matrix produced by `construct` followed by `addrow` calls is a
valid search state with an empty covered set. -/
theorem buildInv (n : Nat) (rowsIn : List (List Char)) (m : DLState)
    (hb : build n rowsIn = some m) :
    ∃ Rows cols2, SearchInv m n Rows [] cols2 ∧ n + 1 < m.nodes.length := by
  suffices h : ∀ (rs : List (List Char)) (s : DLState) (Rows : List (Nat × Nat))
      (cols : Nat → List Nat), SearchInv s n Rows [] cols → n + 1 < s.nodes.length →
      rs.foldlM addrow s = some m →
      ∃ Rows2 cols2, SearchInv m n Rows2 [] cols2 ∧ n + 1 < m.nodes.length by
    obtain ⟨hinv0, hlen0⟩ := dlinitInv n
    exact h rowsIn (dlinit n) [] (fun _ => []) hinv0 hlen0 hb
  intro rs
  induction rs with
  | nil =>
    intro s Rows cols hinv hlen hfold
    have hsm : s = m := by simpa [List.foldlM] using hfold
    subst hsm
    exact ⟨Rows, cols, hinv, hlen⟩
  | cons r rs ihr =>
    intro s Rows cols hinv hlen hfold
    rw [List.foldlM_cons] at hfold
    cases haddr : addrow s r with
    | none =>
      rw [haddr] at hfold
      simp at hfold
    | some s2 =>
      rw [haddr] at hfold
      have hfold2 : rs.foldlM addrow s2 = some m := hfold
      obtain ⟨cols2, hinv2, hlen2⟩ := addrowInv n s s2 r Rows cols hinv hlen haddr
      exact ihr s2 _ cols2 hinv2 hlen2 hfold2

theorem nextSpacer_run (m : DLState) (b1 : Nat) :
    ∀ (fuel q : Nat), q ≤ b1 →
      (∀ r, q ≤ r → r < b1 → 1 ≤ m.top r) → m.top b1 ≤ 0 →
      b1 - q < fuel → nextSpacer m fuel q = some b1
  | 0, q, _, _, _, hf => absurd hf (by omega)
  | fuel + 1, q, hqb, hpos, hsp, hf => by
    unfold nextSpacer
    by_cases he : q = b1
    · rw [if_pos (by rw [he]; exact hsp), he]
    · have h1 : ¬ (m.top q ≤ 0) := by
        have := hpos q (le_refl q) (by omega)
        omega
      rw [if_neg h1]
      exact nextSpacer_run m b1 fuel (q + 1) (by omega)
        (fun r hr1 hr2 => hpos r (by omega) hr2) hsp (by omega)

/-- For a node of a recorded row, scanning forward to the next spacer
recovers exactly that row, so the read-off option items are the row's. -/
theorem optionItems_row (m : DLState) (Rows : List (Nat × Nat))
    (hstat : ∀ cd ∈ Rows, rowStatic m cd)
    (hPw : Rows.Pairwise (fun x y => x.2 < y.1))
    (k : Nat) (ab : Nat × Nat) (hab : ab ∈ Rows) (hk : k ∈ rowCells ab.1 ab.2) :
    optionItems m k = itemsOf m (rowFind Rows k) := by
  have hs := hstat ab hab
  have hkb := (mem_rowCells _ _ k).mp hk
  have hfind : rowFind Rows k = ab := rowFind_eq Rows hPw ab hab k hkb.1 hkb.2
  rw [hfind]
  have hna := hs.1
  have hbl := hs.2.2.1
  unfold optionItems
  have hns : nextSpacer m m.nodes.length k = some (ab.2 + 1) := by
    refine nextSpacer_run m (ab.2 + 1) m.nodes.length k (by omega) ?_
      hs.2.2.2.1 (by omega)
    intro r h1 h2
    exact (hs.2.2.2.2.2.2.2.1 r ((mem_rowCells _ _ r).mpr ⟨by omega, by omega⟩)).1
  rw [hns]
  show itemsOf m (m.ulink (ab.2 + 1), ab.2 + 1 - 1) = itemsOf m ab
  rw [hs.2.2.2.2.1]
  have he2 : ab.2 + 1 - 1 = ab.2 := by omega
  rw [he2]

/-- For a node of a recorded row, `optionId` recovers the row's start. -/
theorem optionId_row (m : DLState) (Rows : List (Nat × Nat))
    (hstat : ∀ cd ∈ Rows, rowStatic m cd)
    (hPw : Rows.Pairwise (fun a2 b2 => a2.2 < b2.1))
    (k : Nat) (ab : Nat × Nat) (hab : ab ∈ Rows) (hk : k ∈ rowCells ab.1 ab.2) :
    optionId m k = (rowFind Rows k).1 := by
  have hs := hstat ab hab
  have hkb := (mem_rowCells _ _ k).mp hk
  have hfind : rowFind Rows k = ab := rowFind_eq Rows hPw ab hab k hkb.1 hkb.2
  rw [hfind]
  have hna := hs.1
  have hbl := hs.2.2.1
  unfold optionId
  have hns : nextSpacer m m.nodes.length k = some (ab.2 + 1) := by
    refine nextSpacer_run m (ab.2 + 1) m.nodes.length k (by omega) ?_
      hs.2.2.2.1 (by omega)
    intro r h1 h2
    exact (hs.2.2.2.2.2.2.2.1 r ((mem_rowCells _ _ r).mpr ⟨by omega, by omega⟩)).1
  rw [hns]
  exact hs.2.2.2.2.1

/-! ### Claim theorems -/

/-- C4: on the worked 7-item instance (options A..F appended in order), the
search reports exactly one solution, its chosen options are the zero-based
indices 1, 3, 5 (B, D, F), and `Counter::visit` renders the line
`1321223`. -/
theorem C4_worked_example :
    (build 7 exRows).isSome = true ∧
    exRun.isSome = true ∧
    exSols.length = 1 ∧
    (exSols.getD 0 []).mapM (fun k => getoption 100 k exState) = some [1, 3, 5] ∧
    counterVisit 100 exRows exState (exSols.getD 0 []) = some "1321223".data := by
  decide

/-- C5: whenever the active horizontal list read off by following
`rlink` from the root is `a :: l` (non-empty), `chooseitem` returns an
active item of minimal stored length, and on ties the first one encountered
from the root: the result `c` splits the active list as `p ++ c :: q` with
every item before `c` strictly longer and every item after `c` no
shorter. -/
theorem C5_chooseitem_min_leftmost (s : DLState) (a : Nat) (l : List Nat) (fuel : Nat)
    (hch : hchain s (s.rlink 0) (a :: l) = true)
    (hf : (a :: l).length < fuel) :
    ∃ p c q, chooseitem fuel s = some c ∧ a :: l = p ++ c :: q ∧
      (∀ j ∈ p, s.len c < s.len j) ∧ (∀ j ∈ q, s.len c ≤ s.len j) := by
  have ha : s.rlink 0 = a := by
    simp only [hchain, Bool.and_eq_true, decide_eq_true_eq] at hch
    exact hch.1.1
  have hloop : chooseitem fuel s = some (chooseAcc s a (s.len a) (a :: l)) := by
    unfold chooseitem
    rw [ha]
    exact chooseLoop_spec s (a :: l) fuel a a (s.len a) (ha ▸ hch) hf
  rcases chooseAcc_split s (a :: l) a (s.len a) with ⟨heq, hall⟩ | ⟨p, c, q, hsplit, heq, hc, hp, hq⟩
  · refine ⟨[], a, l, ?_, by simp, by simp, ?_⟩
    · rw [hloop, heq]
    · intro j hj
      exact hall j (List.mem_cons_of_mem a hj)
  · refine ⟨p, c, q, ?_, hsplit, hp, hq⟩
    rw [hloop, heq]

/-- Witness for C5 at the worked instance: the active list after building is
`[1,…,7]` and `chooseitem` picks item 1 (all lengths 2 except item 4 and 7,
so the leftmost minimum is item 1). -/
theorem C5_chooseitem_min_leftmost_witness :
    hchain exState (exState.rlink 0) (1 :: [2, 3, 4, 5, 6, 7]) = true ∧
    ((1 : Nat) :: [2, 3, 4, 5, 6, 7]).length < 10 ∧
    ∃ p c q, chooseitem 10 exState = some c ∧ (1 : Nat) :: [2, 3, 4, 5, 6, 7] = p ++ c :: q ∧
      (∀ j ∈ p, exState.len c < exState.len j) ∧ (∀ j ∈ q, exState.len c ≤ exState.len j) :=
  ⟨by decide, by decide,
    C5_chooseitem_min_leftmost exState 1 [2, 3, 4, 5, 6, 7] 10 (by decide) (by decide)⟩

/-- C6 counterexample: a row strictly shorter than the item count but with a
set bit is accepted by `addrow`, not rejected — with 2 items the
one-character row `"1"` has the wrong length yet appends successfully.
(The code only asserts `s.size() <= nitems()`.) -/
theorem C6_counterexample :
    "1".data.length ≠ (dlinit 2).nitems ∧ (addrow (dlinit 2) "1".data).isSome = true := by
  decide

/-- C6 amended: `addrow` aborts exactly when the row is longer than the item
count or contains no `'1'`; shorter rows with at least one set bit are
accepted (missing positions are treated as unset). -/
theorem C6_addrow_amended (s : DLState) (row : List Char)
    (hsp : s.isspacer s.lastindex = true) (hlen : 1 ≤ s.nodes.length) :
    (addrow s row).isSome = true ↔ (row.length ≤ s.nitems ∧ '1' ∈ row) := by
  have hcnt : ((row.enum.foldl (fun t p => addrowStep t p.1 p.2) s)).nodes.length =
      s.nodes.length + row.countP (fun c => c = '1') := by
    rw [addrowFold_nodes_length, enum_countP_one]
  have hmem : '1' ∈ row ↔ 0 < row.countP (fun c => c = '1') := by
    rw [List.countP_pos_iff]
    constructor
    · intro hm; exact ⟨'1', hm, by simp⟩
    · rintro ⟨a, ha, hp⟩
      simp only [decide_eq_true_eq] at hp
      exact hp ▸ ha
  unfold addrow
  by_cases hl : row.length ≤ s.nitems
  · simp only [hl, if_true, hsp, if_true]
    unfold DLState.lastindex at *
    by_cases hc : '1' ∈ row
    · have : 0 < row.countP (fun c => c = '1') := hmem.mp hc
      have hcond : s.nodes.length - 1 + 1 ≤
          (row.enum.foldl (fun t p => addrowStep t p.1 p.2) s).nodes.length - 1 := by
        rw [hcnt]; omega
      simp [hcond, hl, hc]
    · have : row.countP (fun c => c = '1') = 0 := by
        by_contra hne
        exact hc (hmem.mpr (Nat.pos_of_ne_zero hne))
      have hcond : ¬ (s.nodes.length - 1 + 1 ≤
          (row.enum.foldl (fun t p => addrowStep t p.1 p.2) s).nodes.length - 1) := by
        rw [hcnt, this]; omega
      simp [hcond, hc]
  · simp [hl]

/-- Witness for the amended C6 at a concrete state and row. -/
theorem C6_addrow_amended_witness :
    ((dlinit 2).isspacer (dlinit 2).lastindex = true) ∧ 1 ≤ (dlinit 2).nodes.length ∧
    ((addrow (dlinit 2) "10".data).isSome = true ↔
      ("10".data.length ≤ (dlinit 2).nitems ∧ '1' ∈ "10".data)) :=
  ⟨by decide, by decide, C6_addrow_amended (dlinit 2) "10".data (by decide) (by decide)⟩

/-- C7 counterexample: `construct 0` does not fail — the constructor has no
validation path at all — contradicting the claim that construction fails
for non-positive item counts. -/
theorem C7_counterexample : construct 0 ≠ none ∧ construct 0 = some (dlinit 0) := by
  decide

/-- C7 amended: `construct` never fails; for every item count it allocates
`itemCount+1` header slots wired into one circular horizontal list (each
item named by its index, initially of length 0 with an empty vertical
list), and seeds exactly one spacer node. -/
theorem C7_construct_amended (n i : Nat) (hi : i ≤ n) :
    construct n = some (dlinit n) ∧
    (dlinit n).headers.length = n + 1 ∧ (dlinit n).nodes.length = n + 2 ∧
    (dlinit n).name i = Int.ofNat i ∧
    (dlinit n).llink i = (i + n) % (n + 1) ∧ (dlinit n).rlink i = (i + 1) % (n + 1) ∧
    (dlinit n).len i = 0 ∧ (dlinit n).ulink i = i ∧ (dlinit n).dlink i = i ∧
    (dlinit n).top (n + 1) = 0 ∧ (dlinit n).ulink (n + 1) = 0 ∧ (dlinit n).dlink (n + 1) = 0 := by
  have h : i < n + 1 := Nat.lt_succ_of_le hi
  have hh := dlinit_headers_getD n i h
  have hn := dlinit_nodes_getD n i h
  have hs := dlinit_nodes_getD_spacer n
  refine ⟨rfl, by simp [dlinit], by simp [dlinit], ?_, ?_, ?_, ?_, ?_, ?_, ?_, ?_, ?_⟩ <;>
    simp only [DLState.name, DLState.llink, DLState.rlink, DLState.len, DLState.top,
      DLState.ulink, DLState.dlink, hh, hn, hs]

/-- Witness for the amended C7 at `n = 3`, `i = 2`. -/
theorem C7_construct_amended_witness :
    (2 ≤ 3) ∧
    (construct 3 = some (dlinit 3) ∧
     (dlinit 3).headers.length = 3 + 1 ∧ (dlinit 3).nodes.length = 3 + 2 ∧
     (dlinit 3).name 2 = Int.ofNat 2 ∧
     (dlinit 3).llink 2 = (2 + 3) % (3 + 1) ∧ (dlinit 3).rlink 2 = (2 + 1) % (3 + 1) ∧
     (dlinit 3).len 2 = 0 ∧ (dlinit 3).ulink 2 = 2 ∧ (dlinit 3).dlink 2 = 2 ∧
     (dlinit 3).top (3 + 1) = 0 ∧ (dlinit 3).ulink (3 + 1) = 0 ∧ (dlinit 3).dlink (3 + 1) = 0) :=
  ⟨by decide, C7_construct_amended 3 2 (by decide)⟩

/-- C9: only `'1'` characters create a node — `addrow` behaves identically
on a row and on its normalization sending every non-`'1'` character to
`'0'` (no validation, no error) — and on success the nodes array grows by
exactly the number of `'1'` characters plus the closing spacer. -/
theorem C9_addrow_only_ones (s : DLState) (row : List Char) :
    addrow s (row.map normChar) = addrow s row ∧
    (addrow s row).map (fun t => t.nodes.length) =
      (addrow s row).map (fun _ => s.nodes.length + row.countP (fun c => c = '1') + 1) := by
  constructor
  · unfold addrow
    rw [List.length_map, enum_fold_norm s row]
  · have hcnt : ((row.enum.foldl (fun t p => addrowStep t p.1 p.2) s)).nodes.length =
        s.nodes.length + row.countP (fun c => c = '1') := by
      rw [addrowFold_nodes_length, enum_countP_one]
    cases haddrow : addrow s row with
    | none => simp
    | some t =>
      simp only [Option.map_some']
      simp only [addrow] at haddrow
      split_ifs at haddrow with h1 h2 h3
      injection haddrow with ht
      subst ht
      simp only [DLState.setDlink, List.length_set, List.length_append, hcnt]
      simp

/-- C10: the search is deterministic — building twice from the same item
count and row sequence and running the search yields identical results
(final state and identical callback sequence). -/
theorem C10_search_deterministic (n : Nat) (rows : List (List Char)) (fuel : Nat)
    (stack : List Nat) (m m' : DLState)
    (h1 : build n rows = some m) (h2 : build n rows = some m') :
    rdance fuel m stack = rdance fuel m' stack := by
  rw [h1] at h2
  cases h2
  rfl

/-- Witness for C10 at the worked instance. -/
theorem C10_search_deterministic_witness :
    build 7 exRows = some exState ∧
    rdance 50 exState [] = rdance 50 exState [] :=
  ⟨by decide, C10_search_deterministic 7 exRows 50 [] exState exState (by decide) (by decide)⟩

/-- C1: from any state satisfying the reachable-state well-formedness that
`cover` relies on (consistent doubly linked horizontal and vertical lists,
well-formed rows for every option of item `i`'s column), `cover i`
followed immediately by `uncover i` restores the matrix link-for-link:
the final state is equal, as a whole, to the starting state. -/
theorem C1_cover_uncover_restore (s : DLState) (i : Nat) (P : List Nat)
    (rA rB : Nat → Nat) (fuel : Nat)
    (hctx : CoverOK s i P rA rB)
    (hf1 : P.length + 1 ≤ fuel)
    (hf2 : ∀ p ∈ P, rB p - rA p + 2 + P.length + 1 ≤ fuel) :
    ∃ s', cover fuel i s = some s' ∧ uncover fuel i s' = some s :=
  ⟨coverResult rA rB i s P, (cover_uncover_aux s i P rA rB fuel hctx hf1 hf2).1,
    (cover_uncover_aux s i P rA rB fuel hctx hf1 hf2).2⟩

/-- Witness for C1 at the worked instance: covering item 1 (whose column
holds the two options B and A at node positions 9 and 13) and uncovering it
restores the built matrix exactly. -/
theorem C1_cover_uncover_restore_witness :
    CoverOK exState 1 [9, 13] (fun p => if p = 9 then 9 else 13)
      (fun p => if p = 9 then 11 else 14) ∧
    ([9, 13] : List Nat).length + 1 ≤ 30 ∧
    (∀ p ∈ ([9, 13] : List Nat),
      (if p = 9 then 11 else 14) - (if p = 9 then 9 else 13) + 2 +
        ([9, 13] : List Nat).length + 1 ≤ 30) ∧
    ∃ s', cover 30 1 exState = some s' ∧ uncover 30 1 s' = some exState :=
  ⟨by decide, by decide, by decide,
    C1_cover_uncover_restore exState 1 [9, 13] (fun p => if p = 9 then 9 else 13)
      (fun p => if p = 9 then 11 else 14) 30 (by decide) (by decide) (by decide)⟩


/-- C3: for every matrix built by `construct` followed by any sequence of
`appendRow` calls, when the top-level search call returns, the matrix's
entire link structure — the headers array (horizontal links), the nodes
array (vertical links and stored lengths) and the row count — equals its
state immediately before the search began, regardless of how many
solutions were reported. -/
theorem C3_search_restores (n : Nat) (rowsIn : List (List Char)) (m m2 : DLState)
    (fuel : Nat) (sols : List (List Nat))
    (hb : build n rowsIn = some m)
    (hfuel : n + 1 + 4 * m.nodes.length + n + 12 ≤ fuel)
    (hrun : rdance fuel m [] = some (m2, sols)) :
    m2.headers = m.headers ∧ m2.nodes = m.nodes ∧ m2.nrows = m.nrows := by
  obtain ⟨Rows, cols, hinv, hlen⟩ := buildInv n rowsIn m hb
  obtain ⟨cnt, sols2, heq, hgood, hcomp⟩ := rdance_master n Rows fuel m [] cols [] hinv
    ⟨List.nodup_nil, fun y hy => absurd hy (List.not_mem_nil y)⟩ (by simpa using hfuel)
  rw [hrun] at heq
  have hpair := Option.some.inj heq
  have hm2 : m2 = setNc m cnt := congrArg Prod.fst hpair
  rw [hm2]
  exact ⟨rfl, rfl, rfl⟩

/-- Witness for C3: on the worked 7-item instance the search returns and
the returned state's headers, nodes and row count equal the pre-search
matrix. -/
theorem C3_search_restores_witness :
    ∃ m2 sols, rdance 160 exState [] = some (m2, sols) ∧
      m2.headers = exState.headers ∧ m2.nodes = exState.nodes ∧
      m2.nrows = exState.nrows := by
  cases hrun : rdance 160 exState [] with
  | none => exact absurd hrun (by decide)
  | some pr =>
    obtain ⟨m2, sols⟩ := pr
    have h := C3_search_restores 7 exRows exState m2 160 sols (by decide) (by decide) hrun
    exact ⟨m2, sols, rfl, h.1, h.2.1, h.2.2⟩

/-- C2: for every matrix built by `construct` followed by any sequence of
`appendRow` calls, every solution reported by the search is an exact
cover: each item `1..n` belongs to the option row of exactly one chosen
node — none uncovered, none covered twice. -/
theorem C2_solutions_exact_cover (n : Nat) (rowsIn : List (List Char)) (m m2 : DLState)
    (fuel : Nat) (sols : List (List Nat)) (sol : List Nat)
    (hb : build n rowsIn = some m)
    (hfuel : n + 1 + 4 * m.nodes.length + n + 12 ≤ fuel)
    (hrun : rdance fuel m [] = some (m2, sols)) (hsol : sol ∈ sols) :
    ∀ y, 1 ≤ y → y ≤ n → ∃! k, k ∈ sol ∧ (y : Int) ∈ optionItems m k := by
  obtain ⟨Rows, cols, hinv, hlen⟩ := buildInv n rowsIn m hb
  have hstat := hinv.2.2.1
  have hpw := hinv.2.2.2.1
  obtain ⟨cnt, sols2, heq, hgood, hcomp⟩ := rdance_master n Rows fuel m [] cols [] hinv
    ⟨List.nodup_nil, fun y hy => absurd hy (List.not_mem_nil y)⟩ (by simpa using hfuel)
  rw [hrun] at heq
  have hpair := Option.some.inj heq
  have hsols : sols = sols2 := congrArg Prod.snd hpair
  obtain ⟨ext, hse, hgext⟩ := hgood sol (by rw [← hsols]; exact hsol)
  rw [List.nil_append] at hse
  subst hse
  obtain ⟨hg1, hg2, hg3⟩ := hgext
  intro y hy1 hy2
  obtain ⟨k, ⟨hk, hky⟩, huq⟩ := hg2 y hy1 hy2 (List.not_mem_nil y)
  refine ⟨k, ⟨hk, ?_⟩, ?_⟩
  · obtain ⟨ab, habR, hcells⟩ := hg1 k hk
    rw [optionItems_row m Rows hstat hpw k ab habR hcells]
    exact hky
  · rintro k2 ⟨hk2, hky2⟩
    obtain ⟨ab2, habR2, hcells2⟩ := hg1 k2 hk2
    rw [optionItems_row m Rows hstat hpw k2 ab2 habR2 hcells2] at hky2
    exact huq k2 ⟨hk2, hky2⟩

/-- Witness for C2: on the worked 7-item instance the reported solution
covers each of the seven items exactly once. -/
theorem C2_solutions_exact_cover_witness :
    ∃ m2 sols sol, rdance 160 exState [] = some (m2, sols) ∧ sol ∈ sols ∧
      ∀ y : Nat, 1 ≤ y → y ≤ 7 → ∃! k, k ∈ sol ∧ (y : Int) ∈ optionItems exState k := by
  cases hrun : rdance 160 exState [] with
  | none => exact absurd hrun (by decide)
  | some pr =>
    obtain ⟨m2, sols⟩ := pr
    cases sols with
    | nil =>
      have h0 : (rdance 160 exState []).map (fun r => r.2.length) = some 1 := by decide
      rw [hrun] at h0
      simp at h0
    | cons s0 rest =>
      exact ⟨m2, s0 :: rest, s0, rfl, List.mem_cons_self s0 rest,
        C2_solutions_exact_cover 7 exRows exState m2 160 (s0 :: rest) s0
          (by decide) (by decide) hrun (List.mem_cons_self s0 rest)⟩
